import Mathlib

/-!
# Verification of the offline C course sources

Shallow embedding of the final project's command dispatcher
(`milestones/final-project/src/main.c` and `config.h`), followed by the
chapter solutions and milestones: the knapsack, `gcd`, `lcm`, `is_prime`,
`factorial`, the reversal of linked lists, the contact manager and the
palindrome checker. Each section names its source file and its conventions.

Conventions of the embedding of the dispatcher

* a C string is a `String`; a `char *argv[]` of `argc` entries is a
  `List String` whose length is `argc`;
* a C `int` is an `Int` (no arithmetic of the dispatcher can overflow);
* a function pointer is the symbol it points to (`FnPtr`); what the pointed-to
  functions do is not part of `main.c`, so it is a parameter `call` giving,
  for each symbol, the `int` it returns on `(argc, argv)`;
* the plugin manager (`plugins/plugin_manager.h`) is a parameter: a record of
  its operations over an abstract registry state;
* text written to stdout, stderr and the log is not modelled;
* `exit(status)` is the outcome `Outcome.exited status`.
-/

namespace DevTools

/-! ## `config.h` -/

/-- Exit status `EXIT_SUCCESS` (`config.h` line 19). -/
def EXIT_SUCCESS : Int := 0

/-- Exit status `EXIT_FAILURE` (`config.h` line 20). -/
def EXIT_FAILURE : Int := 1

/-- System limit `MAX_PATH_LENGTH`: the size of `g_config.config_file`. -/
def MAX_PATH_LENGTH : Nat := 1024

/-- Enumerator `SUCCESS` of `ErrorCode`. -/
def SUCCESS : Int := 0
/-- Enumerator `ERROR_INVALID_ARGUMENT` of `ErrorCode`. -/
def ERROR_INVALID_ARGUMENT : Int := -1
/-- Enumerator `ERROR_FILE_NOT_FOUND` of `ErrorCode`. -/
def ERROR_FILE_NOT_FOUND : Int := -2
/-- Enumerator `ERROR_PERMISSION_DENIED` of `ErrorCode`. -/
def ERROR_PERMISSION_DENIED : Int := -3
/-- Enumerator `ERROR_MEMORY_ALLOCATION` of `ErrorCode`. -/
def ERROR_MEMORY_ALLOCATION : Int := -4
/-- Enumerator `ERROR_PARSE_ERROR` of `ErrorCode`. -/
def ERROR_PARSE_ERROR : Int := -5
/-- Enumerator `ERROR_NETWORK_ERROR` of `ErrorCode`. -/
def ERROR_NETWORK_ERROR : Int := -6
/-- Enumerator `ERROR_TIMEOUT` of `ErrorCode`. -/
def ERROR_TIMEOUT : Int := -7
/-- Enumerator `ERROR_PLUGIN_ERROR` of `ErrorCode`. -/
def ERROR_PLUGIN_ERROR : Int := -8
/-- Enumerator `ERROR_UNKNOWN` of `ErrorCode`. -/
def ERROR_UNKNOWN : Int := -9

/-- The values of the enumeration `ErrorCode` (`config.h` lines 39-50), in
declaration order. -/
def ErrorCode : List Int :=
  [SUCCESS, ERROR_INVALID_ARGUMENT, ERROR_FILE_NOT_FOUND, ERROR_PERMISSION_DENIED,
   ERROR_MEMORY_ALLOCATION, ERROR_PARSE_ERROR, ERROR_NETWORK_ERROR, ERROR_TIMEOUT,
   ERROR_PLUGIN_ERROR, ERROR_UNKNOWN]

/-- Enumerator `LOG_INFO` of `LogLevel` (the second one, after `LOG_DEBUG`). -/
def LOG_INFO : Int := 1

/-- The struct `DevToolsConfig` (`config.h` lines 86-95). -/
structure DevToolsConfig where
  config_file : String
  log_file : String
  verbose : Bool
  quiet : Bool
  color_output : Bool
  log_level : Int
  tab_size : Int
  confirm_operations : Bool
deriving DecidableEq, Repr

/-- The global `g_config` before `main` runs: static storage, all bytes zero. -/
def g_config_zero : DevToolsConfig :=
  { config_file := "", log_file := "", verbose := false, quiet := false,
    color_output := false, log_level := 0, tab_size := 0, confirm_operations := false }

/-- A function pointer, identified with the symbol it points to. -/
abbrev FnPtr := String

/-- The struct `Tool` (`config.h` lines 98-106). The two display callbacks are
optional (a null pointer is `none`); `version_callback` is the member
`void (*version)(void)`. -/
structure Tool where
  name : String
  description : String
  version : String
  author : String
  execute : FnPtr
  help : Option FnPtr
  version_callback : Option FnPtr
deriving DecidableEq, Repr

/-- Modelled from the spec: the type `Error` of the missing header
`common/error.h`; the spec's Error carries a kind and a free-form message, and
`main.c` reads the member `code`. -/
structure Error where
  code : Int
  message : String
deriving DecidableEq, Repr

/-- Modelled from the spec: the macro `SET_ERROR` of the missing header
`common/error.h`, which stores the kind and the formatted message in the
`Error` it is given. The formatting (`"Unknown tool: %s"`) is done by the
caller here, so `message` is the finished text. -/
def SET_ERROR (code : Int) (message : String) : Error :=
  { code := code, message := message }

/-- The struct `Command` (`config.h` lines 109-114). A null `tool` is `none`;
a null `argv` is the empty list. -/
structure Command where
  tool : Option Tool
  argc : Int
  argv : List String
  error : Error
deriving DecidableEq, Repr

/-- The value of `Command cmd = {0};`. -/
def Command.zero : Command :=
  { tool := none, argc := 0, argv := [], error := { code := 0, message := "" } }

/-- How a C function that may call `exit` ends: it returns a value to its
caller, or the process ends with a status. -/
inductive Outcome (α : Type) where
  | returned (value : α)
  | exited (status : Int)
deriving DecidableEq, Repr

/-! ## The C library's `getopt_long`

`parse_arguments` calls `getopt_long(argc, argv, "hvq", long_options, &option_index)`
(`main.c` line 176). `getopt_long` is not part of the repository; it is modelled
after its documented behaviour (getopt(3)):

* an element of `argv` that starts with `-` and is neither `-` nor `--` is an
  option element; `--` ends the scan; everything else is a non-option;
* since the option string `"hvq"` starts with neither `+` nor `-`, the scan is
  in the default mode: "getopt() permutes the contents of argv as it scans, so
  that eventually all the nonoptions are at the end"; the scan stops at the
  first non-option instead only when the environment variable
  `POSIXLY_CORRECT` is set;
* a long option may be abbreviated as long as the abbreviation is unique, and
  may carry its argument as `--name=value` or, when the argument is required,
  as the next element;
* an unknown, ambiguous or ill-formed option yields `'?'`;
* when the scan is over the result is `-1` and `optind` is the index in the
  permuted `argv` of the first non-option.

The scanner state keeps `argv` split at the positions the library tracks:
`scanned ++ nonopts ++ rest` is the current, permuted `argv`.
-/

/-- One `struct option`; the member `flag` is `0` in every entry of the table
in `parse_arguments` and is left out. -/
structure LongOption where
  name : String
  has_arg : Nat
  val : Int
deriving DecidableEq, Repr

/-- Value `no_argument` of `has_arg`. -/
def no_argument : Nat := 0
/-- Value `required_argument` of `has_arg`. -/
def required_argument : Nat := 1

/-- The table `long_options` of `parse_arguments` (`main.c` lines 166-174),
without its terminating all-zero entry. -/
def long_options : List LongOption :=
  [ { name := "help", has_arg := no_argument, val := 'h'.toNat },
    { name := "verbose", has_arg := no_argument, val := 'v'.toNat },
    { name := "quiet", has_arg := no_argument, val := 'q'.toNat },
    { name := "version", has_arg := no_argument, val := 1000 },
    { name := "list-tools", has_arg := no_argument, val := 1001 },
    { name := "config", has_arg := required_argument, val := 'c'.toNat } ]

/-- The option string `"hvq"` passed to `getopt_long`: three option characters,
none followed by `:`, so no short option takes an argument. -/
def optstring : List Char := ['h', 'v', 'q']

/-- The state of the scanner between two calls of `getopt_long`.

* `scanned`: `argv[0]` and the option elements (with their arguments) handed
  back so far, which the library moves in front of the non-options;
* `nonopts`: the non-options passed over so far;
* `rest`: the elements not yet looked at;
* `nextchar`: the characters still to read in the current `-abc` element;
* `optarg`: the library variable of that name. -/
structure GetoptState where
  scanned : List String
  nonopts : List String
  rest : List String
  nextchar : List Char
  optarg : Option String
deriving DecidableEq, Repr

/-- The library variable `optind` once `getopt_long` has returned `-1`: the
index of the first non-option in the permuted `argv`. -/
def GetoptState.optind (d : GetoptState) : Int := d.scanned.length

/-- The array `argv` as the scanner has permuted it. -/
def GetoptState.argv (d : GetoptState) : List String := d.scanned ++ d.nonopts ++ d.rest

/-- The scanner before the first call: `optind = 1`, nothing passed over. -/
def getopt_init (argv : List String) : GetoptState :=
  { scanned := argv.take 1, nonopts := [], rest := argv.drop 1, nextchar := [], optarg := none }

/-- The library's test for a non-option element:
`argv[optind][0] != '-' || argv[optind][1] == '\0'`. -/
def NONOPTION_P (arg : String) : Bool :=
  match arg.data with
  | '-' :: _ :: _ => false
  | _ => true

/-- Result of looking a name up in the table of long options. -/
inductive LongMatch where
  | found (p : LongOption)
  | ambiguous
  | unrecognized
deriving DecidableEq, Repr

/-- Lookup of a long option name: an exact match wins; otherwise the entries
the name abbreviates are collected, one candidate (or several that agree in
`has_arg` and `val`) is a match, several different ones are ambiguous. -/
def find_long_option (longopts : List LongOption) (name : List Char) : LongMatch :=
  match longopts.find? (fun p => p.name.data == name) with
  | some p => .found p
  | none =>
    match longopts.filter (fun p => name.isPrefixOf p.name.data) with
    | [] => .unrecognized
    | p :: ps =>
      if ps.all (fun q => q.has_arg == p.has_arg && q.val == p.val) then .found p
      else .ambiguous

/-- The element `arg` is `--` followed by `nextchar`; `rest` are the elements
after it. The element is consumed in every case. -/
def process_long_option (d : GetoptState) (arg : String) (rest : List String)
    (nextchar : List Char) : Int × GetoptState :=
  let name := nextchar.takeWhile (fun c => c != '=')
  let nameend := nextchar.dropWhile (fun c => c != '=')
  let d1 : GetoptState :=
    { d with scanned := d.scanned ++ [arg], rest := rest, nextchar := [], optarg := none }
  match find_long_option long_options name with
  | .ambiguous => ('?'.toNat, d1)
  | .unrecognized => ('?'.toNat, d1)
  | .found p =>
    match nameend with
    | _ :: value =>
      if p.has_arg ≠ no_argument then (p.val, { d1 with optarg := some (String.mk value) })
      else ('?'.toNat, d1)
    | [] =>
      if p.has_arg = required_argument then
        match rest with
        | a :: rest1 =>
          (p.val, { d1 with scanned := d1.scanned ++ [a], rest := rest1, optarg := some a })
        | [] => ('?'.toNat, d1)
      else (p.val, d1)

/-- The next short option character `c` of the current element, `cs` being the
characters after it: `c` itself when the option string has it, `'?'` if not. -/
def short_option (d : GetoptState) (c : Char) (cs : List Char) : Int × GetoptState :=
  let d1 : GetoptState := { d with nextchar := cs, optarg := none }
  if c ∈ optstring ∧ c ≠ ':' ∧ c ≠ ';' then (c.toNat, d1) else ('?'.toNat, d1)

/-- One call `getopt_long(argc, argv, "hvq", long_options, &option_index)`:
the value returned and the scanner state after the call. `posixly_correct`
tells whether the environment variable `POSIXLY_CORRECT` is set. -/
def getopt_long (posixly_correct : Bool) (d : GetoptState) : Int × GetoptState :=
  match d.nextchar with
  | c :: cs => short_option d c cs
  | [] =>
    let d0 : GetoptState :=
      if posixly_correct then { d with optarg := none }
      else { d with nonopts := d.nonopts ++ d.rest.takeWhile NONOPTION_P,
                    rest := d.rest.dropWhile NONOPTION_P, optarg := none }
    match d0.rest with
    | [] => (-1, d0)
    | arg :: rest =>
      if arg = "--" then
        (-1, { d0 with scanned := d0.scanned ++ [arg], nonopts := d0.nonopts ++ rest, rest := [] })
      else if NONOPTION_P arg then (-1, d0)
      else
        match arg.data with
        | '-' :: '-' :: name => process_long_option d0 arg rest name
        | _ :: c :: cs => short_option { d0 with scanned := d0.scanned ++ [arg], rest := rest } c cs
        | _ => (-1, d0)

/-! ## `main.c` -/

/-- How the `while` loop over `getopt_long` in `parse_arguments` ends. -/
inductive ScanResult where
  | finished (d : GetoptState) (g : DevToolsConfig)
  | unknown_option (g : DevToolsConfig)
  | exit_success (c : Int) (g : DevToolsConfig)
deriving DecidableEq, Repr

/-- The loop `while ((c = getopt_long(...)) != -1) switch (c) ...` of
`parse_arguments` (`main.c` lines 176-212), threading the scanner state and
`g_config`. The first argument bounds the number of iterations; `none` means
the bound was too small. -/
def parse_arguments_loop (posixly_correct : Bool) :
    Nat → GetoptState → DevToolsConfig → Option ScanResult
  | 0, _, _ => none
  | fuel + 1, d, g =>
    match getopt_long posixly_correct d with
    | (c, d1) =>
      if c = -1 then some (.finished d1 g)
      else if c = 'h'.toNat then some (.exit_success c g)
      else if c = 'v'.toNat then parse_arguments_loop posixly_correct fuel d1 { g with verbose := true }
      else if c = 'q'.toNat then parse_arguments_loop posixly_correct fuel d1 { g with quiet := true }
      else if c = 1000 then some (.exit_success c g)
      else if c = 1001 then some (.exit_success c g)
      else if c = 'c'.toNat then
        match d1.optarg with
        | some optarg =>
          parse_arguments_loop posixly_correct fuel d1
            { g with config_file := String.mk (optarg.data.take (MAX_PATH_LENGTH - 1)) }
        | none => parse_arguments_loop posixly_correct fuel d1 g
      else if c = '?'.toNat then some (.unknown_option g)
      else parse_arguments_loop posixly_correct fuel d1 g

/-- A number of iterations that is enough for every `argv`: each call of
`getopt_long` that does not end the scan uses up a character or an element. -/
def scan_bound (argv : List String) : Nat :=
  (argv.map (fun s => s.length + 1)).sum + 1

/-- The function `parse_arguments` (`main.c` lines 154-231). `find_tool` is the
registry lookup of the plugin manager, `g_config` the global configuration on
entry; the result is the `Command` returned (or the exit status) and the
configuration on exit. -/
def parse_arguments (posixly_correct : Bool) (find_tool : String → Option Tool)
    (g_config : DevToolsConfig) (argv : List String) :
    Option (Outcome Command × DevToolsConfig) :=
  let argc : Int := argv.length
  let cmd : Command := Command.zero
  if argc < 2 then
    some (.returned { cmd with error := SET_ERROR ERROR_INVALID_ARGUMENT "No arguments provided" },
          g_config)
  else
    match parse_arguments_loop posixly_correct (scan_bound argv) (getopt_init argv) g_config with
    | none => none
    | some (.exit_success _ g) => some (.exited EXIT_SUCCESS, g)
    | some (.unknown_option g) =>
      some (.returned { cmd with error := SET_ERROR ERROR_INVALID_ARGUMENT "Unknown option" }, g)
    | some (.finished d g) =>
      let optind : Int := d.optind
      let argv1 : List String := d.argv
      if optind ≥ argc then
        some (.returned { cmd with error := SET_ERROR ERROR_INVALID_ARGUMENT "No tool specified" }, g)
      else
        let tool_name : String := argv1.getD optind.toNat ""
        match find_tool tool_name with
        | none =>
          some (.returned { cmd with tool := none,
                                     error := SET_ERROR ERROR_INVALID_ARGUMENT
                                                ("Unknown tool: " ++ tool_name) }, g)
        | some t =>
          some (.returned { cmd with tool := some t, argc := argc - optind,
                                     argv := argv1.drop optind.toNat }, g)

/-- One call through a tool's `execute` pointer: the function called and the
`(argc, argv)` it was given. -/
structure Invocation where
  fn : FnPtr
  argc : Int
  argv : List String
deriving DecidableEq, Repr

/-- The function `execute_command` (`main.c` lines 233-250). `call` gives the
value each `execute` function returns; a null `cmd` is `none`. The result is
the value returned and the calls made through `execute` pointers. -/
def execute_command (call : FnPtr → Int → List String → Int) (cmd : Option Command) :
    Int × List Invocation :=
  match cmd with
  | none => (ERROR_INVALID_ARGUMENT, [])
  | some cmd =>
    match cmd.tool with
    | none => (ERROR_INVALID_ARGUMENT, [])
    | some tool =>
      let result : Int := call tool.execute (cmd.argc - 1) (cmd.argv.drop 1)
      (result, [{ fn := tool.execute, argc := cmd.argc - 1, argv := cmd.argv.drop 1 }])

/-- The operations of the plugin manager (`plugins/plugin_manager.h`, not part
of the sources) that `main.c` calls, over the registry state `R` they share.
`plugin_manager_init` is `none` when it returns `false`. -/
structure PluginManager (R : Type) where
  plugin_manager_init : Option R
  register_tool : R → Tool → Bool × R
  load_plugins : R → R
  find_tool : R → String → Option Tool

/-- The table `builtin_tools` (`main.c` lines 38-87). Members without an
initialiser are zero: empty strings and a null pointer. -/
def builtin_tools : List Tool :=
  [ { name := "file-analyzer",
      description := "Analyze files and directories for statistics",
      version := "", author := "",
      execute := "file_analyzer_execute", help := some "file_analyzer_help",
      version_callback := none },
    { name := "text-processor",
      description := "Process and transform text files",
      version := "", author := "",
      execute := "text_processor_execute", help := some "text_processor_help",
      version_callback := none },
    { name := "hash-generate",
      description := "Generate file hashes (MD5, SHA1, SHA256)",
      version := "", author := "",
      execute := "hash_generator_execute", help := some "hash_generator_help",
      version_callback := none },
    { name := "json-validator",
      description := "Validate and pretty-print JSON files",
      version := "", author := "",
      execute := "json_validator_execute", help := some "json_validator_help",
      version_callback := none },
    { name := "base64-encoder",
      description := "Encode and decode Base64 data",
      version := "", author := "",
      execute := "base64_encoder_execute", help := some "base64_encoder_help",
      version_callback := none },
    { name := "url-encoder",
      description := "Encode and decode URLs",
      version := "", author := "",
      execute := "url_encoder_execute", help := some "url_encoder_help",
      version_callback := none },
    { name := "code-metrics",
      description := "Calculate code complexity and statistics",
      version := "", author := "",
      execute := "code_metrics_execute", help := some "code_metrics_help",
      version_callback := none },
    { name := "color-palette",
      description := "Generate and display color palettes",
      version := "", author := "",
      execute := "color_palette_execute", help := some "color_palette_help",
      version_callback := none } ]

/-- The loop `for (i = 0; i < n; i++) if (!register_tool(&builtin_tools[i])) LOG_WARN(...)`
of `init_devtools` (`main.c` lines 109-113) over the table entries still to
register: the registry afterwards and, appended to `calls`, each call of
`register_tool` with the value it returned. -/
def register_builtin_tools {R : Type} (pm : PluginManager R) :
    List Tool → R → List (Tool × Bool) → R × List (Tool × Bool)
  | [], r, calls => (r, calls)
  | t :: ts, r, calls =>
    match pm.register_tool r t with
    | (ok, r1) => register_builtin_tools pm ts r1 (calls ++ [(t, ok)])

/-- What `init_devtools` leaves behind: the value returned, `g_config`, the
registry (when the plugin manager came up) and the calls of `register_tool`
made, in order, each with its result. -/
structure InitResult (R : Type) where
  ok : Bool
  g_config : DevToolsConfig
  registry : Option R
  register_calls : List (Tool × Bool)

/-- The function `init_devtools` (`main.c` lines 89-120). `init_logging` is
the value returned by the logging collaborator; it only decides whether a
warning is printed. -/
def init_devtools {R : Type} (pm : PluginManager R) (init_logging : Bool)
    (g_config : DevToolsConfig) : InitResult R :=
  let g : DevToolsConfig :=
    { g_config with config_file := "~/.devtoolsrc", log_file := "devtools.log",
                    verbose := false, quiet := false, log_level := LOG_INFO }
  let _warned : Bool := !init_logging
  match pm.plugin_manager_init with
  | none => { ok := false, g_config := g, registry := none, register_calls := [] }
  | some r0 =>
    match register_builtin_tools pm builtin_tools r0 [] with
    | (r1, calls) =>
      { ok := true, g_config := g, registry := some (pm.load_plugins r1),
        register_calls := calls }

/-- The function `main` (`main.c` lines 252-277): how the process ends (the
value `main` returns, or the status of an `exit` inside `parse_arguments`) and
the calls made through `execute` pointers. `none` only if the scan bound of
`parse_arguments` were too small. -/
def main {R : Type} (posixly_correct : Bool) (pm : PluginManager R) (init_logging : Bool)
    (call : FnPtr → Int → List String → Int) (argv : List String) :
    Option (Outcome Int × List Invocation) :=
  let init := init_devtools pm init_logging g_config_zero
  match init.ok, init.registry with
  | true, some r =>
    match parse_arguments posixly_correct (pm.find_tool r) init.g_config argv with
    | none => none
    | some (.exited status, _) => some (.exited status, [])
    | some (.returned cmd, _) =>
      if cmd.error.code ≠ SUCCESS then some (.returned EXIT_FAILURE, [])
      else
        match execute_command call (some cmd) with
        | (result, calls) =>
          some (.returned (if result = SUCCESS then EXIT_SUCCESS else EXIT_FAILURE), calls)
  | _, _ => some (.returned EXIT_FAILURE, [])

/-! ## The registry of the plugin manager -/

/-- Modelled from the spec: the registry of the plugin manager, whose source
(`plugins/plugin_manager.c`) is missing: "an insertion-ordered collection
mapping unique names to descriptors". -/
abbrev Registry := List Tool

/-- Longest tool name a `Tool` can hold: `char name[64]` less the terminator. -/
def MAX_NAME_LENGTH : Nat := 63

/-- Modelled from the spec: `register_tool` of the missing plugin manager.
"`register(descriptor)`: inserts if `name` not already present; fails with
`InvalidArgument` (duplicate) otherwise. Insertion order is preserved", and
"construction fails (rejected at registration) if `name` is empty or exceeds a
fixed maximum length". The result is the failure, if any, and the registry
after the call. -/
def register_tool (r : Registry) (t : Tool) : Option Error × Registry :=
  if t.name = "" ∨ MAX_NAME_LENGTH < t.name.length then
    (some (SET_ERROR ERROR_INVALID_ARGUMENT ("Invalid tool name: " ++ t.name)), r)
  else if t.name ∈ r.map Tool.name then
    (some (SET_ERROR ERROR_INVALID_ARGUMENT ("Duplicate tool name: " ++ t.name)), r)
  else (none, r ++ [t])

/-- Modelled from the spec: `find_tool` of the missing plugin manager.
"`lookup(name)`: exact-match lookup; no fuzzy matching, no case folding.
Returns nothing (not an error) if absent". -/
def find_tool (r : Registry) (name : String) : Option Tool :=
  r.find? (fun t => t.name = name)

/-- Modelled from the spec: `plugin_manager_list_tools` of the missing plugin
manager. "`list()`: produces entries in registration order". -/
def plugin_manager_list_tools (r : Registry) : List Tool := r

/-- The registry after a sequence of `register_tool` calls, one per
descriptor of the list, in order. -/
def register_all (r : Registry) (ts : List Tool) : Registry :=
  ts.foldl (fun acc t => (register_tool acc t).2) r

/-- Modelled from the spec: the plugin manager of the spec, as the record of
operations `main.c` is written against: the registry is "created empty at
process start", `register_tool` reports success as a `bool`, and no external
plugin is loaded. -/
def spec_plugin_manager : PluginManager Registry :=
  { plugin_manager_init := some [],
    register_tool := fun r t => (((register_tool r t).1).isNone, (register_tool r t).2),
    load_plugins := fun r => r,
    find_tool := find_tool }

/-! ## Notions used to state the properties -/

/-- Size of what the scanner still has to read: the characters left in the
current element and the elements after it. -/
def scan_measure (d : GetoptState) : Nat :=
  d.nextchar.length + (d.rest.map (fun s => s.length + 1)).sum

/-- The spellings of the two global options that only set a field of
`g_config`: `-v`, `--verbose`, `-q` and `--quiet`. -/
def flag_options : List String := ["-v", "--verbose", "-q", "--quiet"]

/-- What `parse_arguments` does to `g_config` for one element of
`flag_options` (`case 'v'` and `case 'q'`, `main.c` lines 183-189). -/
def set_flag (g : DevToolsConfig) (o : String) : DevToolsConfig :=
  if o = "-v" ∨ o = "--verbose" then { g with verbose := true }
  else if o = "-q" ∨ o = "--quiet" then { g with quiet := true }
  else g

/-- Whether an option element takes the element after it as its argument: a
long option of the table that requires an argument (here `--config`, or an
abbreviation of it), written without `=value`. -/
def takes_next (arg : String) : Bool :=
  match arg.data with
  | '-' :: '-' :: nextchar =>
    match find_long_option long_options (nextchar.takeWhile (fun c => c != '=')),
          nextchar.dropWhile (fun c => c != '=') with
    | .found p, [] => p.has_arg == required_argument
    | _, _ => false
  | _ => false

/-- The non-option tokens of a command line (the elements after `argv[0]`), in
order, read off the command line as getopt(3) describes it: `--` ends the
options and everything after it is a non-option; an element that does not
start with `-` (or is `-` alone) is a non-option; an option element is skipped,
together with the element after it when that is its argument. With
`POSIXLY_CORRECT` set the options end at the first non-option. -/
def operands (posixly_correct : Bool) : List String → List String
  | [] => []
  | arg :: rest =>
    if arg = "--" then rest
    else if NONOPTION_P arg then
      if posixly_correct then arg :: rest else arg :: operands posixly_correct rest
    else if takes_next arg then
      match rest with
      | [] => []
      | _ :: rest1 => operands posixly_correct rest1
    else operands posixly_correct rest

/-- The invariant of the spec's registry: the names are pairwise different and
each one is a valid tool name (not empty, at most `MAX_NAME_LENGTH` long). -/
def registry_ok (r : Registry) : Prop :=
  (r.map Tool.name).Nodup ∧ ∀ t ∈ r, t.name ≠ "" ∧ t.name.length ≤ MAX_NAME_LENGTH

instance (r : Registry) : Decidable (registry_ok r) := by
  unfold registry_ok
  infer_instance

end DevTools

namespace DevTools

/-! ## Notions used to state the properties of the registry listing and of the global options -/

/-- The descriptors of a sequence of `register_tool` calls on the registry `r`
whose call succeeded, in call order. -/
def successful_registrations (r : Registry) : List Tool → List Tool
  | [] => []
  | t :: ts =>
    if (register_tool r t).1.isNone then t :: successful_registrations (register_tool r t).2 ts
    else successful_registrations (register_tool r t).2 ts

/-- A global option that does not end the process, in the spellings of the
help text (`main.c` lines 137-142): `-v` or `--verbose`, `-q` or `--quiet`,
`--config FILE`. -/
inductive GlobalOption where
  | verbose (long : Bool)
  | quiet (long : Bool)
  | config (file : String)
deriving DecidableEq, Repr

/-- The command-line tokens of a global option. -/
def GlobalOption.tokens : GlobalOption → List String
  | .verbose false => ["-v"]
  | .verbose true => ["--verbose"]
  | .quiet false => ["-q"]
  | .quiet true => ["--quiet"]
  | .config file => ["--config", file]

/-- The documented effect of a global option on `g_config`: `-v`/`--verbose`
sets `verbose`, `-q`/`--quiet` sets `quiet`, `--config FILE` stores the first
1023 characters of `FILE` in `config_file`; no other field changes. -/
def GlobalOption.effect (g : DevToolsConfig) : GlobalOption → DevToolsConfig
  | .verbose _ => { g with verbose := true }
  | .quiet _ => { g with quiet := true }
  | .config file => { g with config_file := String.mk (file.data.take 1023) }

/-- The spellings of the global options that end the process: `-h`, `--help`,
`--version` and `--list-tools`. -/
def exit_options : List String := ["-h", "--help", "--version", "--list-tools"]

end DevTools

/-! # C `int` arithmetic

The remaining programs compute with `int` (32 bits). An `int` is an `Int`
between `INT_MIN` and `INT_MAX`; where the mathematical result of an operation
may leave that range the model wraps it around (two's complement), as the
usual targets do. -/

namespace CInt

/-- Largest value of a C `int` (32 bits). -/
def INT_MAX : Int := 2147483647

/-- Smallest value of a C `int` (32 bits). -/
def INT_MIN : Int := -2147483648

/-- The `int` a computation yields when its mathematical result is `x`:
two's-complement wrap-around to 32 bits. -/
def wrap_int (x : Int) : Int := (x + 2147483648) % 4294967296 - 2147483648

end CInt

/-! # Chapter 12: the 0/1 knapsack (`solutions/chapter-12/knapsack_dp.c`)

The table `dp[MAX_ITEMS + 1][MAX_CAPACITY + 1]` is kept as the list of its
rows, each row as the list of its columns `0 .. capacity` (the columns beyond
`capacity` are never written and stay 0). The array `items` with its length `n`
is a `List Item`; the array `selected_items` is a `List Int`. -/

namespace Knapsack
open CInt

/-- The constant `MAX_ITEMS` (line 8). -/
def MAX_ITEMS : Nat := 100

/-- The constant `MAX_CAPACITY` (line 9). -/
def MAX_CAPACITY : Nat := 1000

/-- The struct `Item` (lines 11-15). -/
structure Item where
  weight : Int
  value : Int
  name : String
deriving DecidableEq, Repr

/-- The body of the inner loop of `knapsack_01_dp` (lines 28-36): the value
stored in `dp[i][w]`, where `item` is `items[i - 1]` and `prev` is row
`dp[i - 1]`. A column beyond `capacity` reads as 0. -/
def dp_cell (item : Item) (prev : List Int) (w : Nat) : Int :=
  if item.weight > w then prev.getD w 0
  else
    let include_value := wrap_int (item.value + prev.getD ((w : Int) - item.weight).toNat 0)
    let exclude_value := prev.getD w 0
    if include_value > exclude_value then include_value else exclude_value

/-- Row `dp[i]` after the inner loop `for (w = 1; w <= capacity; w++)`
(line 27); column 0 keeps the 0 of `memset`. -/
def dp_row (item : Item) (prev : List Int) (capacity : Nat) : List Int :=
  (List.range (capacity + 1)).map (fun w => if w = 0 then 0 else dp_cell item prev w)

/-- The rows the outer loop `for (i = 1; i <= n; i++)` (line 26) fills for the
items still to come, `prev` being the row before them. -/
def dp_rows (capacity : Nat) : List Item → List Int → List (List Int)
  | [], _ => []
  | item :: rest, prev =>
    dp_row item prev capacity :: dp_rows capacity rest (dp_row item prev capacity)

/-- The table `dp` after both loops: row 0 is all 0 (`memset`, line 23). -/
def dp_table (items : List Item) (capacity : Nat) : List (List Int) :=
  List.replicate (capacity + 1) 0 :: dp_rows capacity items (List.replicate (capacity + 1) 0)

/-- The entry `dp[i][w]`. -/
def dp_get (dp : List (List Int)) (i : Nat) (w : Int) : Int := (dp.getD i []).getD w.toNat 0

/-- The backtracking loop `for (i = n; i > 0 && w > 0; i--)` (lines 41-50),
from the current `i` and `w`: the array `selected_items` when the loop ends. -/
def backtrack (items : List Item) (dp : List (List Int)) : Nat → Int → List Int → List Int
  | 0, _, selected_items => selected_items
  | i + 1, w, selected_items =>
    if w > 0 then
      if dp_get dp (i + 1) w ≠ dp_get dp i w then
        backtrack items dp i (wrap_int (w - (items.getD i ⟨0, 0, ""⟩).weight))
          (selected_items.set i 1)
      else backtrack items dp i w (selected_items.set i 0)
    else selected_items

/-- The function `knapsack_01_dp` (lines 18-53): the value returned and the
array `selected_items` on return. The result is `none` when the call would
index outside `dp` or outside `selected_items` (more than `MAX_ITEMS` items, a
capacity outside `0 .. MAX_CAPACITY`, an array shorter than `n`). -/
def knapsack_01_dp (items : List Item) (capacity : Int) (selected_items : List Int) :
    Option (Int × List Int) :=
  if items.length ≤ MAX_ITEMS ∧ 0 ≤ capacity ∧ capacity ≤ MAX_CAPACITY ∧
      items.length ≤ selected_items.length then
    let dp := dp_table items capacity.toNat
    some (dp_get dp items.length capacity,
          backtrack items dp items.length capacity selected_items)
  else none

/-- The items that `selected_items` flags, in order: those with a non-zero
entry, the test of `print_knapsack_solution` (line 155). -/
def selected_subset (items : List Item) (selected_items : List Int) : List Item :=
  ((items.zip selected_items).filter (fun p => p.2 ≠ 0)).map Prod.fst

/-- The function `print_knapsack_solution` (lines 150-164): the items it lists
and the two totals it prints, the total weight being summed in `int`. -/
def print_knapsack_solution (items : List Item) (selected_items : List Int) (total_value : Int) :
    List Item × Int × Int :=
  (selected_subset items selected_items,
   (items.zip selected_items).foldl
     (fun total_weight p => if p.2 ≠ 0 then wrap_int (total_weight + p.1.weight) else total_weight) 0,
   total_value)

/-- The items of test case 1 of `main` (lines 171-175). -/
def items1 : List Item := [⟨10, 60, "Laptop"⟩, ⟨20, 100, "Camera"⟩, ⟨30, 120, "Tablet"⟩]

/-! ## Notions used to state the properties -/

/-- Total weight of a selection of items. -/
def total_weight (s : List Item) : Int := (s.map Item.weight).sum

/-- Total value of a selection of items. -/
def total_value (s : List Item) : Int := (s.map Item.value).sum

/-- Row `dp[i]` of the table as a function of the first `i` items, the last
one first. -/
def row (capacity : Nat) : List Item → List Int
  | [] => List.replicate (capacity + 1) 0
  | item :: acc => dp_row item (row capacity acc) capacity

/-- The recurrence of the 0/1 knapsack over unbounded integers: the best total
value of a selection among the given items (the last one first) whose total
weight is at most `w`. -/
def best : List Item → Int → Int
  | [], _ => 0
  | item :: acc, w =>
    if item.weight > w then best acc w
    else max (item.value + best acc (w - item.weight)) (best acc w)

/-- Sum of `f` over the items with index below `n` that `selected_items` flags. -/
def flagged_sum (f : Item → Int) (items : List Item) (selected_items : List Int) (n : Nat) : Int :=
  ((List.range n).map (fun j =>
    if selected_items.getD j 0 ≠ 0 then f (items.getD j ⟨0, 0, ""⟩) else 0)).sum

end Knapsack

/-! # Milestone 1: number theory (`milestones/milestone-01/number_theory.c`)

The loop of `gcd` is run on fuel; `gcd` hands it more rounds than the loop can
take, so the result `none` (fuel used up) never occurs on `int` arguments. The
operators `/` and `%` of C truncate towards zero: `Int.tdiv` and `Int.tmod`. -/

namespace CInt

/-- Result of a run in which a signed overflow may occur: the value returned,
or `overflow` when the run evaluates an `int` expression whose mathematical
value is no `int` (the behaviour is then undefined). -/
inductive Run where
  | returned (v : Int)
  | overflow
deriving DecidableEq, Repr

end CInt

namespace NumberTheory
open CInt

/-- The loop `while (b != 0)` of `gcd` (lines 8-12). -/
def gcd_loop : Nat → Int → Int → Option Int
  | 0, _, _ => none
  | fuel + 1, a, b =>
    if b ≠ 0 then
      let temp := b
      gcd_loop fuel temp (Int.tmod a b)
    else some a

/-- The function `gcd` (lines 4-15). -/
def gcd (a b : Int) : Option Int :=
  let a := if a < 0 then wrap_int (-a) else a
  let b := if b < 0 then wrap_int (-b) else b
  gcd_loop (b.natAbs + 1) a b

/-- The function `lcm` (lines 18-24). -/
def lcm (a b : Int) : Option Int :=
  if a = 0 ∨ b = 0 then some 0
  else (gcd a b).map (fun g => wrap_int (Int.tdiv a g * b))

/-- The loop `for (int i = 3; i * i <= number; i += 2)` of `is_prime`
(lines 40-44). The product `i * i` is no `int` from `i = 46341` on, so the
loop takes at most 23170 rounds. -/
def is_prime_loop : Nat → Int → Int → Option Run
  | 0, _, _ => none
  | fuel + 1, number, i =>
    if i * i > INT_MAX then some Run.overflow
    else if i * i ≤ number then
      if Int.tmod number i = 0 then some (Run.returned 0)
      else is_prime_loop fuel number (i + 2)
    else some (Run.returned 1)

/-- The function `is_prime` (lines 27-47). -/
def is_prime (number : Int) : Option Run :=
  if number ≤ 1 then some (Run.returned 0)
  else if number = 2 then some (Run.returned 1)
  else if Int.tmod number 2 = 0 then some (Run.returned 0)
  else is_prime_loop 23171 number 3

end NumberTheory

/-! # Chapter 10: `solutions/chapter-10/math_utils.c` -/

namespace MathUtils
open CInt

/-- The loop `while (b != 0)` of `gcd` (lines 41-45). -/
def gcd_loop : Nat → Int → Int → Option Int
  | 0, _, _ => none
  | fuel + 1, a, b =>
    if b ≠ 0 then
      let temp := b
      gcd_loop fuel temp (Int.tmod a b)
    else some a

/-- The function `gcd` (lines 37-47). -/
def gcd (a b : Int) : Option Int :=
  let a := if a < 0 then wrap_int (-a) else a
  let b := if b < 0 then wrap_int (-b) else b
  gcd_loop (b.natAbs + 1) a b

/-- The function `lcm` (lines 49-52). -/
def lcm (a b : Int) : Option Int :=
  if a = 0 ∨ b = 0 then some 0
  else (gcd a b).map (fun g => wrap_int (Int.tdiv a g * b))

/-- The loop `for (int i = 3; i * i <= n; i += 2)` of `is_prime`
(lines 59-61). -/
def is_prime_loop : Nat → Int → Int → Option Run
  | 0, _, _ => none
  | fuel + 1, n, i =>
    if i * i > INT_MAX then some Run.overflow
    else if i * i ≤ n then
      if Int.tmod n i = 0 then some (Run.returned 0)
      else is_prime_loop fuel n (i + 2)
    else some (Run.returned 1)

/-- The function `is_prime` (lines 54-63). -/
def is_prime (n : Int) : Option Run :=
  if n ≤ 1 then some (Run.returned 0)
  else if n = 2 then some (Run.returned 1)
  else if Int.tmod n 2 = 0 then some (Run.returned 0)
  else is_prime_loop 23171 n 3

end MathUtils

/-! # Chapter 4: `solutions/chapter-04/number_properties.c` -/

namespace NumberProperties
open CInt

/-- The loop `for (int i = 3; i * i <= num; i += 2)` of `is_prime`
(lines 44-48). -/
def is_prime_loop : Nat → Int → Int → Option Run
  | 0, _, _ => none
  | fuel + 1, num, i =>
    if i * i > INT_MAX then some Run.overflow
    else if i * i ≤ num then
      if Int.tmod num i = 0 then some (Run.returned 0)
      else is_prime_loop fuel num (i + 2)
    else some (Run.returned 1)

/-- The function `is_prime` (lines 39-51). -/
def is_prime (num : Int) : Option Run :=
  if num ≤ 1 then some (Run.returned 0)
  else if num = 2 then some (Run.returned 1)
  else if Int.tmod num 2 = 0 then some (Run.returned 0)
  else is_prime_loop 23171 num 3

end NumberProperties

/-! # Milestone 1: `factorial` (`milestones/milestone-01/advanced_ops.c`)

The type `long` has 64 bits; its multiplication wraps around modulo `2 ^ 64`. -/

namespace CInt

/-- The `long` a computation yields when its mathematical result is `x`:
two's-complement wrap-around to 64 bits. -/
def wrap_long (x : Int) : Int :=
  (x + 9223372036854775808) % 18446744073709551616 - 9223372036854775808

end CInt

namespace AdvancedOps
open CInt

/-- The loop `for (int i = 2; i <= number; i++)` of `factorial` (lines 30-37),
run on fuel. -/
def factorial_loop : Nat → Int → Int → Int → Option Int
  | 0, _, _, _ => none
  | fuel + 1, number, i, result =>
    if i ≤ number then
      let result := wrap_long (result * i)
      if result < 0 then some (-1)
      else factorial_loop fuel number (wrap_int (i + 1)) result
    else some result

/-- The function `factorial` (lines 20-40). The loop tests its condition at
most `number` times, which is the fuel it gets. -/
def factorial (number : Int) : Option Int :=
  if number < 0 then some (-1)
  else if number = 0 ∨ number = 1 then some 1
  else
    let result := 1
    factorial_loop number.toNat number 2 result

end AdvancedOps

/-! # Chapter 11: linked lists (`solutions/chapter-11/linked_list_operations.c`)

A `Node*` is an address, a natural number, with 0 for `NULL`; the memory maps
every address to the node stored there. A function that writes to nodes takes
the memory and returns the new memory with its result. Loops and recursion run
on fuel: on a cyclic list they do not end. -/

namespace LinkedList

/-- The struct `Node` (lines 7-10); `next` is an address, 0 for `NULL`. -/
structure Node where
  data : Int
  next : Nat
deriving DecidableEq, Repr

/-- The memory: the node stored at each address. -/
abbrev Heap := Nat → Node

/-- The loop `while (current != NULL)` of `reverse_list` (lines 108-113), from
the current `prev` and `current`; it ends with the memory and `prev`. -/
def reverse_list_loop : Nat → Heap → Nat → Nat → Option (Heap × Nat)
  | 0, _, _, _ => none
  | fuel + 1, h, prev, current =>
    if current ≠ 0 then
      let next := (h current).next
      let h := Function.update h current { h current with next := prev }
      reverse_list_loop fuel h current next
    else some (h, prev)

/-- The function `reverse_list` (lines 103-116): the memory on return and the
pointer returned. -/
def reverse_list (fuel : Nat) (h : Heap) (head : Nat) : Option (Heap × Nat) :=
  let prev := 0
  let current := head
  reverse_list_loop fuel h prev current

/-- The loop `while (current != NULL)` of `reverse_list_iterative`
(lines 124-129). -/
def reverse_list_iterative_loop : Nat → Heap → Nat → Nat → Option (Heap × Nat)
  | 0, _, _, _ => none
  | fuel + 1, h, prev, current =>
    if current ≠ 0 then
      let next := (h current).next
      let h := Function.update h current { h current with next := prev }
      reverse_list_iterative_loop fuel h current next
    else some (h, prev)

/-- The function `reverse_list_iterative` (lines 119-132). The variable
`*head_ref` is no node of the list: the function takes its value before the
call and returns, with the memory of the nodes, its value after the call. -/
def reverse_list_iterative (fuel : Nat) (h : Heap) (head : Nat) : Option (Heap × Nat) :=
  let prev := 0
  let current := head
  reverse_list_iterative_loop fuel h prev current

/-- The function `reverse_list_recursive` (lines 135-149): the memory on
return and the pointer returned. -/
def reverse_list_recursive : Nat → Heap → Nat → Option (Heap × Nat)
  | 0, _, _ => none
  | fuel + 1, h, head =>
    if head = 0 ∨ (h head).next = 0 then some (h, head)
    else
      match reverse_list_recursive fuel h (h head).next with
      | none => none
      | some (h, rest) =>
        let h := Function.update h (h head).next { h (h head).next with next := head }
        let h := Function.update h head { h head with next := 0 }
        some (h, rest)

/-! ## Notions used to state the properties -/

/-- A list segment: from `p` the `next` pointers run through the non-null
addresses `addrs`, in this order, and then reach `q`. -/
def lseg (h : Heap) : Nat → Nat → List Nat → Prop
  | p, q, [] => p = q
  | p, q, a :: rest => p = a ∧ a ≠ 0 ∧ lseg h (h a).next q rest

/-- A finite singly linked list: from `p` the `next` pointers run through the
nodes at `addrs` and then reach `NULL`. -/
def is_list (h : Heap) (p : Nat) (addrs : List Nat) : Prop := lseg h p 0 addrs

/-- The pointer `p` heads a finite list whose elements are `xs`, in order. -/
def represents (h : Heap) (p : Nat) (xs : List Int) : Prop :=
  ∃ addrs, is_list h p addrs ∧ addrs.map (fun a => (h a).data) = xs

/-- The elements of the list that `p` heads, read by following at most `fuel`
pointers; `none` when the list is longer. -/
def to_list : Nat → Heap → Nat → Option (List Int)
  | 0, _, _ => none
  | fuel + 1, h, p =>
    if p = 0 then some []
    else (to_list fuel h (h p).next).map (fun xs => (h p).data :: xs)

/-- The memory after the five calls of `insert_back` in `main`
(lines 180-184), with the nodes at the addresses 1 to 5. -/
def main_heap : Heap := fun a =>
  if a = 1 then ⟨10, 2⟩ else if a = 2 then ⟨20, 3⟩ else if a = 3 then ⟨30, 4⟩
  else if a = 4 then ⟨40, 5⟩ else if a = 5 then ⟨50, 0⟩ else ⟨0, 0⟩

/-- The three reversal functions of the file. -/
def reversals : List (Nat → Heap → Nat → Option (Heap × Nat)) :=
  [reverse_list, reverse_list_iterative, reverse_list_recursive]

end LinkedList

/-! # Milestone 2: the contact manager (`milestones/milestone-02/contact.c`)

The array `cm->contacts` with its length `cm->count` is the list of its first
`count` entries; the entries beyond `count` are never read. The fixed-size
`char` arrays of a contact are strings (`strcmp(a, b) == 0` is equality). The
outcome of `realloc` and the values of `time(NULL)` are parameters. A pointer
to an entry of the array is the index of the entry. -/

namespace ContactBook
open CInt

/-- The constant `INITIAL_CAPACITY` (contact.h line 6). -/
def INITIAL_CAPACITY : Int := 10

/-- The constant `MAX_CONTACTS` (contact.h line 7). -/
def MAX_CONTACTS : Int := 10000

/-- The struct `Contact` (contact.h lines 11-23). -/
structure Contact where
  id : Int
  first_name : String
  last_name : String
  phone : String
  email : String
  company : String
  address : String
  group : String
  notes : String
  created : Int
  modified : Int
deriving DecidableEq, Repr

/-- The struct `ContactManager` (contact.h lines 26-31); `contacts` holds the
first `count` entries of the array, so that `count` is its length. -/
structure ContactManager where
  contacts : List Contact
  capacity : Int
  next_id : Int
deriving DecidableEq, Repr

/-- The field `count`. -/
def ContactManager.count (cm : ContactManager) : Int := cm.contacts.length

/-- The manager that a successful `init_contact_manager` leaves
(lines 8-21): no contacts, capacity `INITIAL_CAPACITY`, `next_id` 1. -/
def init_contact_manager : ContactManager := ⟨[], INITIAL_CAPACITY, 1⟩

/-- The function `resize_contacts` (lines 35-44); `realloc_ok` tells whether
`realloc` succeeds. -/
def resize_contacts (cm : ContactManager) (new_capacity : Int) (realloc_ok : Bool) :
    Int × ContactManager :=
  if new_capacity ≤ cm.capacity then (0, cm)
  else if realloc_ok = false then (0, cm)
  else (1, { cm with capacity := new_capacity })

/-- The loop of `is_duplicate_phone` (lines 293-298) over the entries still
to visit. -/
def is_duplicate_phone_loop (phone : String) (exclude_id : Int) : List Contact → Int
  | [] => 0
  | c :: rest =>
    if c.id ≠ exclude_id ∧ c.phone = phone then 1
    else is_duplicate_phone_loop phone exclude_id rest

/-- The function `is_duplicate_phone` (lines 290-301). -/
def is_duplicate_phone (cm : ContactManager) (phone : String) (exclude_id : Int) : Int :=
  is_duplicate_phone_loop phone exclude_id cm.contacts

/-- The search loop `for (int i = 0; i < cm->count; i++)` with the test
`cm->contacts[i].id == id`, shared by `update_contact`, `delete_contact` and
`find_contact_by_id`: the first index `i` (counted from `i`) whose entry has
the id. -/
def find_index (id : Int) : List Contact → Nat → Option Nat
  | [], _ => none
  | c :: rest, i => if c.id = id then some i else find_index id rest (i + 1)

/-- The function `add_contact` (lines 47-74): the value returned and the
manager afterwards. The result is `none` when the write
`cm->contacts[cm->count]` would be outside the array. -/
def add_contact (cm : ContactManager) (contact : Contact) (realloc_ok : Bool)
    (now1 now2 : Int) : Option (Int × ContactManager) :=
  if cm.count ≥ MAX_CONTACTS then some (0, cm)
  else
    let resized :=
      if cm.count ≥ cm.capacity then resize_contacts cm (wrap_int (cm.capacity * 2)) realloc_ok
      else (1, cm)
    if resized.1 = 0 then some (0, resized.2)
    else
      let cm := resized.2
      if is_duplicate_phone cm contact.phone (-1) ≠ 0 then some (-1, cm)
      else
        let new_contact := { contact with id := cm.next_id, created := now1, modified := now2 }
        if cm.count < cm.capacity then
          some (new_contact.id,
            { cm with contacts := cm.contacts ++ [new_contact],
                      next_id := wrap_int (cm.next_id + 1) })
        else none

/-- The function `update_contact` (lines 77-98). -/
def update_contact (cm : ContactManager) (id : Int) (contact : Contact) (now : Int) :
    Int × ContactManager :=
  match find_index id cm.contacts 0 with
  | none => (0, cm)
  | some i =>
    if is_duplicate_phone cm contact.phone id ≠ 0 then (-1, cm)
    else
      let created := (cm.contacts.getD i contact).created
      (1, { cm with contacts :=
              cm.contacts.set i { contact with id := id, created := created, modified := now } })

/-- The loop `for (int j = i; j < cm->count - 1; j++)` of `delete_contact`
(lines 107-109) from place `j`, with the number of rounds it still runs: each
round copies entry `j + 1` to place `j`. -/
def shift_loop : Nat → Nat → List Contact → List Contact
  | 0, _, contacts => contacts
  | rounds + 1, j, contacts =>
    match contacts[j + 1]? with
    | some c => shift_loop rounds (j + 1) (contacts.set j c)
    | none => contacts

/-- The function `delete_contact` (lines 101-116): from the first entry with
the id on, the shift loop runs `count - 1 - i` rounds, and `count--` gives up
the last place. -/
def delete_contact (cm : ContactManager) (id : Int) : Int × ContactManager :=
  match find_index id cm.contacts 0 with
  | none => (0, cm)
  | some i =>
    let contacts := shift_loop (cm.contacts.length - 1 - i) i cm.contacts
    (1, { cm with contacts := contacts.take (cm.contacts.length - 1) })

/-- The function `find_contact_by_id` (lines 119-129): the index of the entry
pointed to, `none` for `NULL`. -/
def find_contact_by_id (cm : ContactManager) (id : Int) : Option Nat :=
  find_index id cm.contacts 0

/-- The managers reached from `init_contact_manager` by calls of
`add_contact`, `update_contact` and `delete_contact`. With `bounded` set, no
call of `add_contact` adds a contact while `next_id` is `INT_MAX`, that is,
`next_id` never overflows. -/
inductive reached (bounded : Bool) : ContactManager → Prop
  | init : reached bounded init_contact_manager
  | add (cm : ContactManager) (contact : Contact) (realloc_ok : Bool) (now1 now2 : Int)
      (r : Int) (cm1 : ContactManager) :
      reached bounded cm → add_contact cm contact realloc_ok now1 now2 = some (r, cm1) →
      (bounded = true → cm.next_id < INT_MAX ∨ cm1.next_id = cm.next_id) →
      reached bounded cm1
  | update (cm : ContactManager) (id : Int) (contact : Contact) (now : Int) :
      reached bounded cm → reached bounded (update_contact cm id contact now).2
  | delete (cm : ContactManager) (id : Int) :
      reached bounded cm → reached bounded (delete_contact cm id).2

/-- The state of a manager that keeps ids apart: `next_id` is a positive
`int`, every stored id is positive and below `next_id`, no two entries share
an id, and the entries fit in the array. -/
def well_formed (cm : ContactManager) : Prop :=
  1 ≤ cm.next_id ∧ cm.next_id ≤ INT_MAX ∧
  (∀ c ∈ cm.contacts, 1 ≤ c.id ∧ c.id < cm.next_id) ∧
  (cm.contacts.map Contact.id).Nodup ∧
  INITIAL_CAPACITY ≤ cm.capacity ∧ cm.capacity ≤ 2 * MAX_CONTACTS ∧ cm.count ≤ cm.capacity

/-- A contact as `input_contact` may fill it in, used in the examples. -/
def sample_contact : Contact :=
  ⟨0, "Ada", "Lovelace", "5551234", "ada@example.org", "Analytical", "London", "personal", "", 0, 0⟩

end ContactBook

/-! ## Sample managers -/

namespace ContactBook

/-- The phones of ten sample contacts. -/
def sample_phones : List String :=
  ["5550001", "5550002", "5550003", "5550004", "5550005",
   "5550006", "5550007", "5550008", "5550009", "5550010"]

/-- The manager after the first `n` sample contacts have been added to
`init_contact_manager`, at times 0: the ids are 1 to `n`. -/
def sample_manager (n : Nat) : ContactManager :=
  ⟨((sample_phones.take n).enum).map
      (fun p => { sample_contact with id := (p.1 : Int) + 1, phone := p.2 }),
   INITIAL_CAPACITY, (n : Int) + 1⟩

end ContactBook

/-! # Chapter 5: the palindrome checker (`solutions/chapter-05/palindrome_checker.c`)

A C string is the list of its characters before the terminating NUL.
`isalnum` and `tolower` are those of the "C" locale: ASCII letters and digits.
The indices `left` and `right` are `int`s. -/

namespace PalindromeChecker
open CInt

/-- The libc function `isalnum` in the "C" locale. -/
def isalnum (c : Char) : Bool := c.isAlphanum

/-- The libc function `tolower` in the "C" locale. -/
def tolower (c : Char) : Char := c.toLower

/-- The character `str[i]`: a character of the string, or the terminating NUL. -/
def char_at (str : List Char) (i : Int) : Char := str.getD i.toNat (Char.ofNat 0)

/-- The loop `while (left < right && !isalnum(str[left])) left++`
(lines 11-13): the value of `left` when it ends. -/
def skip_left : Nat → List Char → Int → Int → Option Int
  | 0, _, _, _ => none
  | fuel + 1, str, left, right =>
    if left < right ∧ isalnum (char_at str left) = false then
      skip_left fuel str (wrap_int (left + 1)) right
    else some left

/-- The loop `while (left < right && !isalnum(str[right])) right--`
(lines 14-16): the value of `right` when it ends. -/
def skip_right : Nat → List Char → Int → Int → Option Int
  | 0, _, _, _ => none
  | fuel + 1, str, left, right =>
    if left < right ∧ isalnum (char_at str right) = false then
      skip_right fuel str left (wrap_int (right - 1))
    else some right

/-- The loop `while (left < right)` of `is_palindrome` (lines 9-25); the inner
loops take fewer rounds than the string has characters. -/
def is_palindrome_loop : Nat → List Char → Int → Int → Option Int
  | 0, _, _, _ => none
  | fuel + 1, str, left, right =>
    if left < right then
      match skip_left (str.length + 1) str left right with
      | none => none
      | some left =>
        match skip_right (str.length + 1) str left right with
        | none => none
        | some right =>
          if tolower (char_at str left) ≠ tolower (char_at str right) then some 0
          else is_palindrome_loop fuel str (wrap_int (left + 1)) (wrap_int (right - 1))
    else some 1

/-- The function `is_palindrome` (lines 5-28); `strlen(str) - 1` becomes an
`int` by wrap-around. -/
def is_palindrome (str : List Char) : Option Int :=
  let left := 0
  let right := wrap_int ((str.length : Int) - 1)
  is_palindrome_loop (str.length + 1) str left right

/-- The loop `while (str[i] != 0)` of `normalize_string` (lines 35-40) over
the characters from `str[i]` on, with the `j` characters written to `temp` so
far; `none` when a write would be outside `temp[100]`. -/
def normalize_loop : List Char → List Char → Option (List Char)
  | [], temp => some temp
  | c :: rest, temp =>
    if isalnum c then
      if temp.length < 100 then normalize_loop rest (temp ++ [tolower c]) else none
    else normalize_loop rest temp

/-- The function `normalize_string` (lines 30-45): the string left in `str`;
`none` when a write would be outside `temp[100]`. -/
def normalize_string (str : List Char) : Option (List Char) :=
  match normalize_loop str [] with
  | none => none
  | some temp => if temp.length < 100 then some temp else none

/-! ## Notions used to state the properties -/

/-- The string obtained by dropping all non-alphanumeric characters and
lower-casing the rest. -/
def normal_form (str : List Char) : List Char := (str.filter isalnum).map tolower

end PalindromeChecker

namespace DevTools

/-! ## The documented reading of the global options

A second description of what `parse_arguments` does, read off the command
line token by token as the help text (`main.c` lines 137-142) and getopt(3)
describe it, to compare with the loop over `getopt_long`. -/

/-- A global option as the option scan meets it: one of the options of the
help text, or an element the scan takes for an option and does not know
(`unknown`: an unknown, ambiguous or ill-formed option). -/
inductive OptionEvent where
  | help
  | verbose
  | quiet
  | version
  | list_tools
  | config (file : String)
  | unknown
deriving DecidableEq, Repr

/-- The option a character of a short option element stands for: `-h`, `-v`,
`-q`; no other character is an option. -/
def short_event (c : Char) : OptionEvent :=
  if c = 'h' then .help else if c = 'v' then .verbose else if c = 'q' then .quiet
  else .unknown

/-- The option a long option name without argument stands for. -/
def event_of_name (name : String) : OptionEvent :=
  if name = "help" then .help
  else if name = "verbose" then .verbose
  else if name = "quiet" then .quiet
  else if name = "version" then .version
  else if name = "list-tools" then .list_tools
  else .unknown

/-- The option a long option element `--name` or `--name=value` stands for
(the element does not take the next element as its argument): the name may be
abbreviated; `--config=value` names the file; a value given to another option
makes the element ill-formed. -/
def long_event (nextchar : List Char) : OptionEvent :=
  match find_long_option long_options (nextchar.takeWhile (fun c => c != '=')),
        nextchar.dropWhile (fun c => c != '=') with
  | .found p, [] => event_of_name p.name
  | .found p, _ :: value => if p.name = "config" then .config (String.mk value) else .unknown
  | _, _ => .unknown

/-- The options of a command line (the elements after `argv[0]`) in the order
in which the scan meets them: `--` ends the options; a non-option is passed
over (it ends the options when `POSIXLY_CORRECT` is set); `--config` takes the
next element as its file and is ill-formed without one; a short option element
`-abc` stands for its characters, one option each. -/
def option_events (posixly_correct : Bool) : List String → List OptionEvent
  | [] => []
  | arg :: rest =>
    if arg = "--" then []
    else if NONOPTION_P arg then
      if posixly_correct then [] else option_events posixly_correct rest
    else if takes_next arg then
      match rest with
      | [] => [.unknown]
      | file :: rest1 => .config file :: option_events posixly_correct rest1
    else
      match arg.data with
      | '-' :: '-' :: nextchar => long_event nextchar :: option_events posixly_correct rest
      | _ :: cs => cs.map short_event ++ option_events posixly_correct rest
      | [] => option_events posixly_correct rest

/-- What the documentation says the scan does with the options it meets, in
order: `-v`/`--verbose` sets `verbose`, `-q`/`--quiet` sets `quiet`,
`--config FILE` stores the first 1023 characters of `FILE` in `config_file`,
and no other field changes; the scan stops at the first other option. The
result is the option the scan stopped at, if any, and the configuration then. -/
def scan_events (g : DevToolsConfig) : List OptionEvent → Option OptionEvent × DevToolsConfig
  | [] => (none, g)
  | .verbose :: es => scan_events { g with verbose := true } es
  | .quiet :: es => scan_events { g with quiet := true } es
  | .config file :: es => scan_events { g with config_file := String.mk (file.data.take 1023) } es
  | e :: _ => (some e, g)

/-- The documented result of `parse_arguments`: without arguments the error
"No arguments provided"; `-h`/`--help`, `--version` and `--list-tools` end the
process with status 0 and an unknown option is the error "Unknown option", in
both cases at the first such option the scan meets, before any tool is looked
up; otherwise the first non-option names the tool: "No tool specified" without
one, "Unknown tool: name" when `find_tool` does not know it, and else the tool
with the non-options as its arguments. -/
def resolve (posixly_correct : Bool) (find_tool : String → Option Tool)
    (g_config : DevToolsConfig) (argv : List String) : Outcome Command × DevToolsConfig :=
  if argv.length < 2 then
    (.returned { Command.zero with
        error := SET_ERROR ERROR_INVALID_ARGUMENT "No arguments provided" }, g_config)
  else
    match scan_events g_config (option_events posixly_correct (argv.drop 1)) with
    | (some .unknown, g) =>
      (.returned { Command.zero with
          error := SET_ERROR ERROR_INVALID_ARGUMENT "Unknown option" }, g)
    | (some _, g) => (.exited EXIT_SUCCESS, g)
    | (none, g) =>
      match operands posixly_correct (argv.drop 1) with
      | [] =>
        (.returned { Command.zero with
            error := SET_ERROR ERROR_INVALID_ARGUMENT "No tool specified" }, g)
      | name :: args =>
        match find_tool name with
        | none =>
          (.returned { Command.zero with
              error := SET_ERROR ERROR_INVALID_ARGUMENT ("Unknown tool: " ++ name) }, g)
        | some t =>
          (.returned { Command.zero with
              tool := some t, argc := (args.length : Int) + 1, argv := name :: args }, g)

/-- The options the scanner has still to meet: the characters left of the
current short option element, then the elements not yet looked at. -/
def pending (posixly_correct : Bool) (d : GetoptState) : List OptionEvent :=
  d.nextchar.map short_event ++ option_events posixly_correct d.rest

/-- The value `getopt_long` returns, with `optarg`, for an option. -/
def returned_for (c : Int) (optarg : Option String) : OptionEvent → Prop
  | .help => c = 'h'.toNat
  | .verbose => c = 'v'.toNat
  | .quiet => c = 'q'.toNat
  | .version => c = 1000
  | .list_tools => c = 1001
  | .config file => c = 'c'.toNat ∧ optarg = some file
  | .unknown => c = '?'.toNat

end DevTools

/-! # Theorems -/

namespace DevTools

/-! ## The scan ends -/


theorem sum_dropWhile_le (f : String → Bool) (l : List String) :
    ((l.dropWhile f).map (fun s => s.length + 1)).sum ≤ (l.map (fun s => s.length + 1)).sum := by
  induction l with
  | nil => simp
  | cons a l ih =>
    simp only [List.dropWhile_cons]
    split
    · simp only [List.map_cons, List.sum_cons]; omega
    · exact le_refl _

theorem short_option_measure (d : GetoptState) (c : Char) (cs : List Char) :
    scan_measure (short_option d c cs).2 = cs.length + (d.rest.map (fun s => s.length + 1)).sum := by
  unfold short_option
  split <;> simp [scan_measure]

theorem process_long_option_measure (d : GetoptState) (arg : String) (rest : List String)
    (nc : List Char) :
    scan_measure (process_long_option d arg rest nc).2 ≤ (rest.map (fun s => s.length + 1)).sum := by
  unfold process_long_option
  simp only
  split
  · simp [scan_measure]
  · simp [scan_measure]
  · split
    · split <;> simp [scan_measure]
    · split
      · split
        · simp [scan_measure]
        · simp [scan_measure]
      · simp [scan_measure]

/-- Each call of `getopt_long` either ends the scan or leaves less to read. -/
theorem getopt_long_measure (p : Bool) (d : GetoptState) :
    (getopt_long p d).1 = -1 ∨ scan_measure (getopt_long p d).2 < scan_measure d := by
  unfold getopt_long
  split
  · rename_i c cs h
    right
    rw [short_option_measure]
    simp [scan_measure, h]
  · rename_i h
    simp only
    generalize hd0 : (if p = true then { d with optarg := none }
      else { d with nonopts := d.nonopts ++ d.rest.takeWhile NONOPTION_P,
                    rest := d.rest.dropWhile NONOPTION_P, optarg := none } : GetoptState) = d0
    have hle : (d0.rest.map (fun s => s.length + 1)).sum ≤ (d.rest.map (fun s => s.length + 1)).sum := by
      subst hd0
      split
      · exact le_refl _
      · exact sum_dropWhile_le _ _
    split
    · left; rfl
    · rename_i arg rest hrest
      rw [hrest] at hle
      simp only [List.map_cons, List.sum_cons] at hle
      split
      · left; rfl
      · split
        · left; rfl
        · split
          · right
            have := process_long_option_measure d0 arg rest ‹_›
            simp only [scan_measure, h, List.length_nil] at *
            omega
          · right
            rename_i c cs hne hdata
            rw [short_option_measure]
            have hl : arg.length = cs.length + 2 := by
              show arg.data.length = _
              rw [hdata]; simp
            simp only [scan_measure, h, List.length_nil] at *
            omega
          · left; rfl

/-- The loop of `parse_arguments` ends within any bound above what is left to
read. -/
theorem parse_arguments_loop_isSome (p : Bool) (fuel : Nat) :
    ∀ (d : GetoptState) (g : DevToolsConfig), scan_measure d < fuel →
      (parse_arguments_loop p fuel d g).isSome = true := by
  induction fuel with
  | zero => intro d g h; omega
  | succ n ih =>
    intro d g h
    unfold parse_arguments_loop
    rcases getopt_long_measure p d with h1 | h1
    · generalize getopt_long p d = r at h1
      obtain ⟨c, d1⟩ := r
      simp only at h1
      subst h1
      simp
    · generalize getopt_long p d = r at h1
      obtain ⟨c, d1⟩ := r
      simp only at h1
      have hlt : scan_measure d1 < n := by omega
      simp only
      split_ifs
      all_goals first
        | rfl
        | exact ih _ _ hlt
        | (split <;> exact ih _ _ hlt)

/-! ## Command lines that start with flag options -/

theorem getopt_long_v (p : Bool) (s rest : List String) :
    getopt_long p ⟨s, [], "-v" :: rest, [], none⟩ = (('v'.toNat : Int), (⟨s ++ ["-v"], [], rest, [], none⟩ : GetoptState)) := by
  cases p <;> rfl

theorem getopt_long_verbose (p : Bool) (s rest : List String) :
    getopt_long p ⟨s, [], "--verbose" :: rest, [], none⟩ = (('v'.toNat : Int), (⟨s ++ ["--verbose"], [], rest, [], none⟩ : GetoptState)) := by
  cases p <;> rfl

theorem getopt_long_q (p : Bool) (s rest : List String) :
    getopt_long p ⟨s, [], "-q" :: rest, [], none⟩ = (('q'.toNat : Int), (⟨s ++ ["-q"], [], rest, [], none⟩ : GetoptState)) := by
  cases p <;> rfl

theorem getopt_long_quiet (p : Bool) (s rest : List String) :
    getopt_long p ⟨s, [], "--quiet" :: rest, [], none⟩ = (('q'.toNat : Int), (⟨s ++ ["--quiet"], [], rest, [], none⟩ : GetoptState)) := by
  cases p <;> rfl

/-- One iteration of the loop on a flag option: the element is consumed and the
flag is set. -/
theorem loop_flag_step (p : Bool) (n : Nat) (s rest : List String) (g : DevToolsConfig)
    (o : String) (ho : o ∈ flag_options) :
    parse_arguments_loop p (n + 1) ⟨s, [], o :: rest, [], none⟩ g
      = parse_arguments_loop p n ⟨s ++ [o], [], rest, [], none⟩ (set_flag g o) := by
  simp only [flag_options, List.mem_cons, List.mem_singleton, List.not_mem_nil, or_false] at ho
  rcases ho with rfl | rfl | rfl | rfl
  · rw [parse_arguments_loop, getopt_long_v]; rfl
  · rw [parse_arguments_loop, getopt_long_verbose]; rfl
  · rw [parse_arguments_loop, getopt_long_q]; rfl
  · rw [parse_arguments_loop, getopt_long_quiet]; rfl

/-- The loop on a run of flag options: all are consumed, one per iteration. -/
theorem loop_flags (p : Bool) (opts : List String) (hopts : ∀ o ∈ opts, o ∈ flag_options) :
    ∀ (n : Nat) (s tail : List String) (g : DevToolsConfig),
      parse_arguments_loop p (n + opts.length) ⟨s, [], opts ++ tail, [], none⟩ g
        = parse_arguments_loop p n ⟨s ++ opts, [], tail, [], none⟩ (opts.foldl set_flag g) := by
  induction opts with
  | nil => intro n s tail g; simp
  | cons o os ih =>
    intro n s tail g
    have ho : o ∈ flag_options := hopts o (List.mem_cons_self _ _)
    have hos : ∀ x ∈ os, x ∈ flag_options := fun x hx => hopts x (List.mem_cons_of_mem _ hx)
    have h1 : n + (o :: os).length = (n + os.length) + 1 := by simp; omega
    rw [h1, List.cons_append, loop_flag_step p _ s _ g o ho, ih hos]
    simp

theorem loop_end (p : Bool) (n : Nat) (s : List String) (g : DevToolsConfig) :
    parse_arguments_loop p (n + 1) ⟨s, [], [], [], none⟩ g = some (.finished ⟨s, [], [], [], none⟩ g) := by
  cases p <;> rfl

theorem takeWhile_all {α : Type} (f : α → Bool) (l : List α) (h : ∀ a ∈ l, f a = true) :
    l.takeWhile f = l ∧ l.dropWhile f = [] := by
  induction l with
  | nil => simp
  | cons a l ih =>
    have ha := h a (List.mem_cons_self _ _)
    have := ih (fun x hx => h x (List.mem_cons_of_mem _ hx))
    simp [List.takeWhile_cons, List.dropWhile_cons, ha, this]

theorem loop_operands_permute (n : Nat) (s : List String) (tok : String) (args : List String)
    (g : DevToolsConfig) (htok : NONOPTION_P tok = true) (hargs : ∀ a ∈ args, NONOPTION_P a = true) :
    parse_arguments_loop false (n + 1) ⟨s, [], tok :: args, [], none⟩ g
      = some (.finished ⟨s, tok :: args, [], [], none⟩ g) := by
  have h := takeWhile_all NONOPTION_P (tok :: args) (by
    intro a ha; rcases List.mem_cons.1 ha with rfl | ha
    · exact htok
    · exact hargs a ha)
  rw [parse_arguments_loop]
  simp [getopt_long, h.1, h.2]

theorem loop_operands_posix (n : Nat) (s : List String) (tok : String) (args : List String)
    (g : DevToolsConfig) (htok : NONOPTION_P tok = true) :
    parse_arguments_loop true (n + 1) ⟨s, [], tok :: args, [], none⟩ g
      = some (.finished ⟨s, [], tok :: args, [], none⟩ g) := by
  have hne : tok ≠ "--" := by rintro rfl; exact absurd htok (by decide)
  rw [parse_arguments_loop]
  simp [getopt_long, hne, htok]

/-! ## The scan and the non-options of the command line -/

theorem operands_cons (p : Bool) (arg : String) (rest : List String) :
    operands p (arg :: rest) =
      if arg = "--" then rest
      else if NONOPTION_P arg then (if p then arg :: rest else arg :: operands p rest)
      else if takes_next arg then operands p (rest.drop 1)
      else operands p rest := by
  cases rest <;> simp [operands]

/-- Passing over the leading non-options does not change the non-options of
the command line (default, permuting scan). -/
theorem operands_takeWhile (l : List String) :
    operands false l = l.takeWhile NONOPTION_P ++ operands false (l.dropWhile NONOPTION_P) := by
  induction l with
  | nil => simp [operands]
  | cons a l ih =>
    by_cases h : NONOPTION_P a = true
    · have hne : a ≠ "--" := by rintro rfl; exact absurd h (by decide)
      rw [operands_cons]
      simp only [hne, h, List.takeWhile_cons, List.dropWhile_cons, if_true, if_false, List.cons_append]
      simp [ih]
    · simp [List.takeWhile_cons, List.dropWhile_cons, h]

theorem nonoption_data (arg : String) (h : ¬ NONOPTION_P arg = true) :
    ∃ c cs, arg.data = '-' :: c :: cs := by
  unfold NONOPTION_P at h
  split at h
  · rename_i c cs hd; exact ⟨_, _, hd⟩
  · simp at h

theorem find_long_option_mem (l : List LongOption) (name : List Char) (p : LongOption)
    (h : find_long_option l name = .found p) : p ∈ l := by
  unfold find_long_option at h
  split at h
  · rename_i q hq
    cases h
    exact List.mem_of_find?_eq_some hq
  · split at h
    · cases h
    · rename_i q qs hq
      split at h
      · cases h
        have : p ∈ List.filter (fun p => name.isPrefixOf p.name.data) l := by rw [hq]; simp
        exact (List.mem_filter.1 this).1
      · cases h

theorem long_options_val (p : LongOption) (h : p ∈ long_options) :
    p.val ≠ -1 := by
  simp only [long_options, List.mem_cons, List.mem_singleton, List.not_mem_nil, or_false] at h
  rcases h with rfl | rfl | rfl | rfl | rfl | rfl <;> decide

theorem takes_next_data (arg : String) (nc : List Char) (h : arg.data = '-' :: '-' :: nc) :
    takes_next arg =
      match find_long_option long_options (nc.takeWhile (fun c => c != '=')),
            nc.dropWhile (fun c => c != '=') with
      | .found p, [] => p.has_arg == required_argument
      | _, _ => false := by
  unfold takes_next
  rw [h]
  rfl

theorem process_long_option_operands (p : Bool) (d0 : GetoptState) (arg : String)
    (rest : List String) (nc : List Char) (hdata : arg.data = '-' :: '-' :: nc)
    (hne : arg ≠ "--") (hopt : ¬ NONOPTION_P arg = true) :
    (process_long_option d0 arg rest nc).2.argv.length
        = (d0.scanned ++ d0.nonopts ++ arg :: rest).length ∧
    (process_long_option d0 arg rest nc).1 ≠ -1 ∧
    ((process_long_option d0 arg rest nc).1 ≠ '?'.toNat →
      (process_long_option d0 arg rest nc).2.nonopts
          ++ operands p (process_long_option d0 arg rest nc).2.rest
        = d0.nonopts ++ operands p (arg :: rest)) := by
  rw [operands_cons, if_neg hne, if_neg hopt, takes_next_data arg nc hdata]
  unfold process_long_option
  simp only
  split
  · simp [GetoptState.argv]; omega
  · simp [GetoptState.argv]; omega
  · rename_i q hq
    have hval := long_options_val q (find_long_option_mem _ _ _ hq)
    split
    · rename_i value hv
      split
      · simp only [hq, hv]
        simp [GetoptState.argv, hval]; omega
      · simp [GetoptState.argv]; omega
    · rename_i hv
      split
      · rename_i hreq
        split
        · simp only [hq, hv]
          simp [GetoptState.argv, hval, hreq]; omega
        · simp [GetoptState.argv]
      · rename_i hreq
        simp only [hq, hv]
        simp [GetoptState.argv, hval, hreq]; omega

theorem short_option_operands (d : GetoptState) (c : Char) (cs : List Char) :
    (short_option d c cs).2.scanned = d.scanned ∧ (short_option d c cs).2.nonopts = d.nonopts ∧
    (short_option d c cs).2.rest = d.rest ∧ (short_option d c cs).1 ≠ -1 := by
  unfold short_option
  simp only
  split
  · refine ⟨rfl, rfl, rfl, ?_⟩
    show (c.toNat : Int) ≠ -1
    omega
  · refine ⟨rfl, rfl, rfl, ?_⟩
    show (('?'.toNat : Nat) : Int) ≠ -1
    omega

/-- One call of `getopt_long` keeps the length of `argv`; when it ends the scan,
the elements from `optind` on are the non-options of the command line, and
when it hands back an option the non-options stay what they were. -/
theorem getopt_long_operands (p : Bool) (d : GetoptState) :
    (getopt_long p d).2.argv.length = d.argv.length ∧
    ((getopt_long p d).1 = -1 →
      (getopt_long p d).2.nonopts ++ (getopt_long p d).2.rest = d.nonopts ++ operands p d.rest) ∧
    ((getopt_long p d).1 ≠ -1 → (getopt_long p d).1 ≠ '?'.toNat →
      (getopt_long p d).2.nonopts ++ operands p (getopt_long p d).2.rest
        = d.nonopts ++ operands p d.rest) := by
  unfold getopt_long
  split
  · rename_i c cs h
    obtain ⟨h1, h2, h3, h4⟩ := short_option_operands d c cs
    refine ⟨?_, fun h5 => absurd h5 h4, fun _ _ => ?_⟩
    · simp [GetoptState.argv, h1, h2, h3]
    · rw [h2, h3]
  · rename_i h
    simp only
    generalize hd0 : (if p = true then { d with optarg := none }
      else { d with nonopts := d.nonopts ++ d.rest.takeWhile NONOPTION_P,
                    rest := d.rest.dropWhile NONOPTION_P, optarg := none } : GetoptState) = d0
    have hlen : d0.argv.length = d.argv.length := by
      subst hd0
      split
      · rfl
      · simp only [GetoptState.argv, List.append_assoc, List.takeWhile_append_dropWhile]
    have hops : d0.nonopts ++ operands p d0.rest = d.nonopts ++ operands p d.rest := by
      subst hd0
      split
      · rfl
      · rename_i hp
        have hp : p = false := by simpa using hp
        subst hp
        simp only [List.append_assoc]
        rw [← operands_takeWhile]
    have hposix : p = false → ∀ a l, d0.rest = a :: l → ¬ NONOPTION_P a = true := by
      intro hp a l hl
      subst hd0 hp
      simp only [Bool.false_eq_true, if_false] at hl
      have := List.head_dropWhile_not NONOPTION_P d.rest (by rw [hl]; simp)
      simpa [hl] using this
    rw [← hlen, ← hops]
    split
    · rename_i hrest
      refine ⟨rfl, fun _ => ?_, fun h1 => absurd rfl h1⟩
      rw [hrest]; simp [operands]
    · rename_i arg rest hrest
      split
      · rename_i harg
        refine ⟨?_, fun _ => ?_, fun h1 => absurd rfl h1⟩
        · simp [GetoptState.argv, hrest]; omega
        · simp only [hrest, harg, operands_cons, if_true, List.append_nil]
      · rename_i hne
        split
        · rename_i hnon
          refine ⟨rfl, fun _ => ?_, fun h1 => absurd rfl h1⟩
          cases p with
          | false => exact absurd hnon (hposix rfl arg rest hrest)
          | true => simp [hrest, operands_cons, hne, hnon]
        · rename_i hopt
          split
          · rename_i nc hdata
            obtain ⟨h1, h2, h3⟩ := process_long_option_operands p d0 arg rest nc hdata hne hopt
            refine ⟨?_, fun h5 => absurd h5 h2, fun _ h6 => ?_⟩
            · rw [h1]; simp [GetoptState.argv, hrest]
            · rw [h3 h6, hrest]
          · rename_i c0 c cs hnot hdata
            obtain ⟨h1, h2, h3, h4⟩ :=
              short_option_operands { d0 with scanned := d0.scanned ++ [arg], rest := rest } c cs
            refine ⟨?_, fun h5 => absurd h5 h4, fun _ _ => ?_⟩
            · simp [GetoptState.argv, h1, h2, h3, hrest]; omega
            · rw [h2, h3, hrest, operands_cons, if_neg hne, if_neg hopt]
              have htn : takes_next arg = false := by
                obtain ⟨c1, cs1, hd1⟩ := nonoption_data arg hopt
                rw [hdata] at hd1
                injection hd1 with e1 e2
                injection e2 with e3 e4
                subst e1 e3 e4
                unfold takes_next
                rw [hdata]
                split
                · rename_i nc2 hh
                  injection hh with _ e5
                  injection e5 with e6 _
                  exact absurd e6 (fun e => hnot rfl e)
                · rfl
              simp [htn]
          · rename_i hx hy
            obtain ⟨c1, cs1, hd1⟩ := nonoption_data arg hopt
            by_cases hc : c1 = '-'
            · subst hc; exact absurd hd1 (hx cs1)
            · exact absurd hd1 (hy '-' c1 cs1)


/-- When the option scan comes to its end, `argv` has kept its length and its
elements from `optind` on are the non-options of the command line, in order. -/
theorem parse_arguments_loop_finished (p : Bool) (fuel : Nat) :
    ∀ (d : GetoptState) (g : DevToolsConfig) (d1 : GetoptState) (g1 : DevToolsConfig),
      parse_arguments_loop p fuel d g = some (.finished d1 g1) →
      d1.argv.length = d.argv.length ∧ d1.nonopts ++ d1.rest = d.nonopts ++ operands p d.rest := by
  induction fuel with
  | zero => intro d g d1 g1 h; simp [parse_arguments_loop] at h
  | succ n ih =>
    intro d g d1 g1 h
    obtain ⟨hlen, hend, hstep⟩ := getopt_long_operands p d
    unfold parse_arguments_loop at h
    generalize getopt_long p d = r at h hlen hend hstep
    obtain ⟨c, d2⟩ := r
    simp only at h hlen hend hstep
    have hq : (('?'.toNat : Nat) : Int) = 63 := by decide
    have hcont : ∀ g2, c ≠ -1 → c ≠ '?'.toNat →
        parse_arguments_loop p n d2 g2 = some (.finished d1 g1) →
        d1.argv.length = d.argv.length ∧ d1.nonopts ++ d1.rest = d.nonopts ++ operands p d.rest := by
      intro g2 h1 h2 h3
      obtain ⟨i1, i2⟩ := ih d2 g2 d1 g1 h3
      exact ⟨i1.trans hlen, i2.trans (hstep h1 h2)⟩
    split_ifs at h with h1 h2 h3 h4 h5 h6 h7 h8
    · cases h
      exact ⟨hlen, hend h1⟩
    · cases h
    · exact hcont _ h1 (by rw [h3]; decide) h
    · exact hcont _ h1 (by rw [h4]; decide) h
    · cases h
    · cases h
    · split at h
      · exact hcont _ h1 (by rw [h7]; decide) h
      · exact hcont _ h1 (by rw [h7]; decide) h
    · cases h
    · exact hcont _ h1 h8 h

/-! ## `parse_arguments` on every command line -/

theorem sum_drop_le (l : List String) (k : Nat) :
    ((l.drop k).map (fun s => s.length + 1)).sum ≤ (l.map (fun s => s.length + 1)).sum := by
  induction l generalizing k with
  | nil => simp
  | cons a l ih =>
    cases k with
    | zero => simp
    | succ k =>
      simp only [List.drop_succ_cons, List.map_cons, List.sum_cons]
      have := ih k
      omega

theorem scan_measure_init (argv : List String) :
    scan_measure (getopt_init argv) < scan_bound argv := by
  have := sum_drop_le argv 1
  simp only [scan_measure, getopt_init, scan_bound, List.length_nil]
  omega

theorem length_le_sum (l : List String) :
    l.length ≤ (l.map (fun s => s.length + 1)).sum := by
  induction l with
  | nil => simp
  | cons a l ih => simp only [List.length_cons, List.map_cons, List.sum_cons]; omega

/-- The scan bound used by `parse_arguments` is enough for every `argv`. -/
theorem parse_arguments_isSome (p : Bool) (ft : String → Option Tool) (g : DevToolsConfig)
    (argv : List String) : (parse_arguments p ft g argv).isSome = true := by
  unfold parse_arguments
  simp only
  split
  · rfl
  · have h := parse_arguments_loop_isSome p (scan_bound argv) (getopt_init argv) g
      (scan_measure_init argv)
    split
    · rename_i hnone
      rw [hnone] at h
      simp at h
    · rfl
    · rfl
    · split
      · rfl
      · split <;> rfl

theorem getopt_init_argv (argv : List String) : (getopt_init argv).argv = argv := by
  cases argv <;> simp [getopt_init, GetoptState.argv]

/-- Every Command that `parse_arguments` returns either has no tool, no `argv`
and the error `ERROR_INVALID_ARGUMENT`, or has no error, the tool `find_tool`
gave for the first non-option, and the non-options of the command line as its
`argv`. -/
theorem parse_arguments_shape (p : Bool) (ft : String → Option Tool) (g g1 : DevToolsConfig)
    (argv : List String) (cmd : Command)
    (h : parse_arguments p ft g argv = some (.returned cmd, g1)) :
    (cmd.tool = none ∧ cmd.error.code = ERROR_INVALID_ARGUMENT ∧ cmd.argv = [] ∧ cmd.argc = 0) ∨
    (∃ t name, cmd.tool = some t ∧ cmd.error = { code := SUCCESS, message := "" } ∧
      (operands p (argv.drop 1)).head? = some name ∧ ft name = some t ∧
      cmd.argv = operands p (argv.drop 1) ∧ cmd.argc = cmd.argv.length) := by
  unfold parse_arguments at h
  simp only at h
  split at h
  · cases h
    left; exact ⟨rfl, rfl, rfl, rfl⟩
  · rename_i hargc
    split at h
    · cases h
    · cases h
    · cases h
      left; exact ⟨rfl, rfl, rfl, rfl⟩
    · rename_i d g2 hloop
      obtain ⟨hlen, hops⟩ := parse_arguments_loop_finished p _ _ _ _ _ hloop
      rw [getopt_init_argv] at hlen
      simp only [getopt_init, List.nil_append] at hops
      split at h
      · cases h
        left; exact ⟨rfl, rfl, rfl, rfl⟩
      · rename_i hind
        have hlt : d.scanned.length < argv.length := by
          simp only [GetoptState.optind] at hind
          omega
        have hdrop : d.argv.drop d.scanned.length = operands p (argv.drop 1) := by
          rw [← hops]
          simp [GetoptState.argv]
        have hne : operands p (argv.drop 1) ≠ [] := by
          rw [← hops]
          intro hnil
          have : d.argv.length = d.scanned.length := by
            simp only [GetoptState.argv, List.append_assoc, List.length_append]
            rw [← List.length_append, hnil]
            simp
          omega
        obtain ⟨name, tl, hnt⟩ := List.exists_cons_of_ne_nil hne
        have hget : d.argv.getD (d.optind).toNat "" = name := by
          have : d.argv = d.scanned ++ (name :: tl) := by
            rw [← hnt, ← hops]; simp [GetoptState.argv]
          rw [this]
          simp [GetoptState.optind, List.getD_eq_getElem?_getD, List.getElem_append_right]
        rw [hget] at h
        split at h
        · cases h
          left; exact ⟨rfl, rfl, rfl, rfl⟩
        · rename_i t hft
          cases h
          right
          refine ⟨t, name, rfl, rfl, ?_, hft, ?_, ?_⟩
          · rw [hnt]; rfl
          · simp only [GetoptState.optind, Int.toNat_ofNat]
            exact hdrop
          · simp only [GetoptState.optind, Int.toNat_ofNat]
            rw [hdrop, ← hlen]
            have : d.argv.length = d.scanned.length + (operands p (argv.drop 1)).length := by
              rw [← hops]; simp [GetoptState.argv]
            omega

/-! ## `parse_arguments` on command lines `prog [flags] [tool args]` -/

/-- The option scan of `prog [flags] tail`, where `tail` is empty or a
non-option followed by elements the scan does not take for options. -/
theorem scan_flags_then (p : Bool) (prog : String) (opts tail : List String) (g : DevToolsConfig)
    (hopts : ∀ o ∈ opts, o ∈ flag_options)
    (htail : tail = [] ∨ ∃ tok args, tail = tok :: args ∧ NONOPTION_P tok = true ∧
      (p = true ∨ ∀ a ∈ args, NONOPTION_P a = true)) :
    ∃ d, parse_arguments_loop p (scan_bound (prog :: (opts ++ tail)))
          (getopt_init (prog :: (opts ++ tail))) g = some (.finished d (opts.foldl set_flag g)) ∧
      d.scanned = prog :: opts ∧ d.nonopts ++ d.rest = tail := by
  obtain ⟨k, hk⟩ : ∃ k, scan_bound (prog :: (opts ++ tail)) = (k + 1) + opts.length := by
    have h1 := length_le_sum (prog :: (opts ++ tail))
    simp only [List.length_cons, List.length_append] at h1
    refine ⟨scan_bound (prog :: (opts ++ tail)) - 1 - opts.length, ?_⟩
    simp only [scan_bound]
    omega
  have hinit : getopt_init (prog :: (opts ++ tail)) = ⟨[prog], [], opts ++ tail, [], none⟩ := rfl
  rw [hk, hinit, loop_flags p opts hopts]
  rcases htail with rfl | ⟨tok, args, rfl, htok, hargs⟩
  · rw [loop_end]
    exact ⟨_, rfl, rfl, rfl⟩
  · cases p with
    | true =>
      rw [loop_operands_posix _ _ _ _ _ htok]
      exact ⟨_, rfl, rfl, rfl⟩
    | false =>
      have hargs : ∀ a ∈ args, NONOPTION_P a = true := by
        rcases hargs with h | h
        · cases h
        · exact h
      rw [loop_operands_permute _ _ _ _ _ htok hargs]
      exact ⟨_, rfl, rfl, by simp⟩

/-- The result of `parse_arguments` on `prog flags` with at least one flag. -/
theorem parse_arguments_flags_none (p : Bool) (ft : String → Option Tool) (g : DevToolsConfig)
    (prog : String) (opts : List String) (hopts : ∀ o ∈ opts, o ∈ flag_options)
    (hne : opts ≠ []) :
    parse_arguments p ft g (prog :: opts)
      = some (.returned { tool := none, argc := 0, argv := [],
                          error := { code := ERROR_INVALID_ARGUMENT,
                                     message := "No tool specified" } },
              opts.foldl set_flag g) := by
  obtain ⟨d, hd, hs, ht⟩ := scan_flags_then p prog opts [] g hopts (Or.inl rfl)
  rw [List.append_nil] at hd
  obtain ⟨o, os, rfl⟩ := List.exists_cons_of_ne_nil hne
  unfold parse_arguments
  simp only [hd]
  have h2 : ¬ (((prog :: o :: os).length : Nat) : Int) < 2 := by
    simp only [List.length_cons]; omega
  have h3 : d.optind ≥ (((prog :: o :: os).length : Nat) : Int) := by
    simp [GetoptState.optind, hs]
  rw [if_neg h2, if_pos h3]
  rfl

/-- The result of `parse_arguments` on `prog [flags] tok args`, by what
`find_tool` says about `tok`. -/
theorem parse_arguments_flags_tool (p : Bool) (ft : String → Option Tool) (g : DevToolsConfig)
    (prog : String) (opts : List String) (tok : String) (args : List String)
    (hopts : ∀ o ∈ opts, o ∈ flag_options) (htok : NONOPTION_P tok = true)
    (hargs : p = true ∨ ∀ a ∈ args, NONOPTION_P a = true) :
    parse_arguments p ft g (prog :: (opts ++ tok :: args))
      = match ft tok with
        | none =>
          some (.returned { tool := none, argc := 0, argv := [],
                            error := { code := ERROR_INVALID_ARGUMENT,
                                       message := "Unknown tool: " ++ tok } },
                opts.foldl set_flag g)
        | some t =>
          some (.returned { tool := some t, argc := args.length + 1, argv := tok :: args,
                            error := { code := SUCCESS, message := "" } },
                opts.foldl set_flag g) := by
  obtain ⟨d, hd, hs, ht⟩ := scan_flags_then p prog opts (tok :: args) g hopts
    (Or.inr ⟨tok, args, rfl, htok, hargs⟩)
  unfold parse_arguments
  simp only [hd]
  have h2 : ¬ (((prog :: (opts ++ tok :: args)).length : Nat) : Int) < 2 := by
    simp only [List.length_cons, List.length_append]; omega
  have h3 : ¬ d.optind ≥ (((prog :: (opts ++ tok :: args)).length : Nat) : Int) := by
    simp only [GetoptState.optind, hs, List.length_cons, List.length_append]; omega
  have hargv : d.argv = (prog :: opts) ++ (tok :: args) := by
    simp only [GetoptState.argv, List.append_assoc, hs]
    rw [ht]
  have hn : d.optind.toNat = (prog :: opts).length := by simp [GetoptState.optind, hs]
  have hget : d.argv.getD d.optind.toNat "" = tok := by
    rw [hargv, hn]
    simp [List.getD_eq_getElem?_getD, List.getElem_append_right]
  have hdrop : d.argv.drop d.optind.toNat = tok :: args := by
    rw [hargv, hn]
    simp
  have hargc : (((prog :: (opts ++ tok :: args)).length : Nat) : Int) - d.optind
      = (args.length : Int) + 1 := by
    simp only [GetoptState.optind, hs, List.length_cons, List.length_append]
    push_cast
    omega
  rw [if_neg h2, if_neg h3, hget, hdrop, hargc]
  cases ft tok <;> rfl

/-- The only exit status of `parse_arguments` is `EXIT_SUCCESS`. -/
theorem parse_arguments_exited (p : Bool) (ft : String → Option Tool) (g g1 : DevToolsConfig)
    (argv : List String) (status : Int)
    (h : parse_arguments p ft g argv = some (.exited status, g1)) : status = EXIT_SUCCESS := by
  unfold parse_arguments at h
  simp only at h
  split at h
  · cases h
  · split at h
    · cases h
    · cases h; rfl
    · cases h
    · split at h
      · cases h
      · split at h <;> cases h

/-! ## Dispatch: argument vector of the resolved command (C1, C2) -/

/-- C1 (counterexample): with `hash-generate` registered, the command line
`devtools hash-generate file.zip` yields a Command whose `argv` is
`["hash-generate", "file.zip"]` with `argc = 2`: the tool name is its first
entry, so `argv` is not the list of tokens after the tool name. The same holds
for the spec's own example `devtools hash-generate --sha256 file.zip` when the
scan stops at the tool name (`POSIXLY_CORRECT` set). -/
theorem parse_arguments_argv_excludes_tool_name_counterexample :
    (∃ cmd g, parse_arguments false (find_tool builtin_tools) g_config_zero
        ["devtools", "hash-generate", "file.zip"] = some (.returned cmd, g) ∧
      cmd.tool.map Tool.name = some "hash-generate" ∧
      cmd.argv = ["hash-generate", "file.zip"] ∧ cmd.argc = 2 ∧ cmd.argv ≠ ["file.zip"]) ∧
    (∃ cmd g, parse_arguments true (find_tool builtin_tools) g_config_zero
        ["devtools", "hash-generate", "--sha256", "file.zip"] = some (.returned cmd, g) ∧
      cmd.tool.map Tool.name = some "hash-generate" ∧
      cmd.argv = ["hash-generate", "--sha256", "file.zip"] ∧ cmd.argc = 3 ∧
      cmd.argv ≠ ["--sha256", "file.zip"]) := by
  refine ⟨⟨_, _, rfl, ?_⟩, ⟨_, _, rfl, ?_⟩⟩ <;> decide

/-- C1 (amended): for every command line `prog [-v|--verbose|-q|--quiet]... tool args...`
whose `tool` token is a non-option that `find_tool` knows and whose `args` hold
no option-like token (any `args` when `POSIXLY_CORRECT` is set),
`parse_arguments` returns a Command with that tool, error code `SUCCESS`, and
an `argv` that starts at the tool name: the tool name followed by exactly the
tokens after it, with `argc` their number plus one. -/
theorem parse_arguments_argv_starts_at_tool_name (p : Bool) (ft : String → Option Tool)
    (g : DevToolsConfig) (prog : String) (opts : List String) (tok : String)
    (args : List String) (t : Tool)
    (hopts : ∀ o ∈ opts, o ∈ flag_options) (htok : NONOPTION_P tok = true)
    (hargs : p = true ∨ ∀ a ∈ args, NONOPTION_P a = true) (hft : ft tok = some t) :
    parse_arguments p ft g (prog :: (opts ++ tok :: args))
      = some (.returned { tool := some t, argc := args.length + 1, argv := tok :: args,
                          error := { code := SUCCESS, message := "" } },
              opts.foldl set_flag g) := by
  rw [parse_arguments_flags_tool p ft g prog opts tok args hopts htok hargs, hft]

/-- C1 (witness): `devtools -v --quiet hash-generate file.zip -` against the
built-in tools. -/
theorem parse_arguments_argv_starts_at_tool_name_witness :
    (∀ o ∈ ["-v", "--quiet"], o ∈ flag_options) ∧ NONOPTION_P "hash-generate" = true ∧
    (∀ a ∈ ["file.zip", "-"], NONOPTION_P a = true) ∧
    parse_arguments false (find_tool builtin_tools) g_config_zero
        ("devtools" :: (["-v", "--quiet"] ++ "hash-generate" :: ["file.zip", "-"]))
      = some (.returned { tool := builtin_tools[2]?, argc := 3,
                          argv := ["hash-generate", "file.zip", "-"],
                          error := { code := SUCCESS, message := "" } },
              { g_config_zero with verbose := true, quiet := true }) :=
  ⟨by decide, by decide, by decide,
   parse_arguments_argv_starts_at_tool_name false (find_tool builtin_tools) g_config_zero
     "devtools" ["-v", "--quiet"] "hash-generate" ["file.zip", "-"] _
     (by decide) (by decide) (Or.inr (by decide)) (by decide)⟩

/-- On the command lines `prog [-v|--verbose|-q|--quiet]... tool args...` with a
known tool and no option-like token in `args`, `execute_command` calls the tool's
`execute` once, with exactly the tokens after the tool name, and returns what
the callback returns. -/
theorem execute_command_after_parse_arguments (p : Bool) (ft : String → Option Tool)
    (g : DevToolsConfig) (call : FnPtr → Int → List String → Int) (prog : String)
    (opts : List String) (tok : String) (args : List String) (t : Tool)
    (hopts : ∀ o ∈ opts, o ∈ flag_options) (htok : NONOPTION_P tok = true)
    (hargs : p = true ∨ ∀ a ∈ args, NONOPTION_P a = true) (hft : ft tok = some t) :
    ∃ cmd g1, parse_arguments p ft g (prog :: (opts ++ tok :: args)) = some (.returned cmd, g1) ∧
      execute_command call (some cmd)
        = (call t.execute args.length args,
           [{ fn := t.execute, argc := args.length, argv := args }]) := by
  refine ⟨{ tool := some t, argc := args.length + 1, argv := tok :: args,
            error := { code := SUCCESS, message := "" } }, opts.foldl set_flag g, ?_, ?_⟩
  · rw [parse_arguments_flags_tool p ft g prog opts tok args hopts htok hargs, hft]
  · simp [execute_command]

/-- C2 (the code at the failing input): in the default environment the
command line `devtools hash-generate -v file.zip` resolves `hash-generate`,
but the `-v` after the tool name is taken as the global option (it sets
`g_config.verbose`) and the tool is called with `argc = 1`, `argv = ["file.zip"]`,
not with the tokens `["-v", "file.zip"]` that follow the tool name; and the
example of the program's own help text, `devtools hash-generate --sha256 file.zip`,
is rejected with "Unknown option" and no tool. With `POSIXLY_CORRECT` set the
first command line does pass `["-v", "file.zip"]`. -/
theorem execute_command_misses_options_after_tool_name :
    (∃ cmd g, parse_arguments false (find_tool builtin_tools) g_config_zero
        ["devtools", "hash-generate", "-v", "file.zip"] = some (.returned cmd, g) ∧
      cmd.tool.map Tool.name = some "hash-generate" ∧ g.verbose = true ∧
      execute_command (fun _ _ _ => SUCCESS) (some cmd)
        = (SUCCESS, [{ fn := "hash_generator_execute", argc := 1, argv := ["file.zip"] }])) ∧
    (∃ cmd g, parse_arguments false (find_tool builtin_tools) g_config_zero
        ["devtools", "hash-generate", "--sha256", "file.zip"] = some (.returned cmd, g) ∧
      cmd.tool = none ∧
      cmd.error = { code := ERROR_INVALID_ARGUMENT, message := "Unknown option" }) ∧
    (∃ cmd g, parse_arguments true (find_tool builtin_tools) g_config_zero
        ["devtools", "hash-generate", "-v", "file.zip"] = some (.returned cmd, g) ∧
      g.verbose = false ∧
      execute_command (fun _ _ _ => SUCCESS) (some cmd)
        = (SUCCESS, [{ fn := "hash_generator_execute", argc := 2,
                       argv := ["-v", "file.zip"] }])) := by
  refine ⟨⟨_, _, rfl, ?_⟩, ⟨_, _, rfl, ?_⟩, ⟨_, _, rfl, ?_⟩⟩ <;> decide

/-! ## Resolution: result shape and failures (C3, C4) -/

/-- C3: for every command line, every lookup function and every configuration,
`parse_arguments` ends: it either exits with status 0, or returns a Command
that has the tool `find_tool` gave for the first non-option token together
with error code `SUCCESS`, or returns a Command with a null tool and error code
`ERROR_INVALID_ARGUMENT`. -/
theorem parse_arguments_tool_or_invalid_argument (p : Bool) (ft : String → Option Tool)
    (g : DevToolsConfig) (argv : List String) :
    ∃ r g1, parse_arguments p ft g argv = some (r, g1) ∧
      (r = .exited EXIT_SUCCESS ∨
       ∃ cmd, r = .returned cmd ∧
        ((∃ t name, (operands p (argv.drop 1)).head? = some name ∧ ft name = some t ∧
            cmd.tool = some t ∧ cmd.error.code = SUCCESS) ∨
         (cmd.tool = none ∧ cmd.error.code = ERROR_INVALID_ARGUMENT))) := by
  have hsome := parse_arguments_isSome p ft g argv
  obtain ⟨⟨r, g1⟩, hr⟩ := Option.isSome_iff_exists.1 hsome
  refine ⟨r, g1, hr, ?_⟩
  cases r with
  | exited status =>
    left
    rw [parse_arguments_exited p ft g g1 argv status hr]
  | returned cmd =>
    right
    refine ⟨cmd, rfl, ?_⟩
    rcases parse_arguments_shape p ft g g1 argv cmd hr with
      ⟨h1, h2, _, _⟩ | ⟨t, name, h1, h2, h3, h4, _, _⟩
    · right; exact ⟨h1, h2⟩
    · left; exact ⟨t, name, h3, h4, h1, by rw [h2]⟩

/-- C4 (counterexample): `nonexistent-tool` is unknown and is the first
non-option token of `devtools --help nonexistent-tool`, yet `parse_arguments`
does not fail on it: the `--help` before it ends the process with status 0,
whether or not `POSIXLY_CORRECT` is set. -/
theorem parse_arguments_unknown_tool_counterexample :
    find_tool builtin_tools "nonexistent-tool" = none ∧
    operands false ["--help", "nonexistent-tool"] = ["nonexistent-tool"] ∧
    operands true ["--help", "nonexistent-tool"] = ["nonexistent-tool"] ∧
    parse_arguments false (find_tool builtin_tools) g_config_zero
        ["devtools", "--help", "nonexistent-tool"] = some (.exited EXIT_SUCCESS, g_config_zero) ∧
    parse_arguments true (find_tool builtin_tools) g_config_zero
        ["devtools", "--help", "nonexistent-tool"] = some (.exited EXIT_SUCCESS, g_config_zero) := by
  decide

/-- C4 (amended): for every command line `prog [-v|--verbose|-q|--quiet]... name args...`
whose `name` token is a non-option that `find_tool` does not know and whose
`args` hold no option-like token (any `args` when `POSIXLY_CORRECT` is set),
`parse_arguments` returns a Command with a null tool, error code
`ERROR_INVALID_ARGUMENT` and the message `"Unknown tool: "` followed by the
name. -/
theorem parse_arguments_unknown_tool (p : Bool) (ft : String → Option Tool)
    (g : DevToolsConfig) (prog : String) (opts : List String) (tok : String)
    (args : List String)
    (hopts : ∀ o ∈ opts, o ∈ flag_options) (htok : NONOPTION_P tok = true)
    (hargs : p = true ∨ ∀ a ∈ args, NONOPTION_P a = true) (hft : ft tok = none) :
    parse_arguments p ft g (prog :: (opts ++ tok :: args))
      = some (.returned { tool := none, argc := 0, argv := [],
                          error := { code := ERROR_INVALID_ARGUMENT,
                                     message := "Unknown tool: " ++ tok } },
              opts.foldl set_flag g) := by
  rw [parse_arguments_flags_tool p ft g prog opts tok args hopts htok hargs, hft]

/-- C4 (witness): `devtools -q nonexistent-tool file.zip` against the built-in
tools. -/
theorem parse_arguments_unknown_tool_witness :
    (∀ o ∈ ["-q"], o ∈ flag_options) ∧ NONOPTION_P "nonexistent-tool" = true ∧
    (∀ a ∈ ["file.zip"], NONOPTION_P a = true) ∧
    find_tool builtin_tools "nonexistent-tool" = none ∧
    parse_arguments false (find_tool builtin_tools) g_config_zero
        ("devtools" :: (["-q"] ++ "nonexistent-tool" :: ["file.zip"]))
      = some (.returned { tool := none, argc := 0, argv := [],
                          error := { code := ERROR_INVALID_ARGUMENT,
                                     message := "Unknown tool: nonexistent-tool" } },
              { g_config_zero with quiet := true }) :=
  ⟨by decide, by decide, by decide, by decide,
   parse_arguments_unknown_tool false (find_tool builtin_tools) g_config_zero
     "devtools" ["-q"] "nonexistent-tool" ["file.zip"]
     (by decide) (by decide) (Or.inr (by decide)) (by decide)⟩

/-! ## Exit status and execution (C6, C7, C8) -/

/-- The value `init_devtools` returns tells whether a registry is there. -/
theorem init_devtools_ok {R : Type} (pm : PluginManager R) (il : Bool) (g : DevToolsConfig) :
    ((init_devtools pm il g).ok = true ∧ ∃ r, (init_devtools pm il g).registry = some r) ∨
    ((init_devtools pm il g).ok = false ∧ (init_devtools pm il g).registry = none) := by
  unfold init_devtools
  simp only
  split
  · right; exact ⟨rfl, rfl⟩
  · left; exact ⟨rfl, _, rfl⟩

/-- C6: `main` always ends, and it returns `EXIT_SUCCESS` (0) exactly when
`init_devtools` succeeds, `parse_arguments` returns a Command with error code
`SUCCESS`, and the `execute` callback of its tool returns `SUCCESS`. When
`init_devtools` fails, when the Command carries an error, and when the tool's
result is not `SUCCESS`, `main` returns `EXIT_FAILURE` (1). The only other way
for the process to end is the `exit(EXIT_SUCCESS)` inside `parse_arguments`
(`-h`, `--version`, `--list-tools`), where `main` does not return. -/
theorem main_exit_status {R : Type} (p : Bool) (pm : PluginManager R) (il : Bool)
    (call : FnPtr → Int → List String → Int) (argv : List String) :
    ∃ r calls, main p pm il call argv = some (r, calls) ∧
      (r = .returned EXIT_SUCCESS ↔
        ∃ reg cmd g t, (init_devtools pm il g_config_zero).ok = true ∧
          (init_devtools pm il g_config_zero).registry = some reg ∧
          parse_arguments p (pm.find_tool reg) (init_devtools pm il g_config_zero).g_config argv
            = some (.returned cmd, g) ∧
          cmd.error.code = SUCCESS ∧ cmd.tool = some t ∧
          call t.execute (cmd.argc - 1) (cmd.argv.drop 1) = SUCCESS) ∧
      ((init_devtools pm il g_config_zero).ok = false → r = .returned EXIT_FAILURE) ∧
      (∀ reg cmd g, (init_devtools pm il g_config_zero).registry = some reg →
        parse_arguments p (pm.find_tool reg) (init_devtools pm il g_config_zero).g_config argv
          = some (.returned cmd, g) →
        (cmd.error.code ≠ SUCCESS ∨ (execute_command call (some cmd)).1 ≠ SUCCESS) →
        r = .returned EXIT_FAILURE) ∧
      (r = .returned EXIT_SUCCESS ∨ r = .returned EXIT_FAILURE ∨ r = .exited EXIT_SUCCESS) := by
  have h01 : (Outcome.returned EXIT_FAILURE : Outcome Int) ≠ .returned EXIT_SUCCESS := by decide
  rcases init_devtools_ok pm il g_config_zero with ⟨hok, reg, hreg⟩ | ⟨hok, hreg⟩
  · have hsome := parse_arguments_isSome p (pm.find_tool reg)
      (init_devtools pm il g_config_zero).g_config argv
    obtain ⟨⟨o, g1⟩, hparse⟩ := Option.isSome_iff_exists.1 hsome
    cases o with
    | exited status =>
      have hst := parse_arguments_exited p _ _ g1 argv status hparse
      subst hst
      refine ⟨.exited EXIT_SUCCESS, [], ?_, ?_, ?_, ?_, Or.inr (Or.inr rfl)⟩
      · unfold main; simp only [hok, hreg, hparse]
      · constructor
        · intro h; cases h
        · rintro ⟨reg1, cmd, g, t, _, h2, h3, _⟩
          rw [hreg] at h2; cases h2
          rw [hparse] at h3; cases h3
      · intro h; rw [hok] at h; cases h
      · intro reg1 cmd g h2 h3
        rw [hreg] at h2; cases h2
        rw [hparse] at h3; cases h3
    | returned cmd =>
      by_cases hcode : cmd.error.code = SUCCESS
      · cases htool : cmd.tool with
        | none =>
          refine ⟨.returned EXIT_FAILURE, [], ?_, ?_, ?_, ?_, Or.inr (Or.inl rfl)⟩
          · unfold main
            simp only [hok, hreg, hparse, execute_command, htool]
            simp [hcode]
            decide
          · constructor
            · intro h; exact absurd h h01
            · rintro ⟨reg1, cmd1, g, t, _, h2, h3, _, h5, _⟩
              rw [hreg] at h2; cases h2
              rw [hparse] at h3; cases h3
              rw [htool] at h5; cases h5
          · intro _; rfl
          · intro _ _ _ _ _ _; rfl
        | some t =>
          by_cases hres : call t.execute (cmd.argc - 1) (cmd.argv.drop 1) = SUCCESS
          · refine ⟨.returned EXIT_SUCCESS,
              [{ fn := t.execute, argc := cmd.argc - 1, argv := cmd.argv.drop 1 }], ?_, ?_, ?_, ?_, Or.inl rfl⟩
            · unfold main
              simp only [hok, hreg, hparse, execute_command, htool]
              simp only [ne_eq, hcode, not_true_eq_false, if_false, hres, if_true]
            · constructor
              · intro _; exact ⟨reg, cmd, g1, t, hok, hreg, hparse, hcode, htool, hres⟩
              · intro _; rfl
            · intro h; rw [hok] at h; cases h
            · intro reg1 cmd1 g h2 h3 h4
              rw [hreg] at h2; cases h2
              rw [hparse] at h3; cases h3
              rcases h4 with h4 | h4
              · exact absurd hcode h4
              · simp only [execute_command, htool] at h4
                exact absurd hres h4
          · refine ⟨.returned EXIT_FAILURE,
              [{ fn := t.execute, argc := cmd.argc - 1, argv := cmd.argv.drop 1 }], ?_, ?_, ?_, ?_, Or.inr (Or.inl rfl)⟩
            · unfold main
              simp only [hok, hreg, hparse, execute_command, htool]
              simp only [ne_eq, hcode, not_true_eq_false, if_false, hres, if_true]
            · constructor
              · intro h; exact absurd h h01
              · rintro ⟨reg1, cmd1, g, t1, _, h2, h3, _, h5, h6⟩
                rw [hreg] at h2; cases h2
                rw [hparse] at h3; cases h3
                rw [htool] at h5; cases h5
                exact absurd h6 hres
            · intro _; rfl
            · intro _ _ _ _ _ _; rfl
      · refine ⟨.returned EXIT_FAILURE, [], ?_, ?_, ?_, ?_, Or.inr (Or.inl rfl)⟩
        · unfold main
          simp only [hok, hreg, hparse]
          rw [if_pos hcode]
        · constructor
          · intro h; exact absurd h h01
          · rintro ⟨reg1, cmd1, g, t1, _, h2, h3, h4, _⟩
            rw [hreg] at h2; cases h2
            rw [hparse] at h3; cases h3
            exact absurd h4 hcode
        · intro _; rfl
        · intro _ _ _ _ _ _; rfl
  · refine ⟨.returned EXIT_FAILURE, [], ?_, ?_, ?_, ?_, Or.inr (Or.inl rfl)⟩
    · unfold main; simp only [hok, hreg]
    · constructor
      · intro h; exact absurd h h01
      · rintro ⟨reg1, cmd1, g, t1, h1, _⟩
        rw [hok] at h1; cases h1
    · intro _; rfl
    · intro _ _ _ _ _ _; rfl


/-- C6 (witness): `devtools hash-generate file.zip` with a tool that succeeds. -/
theorem main_exit_status_witness :
    ∃ calls, main false spec_plugin_manager true (fun _ _ _ => SUCCESS)
      ["devtools", "hash-generate", "file.zip"] = some (.returned EXIT_SUCCESS, calls) := by
  obtain ⟨r, calls, h, hiff, _, _, _⟩ :=
    main_exit_status false spec_plugin_manager true (fun _ _ _ => SUCCESS)
      ["devtools", "hash-generate", "file.zip"]
  have hr : r = .returned EXIT_SUCCESS :=
    hiff.2 ⟨builtin_tools,
      { tool := builtin_tools[2]?, argc := 2, argv := ["hash-generate", "file.zip"],
        error := { code := SUCCESS, message := "" } },
      (init_devtools spec_plugin_manager true g_config_zero).g_config,
      { name := "hash-generate", description := "Generate file hashes (MD5, SHA1, SHA256)",
        version := "", author := "", execute := "hash_generator_execute",
        help := some "hash_generator_help", version_callback := none },
      by decide, by decide, by decide, by decide, by decide, by decide⟩
  subst hr
  exact ⟨calls, h⟩

/-- C7 (counterexample): a callback that returns 1, which is no `ErrorCode`
value, makes `execute_command` return 1, not `ERROR_PLUGIN_ERROR`. -/
theorem execute_command_plugin_error_counterexample :
    execute_command (fun _ _ _ => 1)
        (some { tool := builtin_tools[2]?, argc := 2, argv := ["hash-generate", "file.zip"],
                error := { code := SUCCESS, message := "" } })
      = (1, [{ fn := "hash_generator_execute", argc := 1, argv := ["file.zip"] }]) ∧
    (1 : Int) ∉ ErrorCode ∧ (1 : Int) ≠ ERROR_PLUGIN_ERROR := by
  decide

/-- C7 (amended): for every Command with a tool, `execute_command` calls the
tool's `execute` once with `(argc - 1, argv + 1)` and returns the callback's
result unchanged, whatever it is: a value of `ErrorCode` or any other integer;
nothing is converted to `ERROR_PLUGIN_ERROR`. -/
theorem execute_command_returns_callback_result (call : FnPtr → Int → List String → Int)
    (cmd : Command) (t : Tool) (h : cmd.tool = some t) :
    execute_command call (some cmd)
      = (call t.execute (cmd.argc - 1) (cmd.argv.drop 1),
         [{ fn := t.execute, argc := cmd.argc - 1, argv := cmd.argv.drop 1 }]) := by
  simp [execute_command, h]

/-- C7 (witness): a callback that returns `40 + argc`. -/
theorem execute_command_returns_callback_result_witness :
    (({ tool := builtin_tools[2]?, argc := 2, argv := ["hash-generate", "file.zip"],
        error := { code := SUCCESS, message := "" } } : Command).tool = builtin_tools[2]?) ∧
    execute_command (fun _ argc _ => 40 + argc)
        (some { tool := builtin_tools[2]?, argc := 2, argv := ["hash-generate", "file.zip"],
                error := { code := SUCCESS, message := "" } })
      = (41, [{ fn := "hash_generator_execute", argc := 1, argv := ["file.zip"] }]) :=
  ⟨rfl, execute_command_returns_callback_result (fun _ argc _ => 40 + argc)
    { tool := builtin_tools[2]?, argc := 2, argv := ["hash-generate", "file.zip"],
      error := { code := SUCCESS, message := "" } }
    { name := "hash-generate", description := "Generate file hashes (MD5, SHA1, SHA256)",
      version := "", author := "", execute := "hash_generator_execute",
      help := some "hash_generator_help", version_callback := none } rfl⟩

/-- C8: whenever `parse_arguments` returns a Command whose error code is not
`SUCCESS`, `main` returns `EXIT_FAILURE` and no `execute` callback has been
called; and `execute_command` itself returns `ERROR_INVALID_ARGUMENT` without
calling any callback when the Command pointer is null or its tool is null. -/
theorem resolution_failure_calls_no_tool {R : Type} (p : Bool) (pm : PluginManager R)
    (il : Bool) (call : FnPtr → Int → List String → Int) (argv : List String) :
    (∀ r cmd g, (init_devtools pm il g_config_zero).registry = some r →
      parse_arguments p (pm.find_tool r) (init_devtools pm il g_config_zero).g_config argv
        = some (.returned cmd, g) →
      cmd.error.code ≠ SUCCESS →
      main p pm il call argv = some (.returned EXIT_FAILURE, [])) ∧
    execute_command call none = (ERROR_INVALID_ARGUMENT, []) ∧
    (∀ cmd : Command, cmd.tool = none →
      execute_command call (some cmd) = (ERROR_INVALID_ARGUMENT, [])) := by
  refine ⟨?_, rfl, ?_⟩
  · intro r cmd g hreg hparse hcode
    rcases init_devtools_ok pm il g_config_zero with ⟨hok, _⟩ | ⟨_, hnone⟩
    · unfold main
      simp only [hok, hreg, hparse]
      rw [if_pos hcode]
    · rw [hnone] at hreg
      cases hreg
  · intro cmd h
    simp [execute_command, h]

/-- C8 (witness): `devtools nonexistent-tool` against the spec's registry
holding the built-in tools. -/
theorem resolution_failure_calls_no_tool_witness :
    (init_devtools spec_plugin_manager true g_config_zero).registry = some builtin_tools ∧
    (main false spec_plugin_manager true (fun _ _ _ => SUCCESS)
        ["devtools", "nonexistent-tool"] = some (.returned EXIT_FAILURE, [])) :=
  ⟨by decide,
   (resolution_failure_calls_no_tool false spec_plugin_manager true (fun _ _ _ => SUCCESS)
      ["devtools", "nonexistent-tool"]).1 builtin_tools
      { tool := none, argc := 0, argv := [],
        error := { code := ERROR_INVALID_ARGUMENT,
                   message := "Unknown tool: nonexistent-tool" } }
      (init_devtools spec_plugin_manager true g_config_zero).g_config
      (by decide) (by decide) (by decide)⟩

/-! ## Start-up and the registry (C9, C10) -/

/-- The registration loop passes each table entry to `register_tool`, in order. -/
theorem register_builtin_tools_calls {R : Type} (pm : PluginManager R) (ts : List Tool) :
    ∀ (r : R) (calls : List (Tool × Bool)),
      (register_builtin_tools pm ts r calls).2.map Prod.fst = calls.map Prod.fst ++ ts := by
  induction ts with
  | nil => intro r calls; simp [register_builtin_tools]
  | cons t ts ih =>
    intro r calls
    simp only [register_builtin_tools]
    rw [ih]
    simp

/-- C9: `init_devtools` returns `true` exactly when `plugin_manager_init`
succeeded, whatever `register_tool` returns; and then the descriptors it passed
to `register_tool`, in call order, are exactly the entries of `builtin_tools`
in table order, each once (none is passed when `plugin_manager_init` failed). -/
theorem init_devtools_registers_builtin_tools {R : Type} (pm : PluginManager R) (il : Bool)
    (g : DevToolsConfig) :
    (init_devtools pm il g).ok = pm.plugin_manager_init.isSome ∧
    (init_devtools pm il g).register_calls.map Prod.fst
      = (if pm.plugin_manager_init.isSome then builtin_tools else []) := by
  unfold init_devtools
  simp only
  split
  · rename_i h
    rw [h]
    exact ⟨rfl, rfl⟩
  · rename_i r0 h
    rw [h]
    refine ⟨rfl, ?_⟩
    have := register_builtin_tools_calls pm builtin_tools r0 []
    simpa using this

/-- One `register_tool` call keeps the registry invariant. -/
theorem register_tool_ok (r : Registry) (t : Tool) (h : registry_ok r) :
    registry_ok (register_tool r t).2 := by
  unfold register_tool
  split
  · exact h
  · rename_i hvalid
    split
    · exact h
    · rename_i hnew
      obtain ⟨h1, h2⟩ := h
      constructor
      · simp only [List.map_append, List.map_cons, List.map_nil]
        rw [List.nodup_append]
        refine ⟨h1, List.nodup_singleton _, ?_⟩
        intro a ha hb
        rw [List.mem_singleton] at hb
        subst hb
        exact hnew ha
      · intro x hx
        rcases List.mem_append.1 hx with hx | hx
        · exact h2 x hx
        · rw [List.mem_singleton] at hx
          subst hx
          constructor
          · intro he; exact hvalid (Or.inl he)
          · by_contra hc
            exact hvalid (Or.inr (by omega))

/-- Any sequence of `register_tool` calls keeps the registry invariant. -/
theorem register_all_ok (ts : List Tool) :
    ∀ r : Registry, registry_ok r → registry_ok (register_all r ts) := by
  induction ts with
  | nil => intro r h; exact h
  | cons t ts ih =>
    intro r h
    simp only [register_all, List.foldl_cons]
    exact ih _ (register_tool_ok r t h)

/-- A name already in the registry makes `register_tool` fail as a duplicate,
the registry unchanged. -/
theorem register_tool_duplicate (r : Registry) (t : Tool) (h : registry_ok r)
    (hdup : t.name ∈ r.map Tool.name) :
    register_tool r t
      = (some (SET_ERROR ERROR_INVALID_ARGUMENT ("Duplicate tool name: " ++ t.name)), r) := by
  obtain ⟨x, hx, hname⟩ := List.mem_map.1 hdup
  have hv := h.2 x hx
  rw [hname] at hv
  unfold register_tool
  rw [if_neg (by
    rintro (h1 | h1)
    · exact hv.1 h1
    · omega), if_pos hdup]

/-- C10: after any sequence of `register_tool` calls on the empty registry no
two descriptors of the registry have the same name; and registering a
descriptor whose name is already present returns an `ERROR_INVALID_ARGUMENT`
failure that names the duplicate and leaves the registry as it was. -/
theorem register_tool_keeps_names_unique (ts : List Tool) :
    ((register_all [] ts).map Tool.name).Nodup ∧
    ∀ t : Tool, t.name ∈ (register_all [] ts).map Tool.name →
      register_tool (register_all [] ts) t
        = (some (SET_ERROR ERROR_INVALID_ARGUMENT ("Duplicate tool name: " ++ t.name)),
           register_all [] ts) := by
  have h : registry_ok (register_all [] ts) :=
    register_all_ok ts [] ⟨List.nodup_nil, fun _ hx => absurd hx (List.not_mem_nil _)⟩
  exact ⟨h.1, fun t ht => register_tool_duplicate _ t h ht⟩

/-- C10 (witness): registering a second `hash-generate` after the built-in
tools. -/
theorem register_tool_keeps_names_unique_witness :
    register_all [] builtin_tools = builtin_tools ∧
    "hash-generate" ∈ (register_all [] builtin_tools).map Tool.name ∧
    register_tool (register_all [] builtin_tools)
        { name := "hash-generate", description := "another one", version := "2", author := "",
          execute := "other_execute", help := none, version_callback := none }
      = (some { code := ERROR_INVALID_ARGUMENT, message := "Duplicate tool name: hash-generate" },
         register_all [] builtin_tools) :=
  ⟨by decide, by decide,
   (register_tool_keeps_names_unique builtin_tools).2
     { name := "hash-generate", description := "another one", version := "2", author := "",
       execute := "other_execute", help := none, version_callback := none } (by decide)⟩

end DevTools

namespace DevTools

/-! ## The listing of the registry (C11) -/

/-- The registry after a `register_tool` call: the descriptor is appended when
the call succeeds, nothing changes when it fails. -/
theorem register_tool_registry (r : Registry) (t : Tool) :
    (register_tool r t).2 = if (register_tool r t).1.isNone then r ++ [t] else r := by
  unfold register_tool
  split
  · rfl
  · split <;> rfl

/-- A sequence of `register_tool` calls appends the descriptors whose call
succeeded, in call order. -/
theorem register_all_eq (ts : List Tool) :
    ∀ r : Registry, register_all r ts = r ++ successful_registrations r ts := by
  induction ts with
  | nil => intro r; simp [register_all, successful_registrations]
  | cons t ts ih =>
    intro r
    have h := ih (register_tool r t).2
    simp only [register_all, List.foldl_cons] at h ⊢
    rw [h, successful_registrations]
    rw [register_tool_registry]
    split <;> simp

/-- The successful registrations keep the order of the calls. -/
theorem successful_registrations_sublist (ts : List Tool) :
    ∀ r : Registry, (successful_registrations r ts).Sublist ts := by
  induction ts with
  | nil => intro r; simp [successful_registrations]
  | cons t ts ih =>
    intro r
    rw [successful_registrations]
    split
    · exact (ih _).cons₂ t
    · exact (ih _).cons t

/-- C11: after any sequence of `register_tool` calls on the empty registry,
`plugin_manager_list_tools` yields exactly the descriptors whose call
succeeded, in the order of those calls (a sublist of the sequence of calls),
however many calls failed in between; after `init_devtools` on the spec's
plugin manager the listing is `builtin_tools` in table order. -/
theorem plugin_manager_list_tools_registration_order (ts : List Tool) (il : Bool)
    (g : DevToolsConfig) :
    plugin_manager_list_tools (register_all [] ts) = successful_registrations [] ts ∧
    (plugin_manager_list_tools (register_all [] ts)).Sublist ts ∧
    (init_devtools spec_plugin_manager il g).registry.map plugin_manager_list_tools
      = some builtin_tools := by
  have h := register_all_eq ts []
  rw [List.nil_append] at h
  refine ⟨h, ?_, ?_⟩
  · rw [plugin_manager_list_tools, h]
    exact successful_registrations_sublist ts []
  · cases il <;> rfl

/-! ## The global options in the documented usage `prog [global options] ...` -/

/-- One call of `getopt_long` on `--config FILE`: both elements are consumed and
`optarg` is `FILE`. -/
theorem getopt_long_config (p : Bool) (s rest : List String) (f : String) :
    getopt_long p ⟨s, [], "--config" :: f :: rest, [], none⟩
      = (('c'.toNat : Int), (⟨s ++ ["--config", f], [], rest, [], some f⟩ : GetoptState)) := by
  cases p <;> simp [getopt_long, NONOPTION_P, process_long_option, find_long_option, long_options,
    required_argument, no_argument]

/-- A call of `getopt_long` does not read the old value of `optarg`. -/
theorem getopt_long_optarg (p : Bool) (s no r : List String) (nc : List Char)
    (oa : Option String) :
    getopt_long p ⟨s, no, r, nc, oa⟩ = getopt_long p ⟨s, no, r, nc, none⟩ := by
  cases nc <;> cases p <;> rfl

/-- The loop of `parse_arguments` does not read the old value of `optarg`. -/
theorem loop_optarg (p : Bool) (n : Nat) (s no r : List String) (nc : List Char)
    (oa : Option String) (g : DevToolsConfig) :
    parse_arguments_loop p n ⟨s, no, r, nc, oa⟩ g
      = parse_arguments_loop p n ⟨s, no, r, nc, none⟩ g := by
  cases n with
  | zero => rfl
  | succ n => rw [parse_arguments_loop, parse_arguments_loop, getopt_long_optarg]

/-- One iteration of the loop on a global option: its tokens are consumed and
its documented effect is applied to `g_config`. -/
theorem loop_option_step (p : Bool) (n : Nat) (s rest : List String) (g : DevToolsConfig)
    (o : GlobalOption) :
    parse_arguments_loop p (n + 1) ⟨s, [], o.tokens ++ rest, [], none⟩ g
      = parse_arguments_loop p n ⟨s ++ o.tokens, [], rest, [], none⟩ (GlobalOption.effect g o) := by
  cases o with
  | verbose long =>
    cases long
    · exact loop_flag_step p n s rest g "-v" (by decide)
    · exact loop_flag_step p n s rest g "--verbose" (by decide)
  | quiet long =>
    cases long
    · exact loop_flag_step p n s rest g "-q" (by decide)
    · exact loop_flag_step p n s rest g "--quiet" (by decide)
  | config f =>
    show parse_arguments_loop p (n + 1) ⟨s, [], "--config" :: f :: rest, [], none⟩ g
      = parse_arguments_loop p n ⟨s ++ ["--config", f], [], rest, [], none⟩
          { g with config_file := String.mk (f.data.take 1023) }
    rw [← loop_optarg p n (s ++ ["--config", f]) [] rest [] (some f)]
    rw [parse_arguments_loop, getopt_long_config]
    rfl

/-- The loop on a run of global options: one iteration each. -/
theorem loop_options (p : Bool) (pre : List GlobalOption) :
    ∀ (n : Nat) (s tail : List String) (g : DevToolsConfig),
      parse_arguments_loop p (n + pre.length) ⟨s, [], pre.flatMap GlobalOption.tokens ++ tail, [], none⟩ g
        = parse_arguments_loop p n ⟨s ++ pre.flatMap GlobalOption.tokens, [], tail, [], none⟩
            (pre.foldl GlobalOption.effect g) := by
  induction pre with
  | nil => intro n s tail g; simp
  | cons o os ih =>
    intro n s tail g
    have h1 : n + (o :: os).length = (n + os.length) + 1 := by simp; omega
    rw [h1, List.flatMap_cons, List.append_assoc, loop_option_step, ih]
    simp

/-- One iteration of the loop on `-h`, `--help`, `--version` or `--list-tools`
ends the process, `g_config` unchanged. -/
theorem loop_exit_option (p : Bool) (n : Nat) (s post : List String) (g : DevToolsConfig)
    (x : String) (hx : x ∈ exit_options) :
    ∃ c, parse_arguments_loop p (n + 1) ⟨s, [], x :: post, [], none⟩ g = some (.exit_success c g) := by
  simp only [exit_options, List.mem_cons, List.mem_singleton, List.not_mem_nil, or_false] at hx
  rcases hx with rfl | rfl | rfl | rfl
  · exact ⟨'h'.toNat, by cases p <;> rfl⟩
  · exact ⟨'h'.toNat, by cases p <;> rfl⟩
  · exact ⟨1000, by cases p <;> rfl⟩
  · exact ⟨1001, by cases p <;> rfl⟩


/-- Every global option has at least one token. -/
theorem length_le_flatMap_tokens (pre : List GlobalOption) :
    pre.length ≤ (pre.flatMap GlobalOption.tokens).length := by
  induction pre with
  | nil => simp
  | cons o os ih =>
    have : 1 ≤ o.tokens.length := by
      cases o with
      | verbose l => cases l <;> simp [GlobalOption.tokens]
      | quiet l => cases l <;> simp [GlobalOption.tokens]
      | config f => simp [GlobalOption.tokens]
    simp only [List.flatMap_cons, List.length_append, List.length_cons]
    omega

/-- The option scan of `prog [global options] tail` after the global options. -/
theorem scan_options (p : Bool) (prog : String) (pre : List GlobalOption) (tail : List String)
    (g : DevToolsConfig) :
    ∃ k, parse_arguments_loop p (scan_bound (prog :: (pre.flatMap GlobalOption.tokens ++ tail)))
          (getopt_init (prog :: (pre.flatMap GlobalOption.tokens ++ tail))) g
        = parse_arguments_loop p (k + 1)
            ⟨[prog] ++ pre.flatMap GlobalOption.tokens, [], tail, [], none⟩
            (pre.foldl GlobalOption.effect g) := by
  obtain ⟨k, hk⟩ : ∃ k, scan_bound (prog :: (pre.flatMap GlobalOption.tokens ++ tail))
      = (k + 1) + pre.length := by
    have h1 := length_le_sum (prog :: (pre.flatMap GlobalOption.tokens ++ tail))
    have h2 := length_le_flatMap_tokens pre
    simp only [List.length_cons, List.length_append] at h1
    refine ⟨scan_bound (prog :: (pre.flatMap GlobalOption.tokens ++ tail)) - 1 - pre.length, ?_⟩
    simp only [scan_bound]
    omega
  have hinit : getopt_init (prog :: (pre.flatMap GlobalOption.tokens ++ tail))
      = ⟨[prog], [], pre.flatMap GlobalOption.tokens ++ tail, [], none⟩ := rfl
  exact ⟨k, by rw [hk, hinit, loop_options p pre]⟩

/-- The result of `parse_arguments` when the scan ends with no non-option. -/
theorem parse_arguments_of_finished_nil (p : Bool) (ft : String → Option Tool)
    (g g1 : DevToolsConfig) (argv s : List String) (h2 : 2 ≤ argv.length)
    (hlen : argv.length = s.length)
    (h : parse_arguments_loop p (scan_bound argv) (getopt_init argv) g
      = some (.finished ⟨s, [], [], [], none⟩ g1)) :
    parse_arguments p ft g argv
      = some (.returned { tool := none, argc := 0, argv := [],
                          error := { code := ERROR_INVALID_ARGUMENT,
                                     message := "No tool specified" } }, g1) := by
  unfold parse_arguments
  simp only [h]
  have h2' : ¬ ((argv.length : Nat) : Int) < 2 := by omega
  have h3 : (⟨s, [], [], [], none⟩ : GetoptState).optind ≥ ((argv.length : Nat) : Int) := by
    simp [GetoptState.optind, hlen]
  rw [if_neg h2', if_pos h3]
  rfl

/-- The result of `parse_arguments` when the scan ends with the non-options
`tok :: args`. -/
theorem parse_arguments_of_finished_cons (p : Bool) (ft : String → Option Tool)
    (g g1 : DevToolsConfig) (argv s : List String) (tok : String) (args : List String)
    (hlen : argv.length = s.length + (tok :: args).length) (hs : 1 ≤ s.length)
    (no r : List String) (hno : no ++ r = tok :: args)
    (h : parse_arguments_loop p (scan_bound argv) (getopt_init argv) g
      = some (.finished ⟨s, no, r, [], none⟩ g1)) :
    parse_arguments p ft g argv
      = match ft tok with
        | none =>
          some (.returned { tool := none, argc := 0, argv := [],
                            error := { code := ERROR_INVALID_ARGUMENT,
                                       message := "Unknown tool: " ++ tok } }, g1)
        | some t =>
          some (.returned { tool := some t, argc := args.length + 1, argv := tok :: args,
                            error := { code := SUCCESS, message := "" } }, g1) := by
  unfold parse_arguments
  simp only [h]
  have h2' : ¬ ((argv.length : Nat) : Int) < 2 := by
    simp only [List.length_cons] at hlen; omega
  have h3 : ¬ (⟨s, no, r, [], none⟩ : GetoptState).optind ≥ ((argv.length : Nat) : Int) := by
    simp only [GetoptState.optind, hlen, List.length_cons]; omega
  have hargv : (⟨s, no, r, [], none⟩ : GetoptState).argv = s ++ (tok :: args) := by
    simp only [GetoptState.argv, List.append_assoc, hno]
  have hn : (⟨s, no, r, [], none⟩ : GetoptState).optind.toNat = s.length := by
    simp [GetoptState.optind]
  have hget : (⟨s, no, r, [], none⟩ : GetoptState).argv.getD
      (⟨s, no, r, [], none⟩ : GetoptState).optind.toNat "" = tok := by
    rw [hargv, hn]
    simp [List.getD_eq_getElem?_getD, List.getElem_append_right]
  have hdrop : (⟨s, no, r, [], none⟩ : GetoptState).argv.drop
      (⟨s, no, r, [], none⟩ : GetoptState).optind.toNat = tok :: args := by
    rw [hargv, hn]
    simp
  have hargc : ((argv.length : Nat) : Int) - (⟨s, no, r, [], none⟩ : GetoptState).optind
      = (args.length : Int) + 1 := by
    simp only [GetoptState.optind, hlen, List.length_cons]
    push_cast
    omega
  rw [if_neg h2', if_neg h3, hget, hdrop, hargc]
  cases ft tok <;> rfl

/-- The documented usage: on every command line `prog [global options] ...`, where the global
options are any number of `-v`, `--verbose`, `-q`, `--quiet` and `--config FILE`,
`parse_arguments` applies the documented effect of each of them to `g_config`,
in order (`verbose` resp. `quiet` set to true and nothing else changed, `FILE`
cut to 1023 characters stored in `config_file`); when the next token is `-h`,
`--help`, `--version` or `--list-tools` the process ends with status 0,
whatever follows and whatever `find_tool` knows; otherwise the Command is
resolved from the tokens that follow, with the configuration so set. -/
theorem parse_arguments_global_options (p : Bool) (ft : String → Option Tool)
    (g : DevToolsConfig) (prog : String) (pre : List GlobalOption) :
    (∀ x post, x ∈ exit_options →
      parse_arguments p ft g (prog :: (pre.flatMap GlobalOption.tokens ++ x :: post))
        = some (.exited EXIT_SUCCESS, pre.foldl GlobalOption.effect g)) ∧
    (pre ≠ [] →
      parse_arguments p ft g (prog :: pre.flatMap GlobalOption.tokens)
        = some (.returned { tool := none, argc := 0, argv := [],
                            error := { code := ERROR_INVALID_ARGUMENT,
                                       message := "No tool specified" } },
                pre.foldl GlobalOption.effect g)) ∧
    (∀ tok args, NONOPTION_P tok = true → (p = true ∨ ∀ a ∈ args, NONOPTION_P a = true) →
      parse_arguments p ft g (prog :: (pre.flatMap GlobalOption.tokens ++ tok :: args))
        = match ft tok with
          | none =>
            some (.returned { tool := none, argc := 0, argv := [],
                              error := { code := ERROR_INVALID_ARGUMENT,
                                         message := "Unknown tool: " ++ tok } },
                  pre.foldl GlobalOption.effect g)
          | some t =>
            some (.returned { tool := some t, argc := args.length + 1, argv := tok :: args,
                              error := { code := SUCCESS, message := "" } },
                  pre.foldl GlobalOption.effect g)) := by
  refine ⟨?_, ?_, ?_⟩
  · intro x post hx
    obtain ⟨k, hk⟩ := scan_options p prog pre (x :: post) g
    obtain ⟨c, hc⟩ := loop_exit_option p k ([prog] ++ pre.flatMap GlobalOption.tokens) post
      (pre.foldl GlobalOption.effect g) x hx
    rw [hc] at hk
    unfold parse_arguments
    simp only [hk]
    have h2 : ¬ (((prog :: (pre.flatMap GlobalOption.tokens ++ x :: post)).length : Nat) : Int) < 2 := by
      simp only [List.length_cons, List.length_append]; omega
    rw [if_neg h2]
  · intro hne
    obtain ⟨k, hk⟩ := scan_options p prog pre [] g
    rw [loop_end, List.append_nil] at hk
    have hl := length_le_flatMap_tokens pre
    have hpos : 1 ≤ pre.length := by
      cases pre with
      | nil => exact absurd rfl hne
      | cons _ _ => simp
    exact parse_arguments_of_finished_nil p ft g _ _ _ (by simp only [List.length_cons]; omega)
      (by simp) hk
  · intro tok args htok hargs
    obtain ⟨k, hk⟩ := scan_options p prog pre (tok :: args) g
    cases p with
    | true =>
      rw [loop_operands_posix _ _ _ _ _ htok] at hk
      exact parse_arguments_of_finished_cons true ft g _ _ _ tok args (by simp; omega)
        (by simp) [] (tok :: args) rfl hk
    | false =>
      have hargs : ∀ a ∈ args, NONOPTION_P a = true := by
        rcases hargs with h | h
        · cases h
        · exact h
      rw [loop_operands_permute _ _ _ _ _ htok hargs] at hk
      exact parse_arguments_of_finished_cons false ft g _ _ _ tok args (by simp; omega)
        (by simp) (tok :: args) [] (by simp) hk

/-- Three command lines of the documented usage: `devtools -v --config my.rc --version hash-generate`,
`devtools --quiet -v` and `devtools --config my.rc -q hash-generate a.txt`. -/
theorem parse_arguments_global_options_witness :
    "--version" ∈ exit_options ∧
    parse_arguments false (find_tool builtin_tools) g_config_zero
        ["devtools", "-v", "--config", "my.rc", "--version", "hash-generate"]
      = some (.exited EXIT_SUCCESS,
              { g_config_zero with verbose := true, config_file := "my.rc" }) ∧
    parse_arguments false (find_tool builtin_tools) g_config_zero ["devtools", "--quiet", "-v"]
      = some (.returned { tool := none, argc := 0, argv := [],
                          error := { code := ERROR_INVALID_ARGUMENT,
                                     message := "No tool specified" } },
              { g_config_zero with verbose := true, quiet := true }) ∧
    NONOPTION_P "hash-generate" = true ∧ (∀ a ∈ ["a.txt"], NONOPTION_P a = true) ∧
    parse_arguments false (find_tool builtin_tools) g_config_zero
        ["devtools", "--config", "my.rc", "-q", "hash-generate", "a.txt"]
      = some (.returned { tool := builtin_tools[2]?, argc := 2,
                          argv := ["hash-generate", "a.txt"],
                          error := { code := SUCCESS, message := "" } },
              { g_config_zero with quiet := true, config_file := "my.rc" }) :=
  ⟨by decide,
   (parse_arguments_global_options false (find_tool builtin_tools) g_config_zero "devtools"
      [.verbose false, .config "my.rc"]).1 "--version" ["hash-generate"] (by decide),
   (parse_arguments_global_options false (find_tool builtin_tools) g_config_zero "devtools"
      [.quiet true, .verbose false]).2.1 (by decide),
   by decide, by decide,
   (parse_arguments_global_options false (find_tool builtin_tools) g_config_zero "devtools"
      [.config "my.rc", .quiet false]).2.2 "hash-generate" ["a.txt"] (by decide)
      (Or.inr (by decide))⟩

end DevTools

/-! # Theorems on C `int` arithmetic -/

namespace CInt

/-- A result inside the `int` range is not changed by the wrap-around. -/
theorem wrap_int_eq (x : Int) (h1 : INT_MIN ≤ x) (h2 : x ≤ INT_MAX) : wrap_int x = x := by
  unfold wrap_int
  unfold INT_MIN at h1
  unfold INT_MAX at h2
  omega

/-- A wrapped result is inside the `int` range. -/
theorem wrap_int_range (x : Int) : INT_MIN ≤ wrap_int x ∧ wrap_int x ≤ INT_MAX := by
  unfold wrap_int INT_MIN INT_MAX
  omega

end CInt

/-! # Theorems on the knapsack (C13, C14) -/

namespace Knapsack
open CInt

/-- A row has the columns `0 .. capacity`. -/
theorem dp_row_length (item : Item) (prev : List Int) (cap : Nat) :
    (dp_row item prev cap).length = cap + 1 := by
  simp [dp_row]

/-- The entries of a row the inner loop has filled. -/
theorem dp_row_getD (item : Item) (prev : List Int) (cap w : Nat) (hw : w ≤ cap) :
    (dp_row item prev cap).getD w 0 = if w = 0 then 0 else dp_cell item prev w := by
  have h : w < (dp_row item prev cap).length := by rw [dp_row_length]; omega
  rw [List.getD_eq_getElem _ _ h]
  simp [dp_row]

/-- Every row of the table has the columns `0 .. capacity`. -/
theorem row_length (cap : Nat) (acc : List Item) : (row cap acc).length = cap + 1 := by
  cases acc with
  | nil => simp [row]
  | cons a l => simp [row, dp_row_length]

/-- The rows the outer loop fills are the rows `row` describes. -/
theorem dp_rows_getD (cap : Nat) (items : List Item) :
    ∀ (acc : List Item) (i : Nat), i < items.length →
      (dp_rows cap items (row cap acc)).getD i [] = row cap ((items.take (i + 1)).reverse ++ acc) := by
  induction items with
  | nil => intro acc i hi; simp at hi
  | cons it rest ih =>
    intro acc i hi
    cases i with
    | zero => simp [dp_rows, row]
    | succ i =>
      simp only [List.length_cons] at hi
      have h := ih (it :: acc) i (by omega)
      simp only [row] at h
      simp only [dp_rows, List.getD_cons_succ, h, List.take_succ_cons, List.reverse_cons,
        List.append_assoc, List.singleton_append]

/-- Row `dp[i]` is determined by the first `i` items. -/
theorem dp_table_getD (cap : Nat) (items : List Item) (i : Nat) (hi : i ≤ items.length) :
    (dp_table items cap).getD i [] = row cap (items.take i).reverse := by
  cases i with
  | zero => simp [dp_table, row]
  | succ i =>
    have h := dp_rows_getD cap items [] i (by omega)
    simp only [row, List.append_nil] at h
    simp only [dp_table, List.getD_cons_succ, h]

/-- With non-negative values the best total value is not negative. -/
theorem best_nonneg (acc : List Item) (hv : ∀ it ∈ acc, 0 ≤ it.value) :
    ∀ w : Int, 0 ≤ best acc w := by
  induction acc with
  | nil => intro w; simp [best]
  | cons it acc ih =>
    intro w
    have ih := ih (fun x hx => hv x (List.mem_cons_of_mem _ hx))
    simp only [best]
    split
    · exact ih w
    · exact le_max_of_le_right (ih w)

/-- With positive weights a total weight is not negative. -/
theorem total_weight_nonneg (s : List Item) (hw : ∀ it ∈ s, 0 < it.weight) : 0 ≤ total_weight s := by
  induction s with
  | nil => simp [total_weight]
  | cons it s ih =>
    have := ih (fun x hx => hw x (List.mem_cons_of_mem _ hx))
    have := hw it (List.mem_cons_self _ _)
    simp only [total_weight, List.map_cons, List.sum_cons] at *
    omega

/-- Some selection attains the value of the recurrence. -/
theorem best_attained (acc : List Item) :
    ∀ w : Int, 0 ≤ w → ∃ s, s.Sublist acc ∧ total_weight s ≤ w ∧ total_value s = best acc w := by
  induction acc with
  | nil => intro w hw; exact ⟨[], List.Sublist.refl _, by simpa [total_weight] using hw, by simp [total_value, best]⟩
  | cons it acc ih =>
    intro w hw
    simp only [best]
    split
    · obtain ⟨s, h1, h2, h3⟩ := ih w hw
      exact ⟨s, h1.cons it, h2, h3⟩
    · rename_i hle
      rcases le_total (best acc w) (it.value + best acc (w - it.weight)) with h | h
      · obtain ⟨s, h1, h2, h3⟩ := ih (w - it.weight) (by omega)
        refine ⟨it :: s, h1.cons₂ it, ?_, ?_⟩
        · simp only [total_weight, List.map_cons, List.sum_cons] at *; omega
        · simp only [total_value, List.map_cons, List.sum_cons] at *
          rw [max_eq_left h, h3]
      · obtain ⟨s, h1, h2, h3⟩ := ih w hw
        exact ⟨s, h1.cons it, h2, by rw [max_eq_right h, h3]⟩

/-- No selection within the weight limit is worth more than the recurrence says. -/
theorem best_upper (acc : List Item) (hwt : ∀ it ∈ acc, 0 < it.weight) :
    ∀ (w : Int) (s : List Item), s.Sublist acc → total_weight s ≤ w → total_value s ≤ best acc w := by
  induction acc with
  | nil =>
    intro w s hs _
    rw [List.sublist_nil.1 hs]
    simp [total_value, best]
  | cons it acc ih =>
    intro w s hs hw
    have ih := ih (fun x hx => hwt x (List.mem_cons_of_mem _ hx))
    simp only [best]
    cases hs with
    | cons _ h =>
      have := ih w s h hw
      split
      · exact this
      · exact le_max_of_le_right this
    | cons₂ _ h =>
      rename_i s1
      have hpos : 0 ≤ total_weight s1 :=
        total_weight_nonneg s1 (fun x hx => hwt x (List.mem_cons_of_mem _ (h.subset hx)))
      simp only [total_weight, List.map_cons, List.sum_cons] at hw hpos
      have hle : ¬ it.weight > w := by omega
      rw [if_neg hle]
      have := ih (w - it.weight) s1 h (by simp only [total_weight]; omega)
      simp only [total_value, List.map_cons, List.sum_cons] at *
      exact le_max_of_le_left (by omega)


/-- As long as no feasible selection is worth more than `INT_MAX`, the table
holds the values of the recurrence: no `int` addition wraps. -/
theorem row_eq_best (cap : Nat) (acc : List Item)
    (hwt : ∀ it ∈ acc, 0 < it.weight) (hv : ∀ it ∈ acc, 0 ≤ it.value)
    (hfit : ∀ s : List Item, s.Sublist acc → total_weight s ≤ cap → total_value s ≤ INT_MAX) :
    ∀ w : Nat, w ≤ cap → (row cap acc).getD w 0 = best acc w := by
  induction acc with
  | nil =>
    intro w hw
    simp only [row, best, List.getD_eq_getElem?_getD, List.getElem?_replicate]
    split <;> rfl
  | cons it acc ih =>
    intro w hw
    have hwt1 : ∀ x ∈ acc, 0 < x.weight := fun x hx => hwt x (List.mem_cons_of_mem _ hx)
    have hv1 : ∀ x ∈ acc, 0 ≤ x.value := fun x hx => hv x (List.mem_cons_of_mem _ hx)
    have ih := ih hwt1 hv1 (fun s hs => hfit s (hs.cons it))
    have hitw := hwt it (List.mem_cons_self _ _)
    have hitv := hv it (List.mem_cons_self _ _)
    rw [row, dp_row_getD _ _ _ _ hw]
    by_cases h0 : w = 0
    · subst h0
      have : it.weight > ((0 : Nat) : Int) := by simpa using hitw
      simp only [if_true, best, if_pos this]
      have := ih 0 (Nat.zero_le _)
      rw [← this]
      cases acc with
      | nil => simp [row]
      | cons a l =>
        rw [row, dp_row_getD _ _ _ _ (Nat.zero_le _)]
        simp
    · rw [if_neg h0]
      simp only [dp_cell, best]
      by_cases hgt : it.weight > (w : Int)
      · rw [if_pos hgt, if_pos hgt]
        exact ih w hw
      · rw [if_neg hgt, if_neg hgt]
        have hk : (((w : Int) - it.weight).toNat : Int) = (w : Int) - it.weight := by omega
        have hkle : ((w : Int) - it.weight).toNat ≤ cap := by omega
        have e1 := ih _ hkle
        rw [hk] at e1
        have e2 := ih w hw
        rw [e1, e2]
        have hb := best_nonneg acc hv1 ((w : Int) - it.weight)
        obtain ⟨s, hs1, hs2, hs3⟩ := best_attained acc ((w : Int) - it.weight) (by omega)
        have hf := hfit (it :: s) (hs1.cons₂ it) (by
          simp only [total_weight, List.map_cons, List.sum_cons] at *; omega)
        simp only [total_value, List.map_cons, List.sum_cons] at hf hs3
        have hwrap : wrap_int (it.value + best acc ((w : Int) - it.weight))
            = it.value + best acc ((w : Int) - it.weight) :=
          wrap_int_eq _ (by unfold INT_MIN; omega) (by omega)
        rw [hwrap]
        split
        · rename_i hlt
          exact (max_eq_left (le_of_lt hlt)).symm
        · rename_i hlt
          exact (max_eq_right (not_lt.1 hlt)).symm

/-- C13 (amended): for at most 100 items with positive weights and
non-negative values and a capacity between 0 and 1000, provided no selection
of the items within the capacity is worth more than `INT_MAX`,
`knapsack_01_dp` returns the maximum total value over all selections of the
items (each used at most once) whose total weight is at most the capacity. -/
theorem knapsack_01_dp_optimal (items : List Item) (capacity : Int) (selected_items : List Int)
    (hn : items.length ≤ MAX_ITEMS) (hc0 : 0 ≤ capacity) (hc1 : capacity ≤ MAX_CAPACITY)
    (hsel : items.length ≤ selected_items.length)
    (hwt : ∀ it ∈ items, 0 < it.weight) (hv : ∀ it ∈ items, 0 ≤ it.value)
    (hfit : ∀ s : List Item, s.Sublist items → total_weight s ≤ capacity →
      total_value s ≤ INT_MAX) :
    ∃ v sel, knapsack_01_dp items capacity selected_items = some (v, sel) ∧
      (∃ s, s.Sublist items ∧ total_weight s ≤ capacity ∧ total_value s = v) ∧
      (∀ s, s.Sublist items → total_weight s ≤ capacity → total_value s ≤ v) := by
  have hcap : ((capacity.toNat : Nat) : Int) = capacity := by omega
  refine ⟨_, _, by unfold knapsack_01_dp; rw [if_pos ⟨hn, hc0, hc1, hsel⟩], ?_, ?_⟩
  all_goals
    have hrw : dp_get (dp_table items capacity.toNat) items.length capacity
        = best items.reverse capacity := by
      unfold dp_get
      rw [dp_table_getD _ _ _ (le_refl _), List.take_length]
      have := row_eq_best capacity.toNat items.reverse
        (fun it h => hwt it (List.mem_reverse.1 h)) (fun it h => hv it (List.mem_reverse.1 h))
        (fun s hs hw => by
          have h1 : s.reverse.Sublist items := by
            have := List.reverse_sublist.2 hs
            simpa using this
          have := hfit s.reverse h1 (by
            simp only [total_weight, List.map_reverse, List.sum_reverse] at *; omega)
          simpa [total_value, List.map_reverse, List.sum_reverse] using this)
        capacity.toNat (le_refl _)
      rw [this, hcap]
    simp only [hrw]
  · obtain ⟨s, h1, h2, h3⟩ := best_attained items.reverse capacity hc0
    refine ⟨s.reverse, ?_, ?_, ?_⟩
    · have := List.reverse_sublist.2 h1
      simpa using this
    · simpa [total_weight, List.map_reverse, List.sum_reverse] using h2
    · simpa [total_value, List.map_reverse, List.sum_reverse] using h3
  · intro s hs hw
    have := best_upper items.reverse (fun it h => hwt it (List.mem_reverse.1 h)) capacity
      s.reverse (List.reverse_sublist.2 hs)
      (by simpa [total_weight, List.map_reverse, List.sum_reverse] using hw)
    simpa [total_value, List.map_reverse, List.sum_reverse] using this

/-- Column 0 of every row is 0. -/
theorem row_zero (cap : Nat) (acc : List Item) : (row cap acc).getD 0 0 = 0 := by
  cases acc with
  | nil => simp [row]
  | cons it acc => rw [row, dp_row_getD _ _ _ _ (Nat.zero_le _)]; simp

/-- Every entry of the table is between 0 and `INT_MAX`, wrap-around or not. -/
theorem row_range (cap : Nat) (acc : List Item)
    (hv : ∀ it ∈ acc, 0 ≤ it.value ∧ it.value ≤ INT_MAX) :
    ∀ w : Nat, w ≤ cap → 0 ≤ (row cap acc).getD w 0 ∧ (row cap acc).getD w 0 ≤ INT_MAX := by
  induction acc with
  | nil =>
    intro w hw
    simp only [row, List.getD_eq_getElem?_getD, List.getElem?_replicate]
    split <;> simp [INT_MAX]
  | cons it acc ih =>
    intro w hw
    have ih := ih (fun x hx => hv x (List.mem_cons_of_mem _ hx))
    rw [row, dp_row_getD _ _ _ _ hw]
    split
    · simp [INT_MAX]
    · simp only [dp_cell]
      split
      · exact ih w hw
      · split
        · rename_i hlt
          have := ih w hw
          have := wrap_int_range (it.value + (row cap acc).getD ((w : Int) - it.weight).toNat 0)
          omega
        · exact ih w hw

/-- An entry either repeats the entry above it or adds the item to an entry of
the row above, without wrap-around. -/
theorem row_step (cap : Nat) (it : Item) (acc : List Item)
    (hv : ∀ x ∈ it :: acc, 0 ≤ x.value ∧ x.value ≤ INT_MAX) (w : Nat) (hw : w ≤ cap) :
    (row cap (it :: acc)).getD w 0 = (row cap acc).getD w 0 ∨
    (it.weight ≤ w ∧
      (row cap (it :: acc)).getD w 0
        = it.value + (row cap acc).getD ((w : Int) - it.weight).toNat 0) := by
  rw [row, dp_row_getD _ _ _ _ hw]
  split
  · rename_i h0
    subst h0
    left
    exact (row_zero cap acc).symm
  · simp only [dp_cell]
    split
    · left; rfl
    · rename_i hle
      split
      · rename_i hlt
        right
        refine ⟨by omega, ?_⟩
        have hitv := hv it (List.mem_cons_self _ _)
        by_cases hk : ((w : Int) - it.weight).toNat ≤ cap
        · have h1 := row_range cap acc (fun x hx => hv x (List.mem_cons_of_mem _ hx)) _ hk
          have h2 := row_range cap acc (fun x hx => hv x (List.mem_cons_of_mem _ hx)) w hw
          unfold wrap_int at hlt ⊢
          unfold INT_MAX at h1 h2 hitv
          omega
        · have hlen := row_length cap acc
          have hnone : (row cap acc).getD ((w : Int) - it.weight).toNat 0 = 0 := by
            rw [List.getD_eq_getElem?_getD, List.getElem?_eq_none (by omega)]
            rfl
          rw [hnone] at hlt ⊢
          have h2 := row_range cap acc (fun x hx => hv x (List.mem_cons_of_mem _ hx)) w hw
          unfold wrap_int at hlt ⊢
          unfold INT_MAX at h2 hitv
          omega
      · left; rfl

/-- The flagged sum up to one more index. -/
theorem flagged_sum_succ (f : Item → Int) (items : List Item) (sel : List Int) (i : Nat) :
    flagged_sum f items sel (i + 1)
      = flagged_sum f items sel i
        + (if sel.getD i 0 ≠ 0 then f (items.getD i ⟨0, 0, ""⟩) else 0) := by
  simp [flagged_sum, List.range_succ]

/-- The flagged sum reads only the entries below the bound. -/
theorem flagged_sum_congr (f : Item → Int) (items : List Item) (sel1 sel2 : List Int) (i : Nat)
    (h : ∀ j < i, sel1.getD j 0 = sel2.getD j 0) :
    flagged_sum f items sel1 i = flagged_sum f items sel2 i := by
  induction i with
  | zero => simp [flagged_sum]
  | succ i ih =>
    rw [flagged_sum_succ, flagged_sum_succ, ih (fun j hj => h j (by omega)), h i (by omega)]

/-- Nothing is flagged in an array of zeros. -/
theorem flagged_sum_zero (f : Item → Int) (items : List Item) (sel : List Int) (i : Nat)
    (h : ∀ j < i, sel.getD j 0 = 0) : flagged_sum f items sel i = 0 := by
  induction i with
  | zero => simp [flagged_sum]
  | succ i ih =>
    rw [flagged_sum_succ, ih (fun j hj => h j (by omega)), h i (by omega)]
    simp

/-- The entry `dp[i][w]` read from row `i`. -/
theorem dp_get_row (items : List Item) (cap : Nat) (i : Nat) (hi : i ≤ items.length) (w : Int) :
    dp_get (dp_table items cap) i w = (row cap (items.take i).reverse).getD w.toNat 0 := by
  unfold dp_get
  rw [dp_table_getD _ _ _ hi]

/-- The first `i + 1` items, the last one first. -/
theorem take_succ_reverse (items : List Item) (i : Nat) (hi : i < items.length) :
    (items.take (i + 1)).reverse = items.getD i ⟨0, 0, ""⟩ :: (items.take i).reverse := by
  rw [List.take_succ, List.reverse_append]
  simp [List.getD_eq_getElem?_getD, List.getElem?_eq_getElem hi]

/-- Reading the entry just written. -/
theorem getD_set_self (l : List Int) (i : Nat) (v : Int) (hi : i < l.length) :
    (l.set i v).getD i 0 = v := by
  simp [List.getD_eq_getElem?_getD, List.getElem?_set, hi]

/-- Reading another entry than the one just written. -/
theorem getD_set_ne (l : List Int) (i j : Nat) (v : Int) (hij : i ≠ j) :
    (l.set i v).getD j 0 = l.getD j 0 := by
  simp [List.getD_eq_getElem?_getD, List.getElem?_set, hij]

/-- The backtracking loop from `(i, w)` on an array that is 0 below `i`: the
entries from `i` on are kept, and the items it flags below `i` are worth
`dp[i][w]` and weigh at most `w`. -/
theorem backtrack_spec (items : List Item) (cap : Nat) (hcap : cap ≤ MAX_CAPACITY)
    (hwt : ∀ x ∈ items, 0 < x.weight)
    (hv : ∀ x ∈ items, 0 ≤ x.value ∧ x.value ≤ INT_MAX) :
    ∀ (i : Nat), i ≤ items.length → ∀ (w : Int) (sel : List Int), 0 ≤ w → w ≤ cap →
      items.length ≤ sel.length → (∀ j < i, sel.getD j 0 = 0) →
      (backtrack items (dp_table items cap) i w sel).length = sel.length ∧
      (∀ j, i ≤ j → (backtrack items (dp_table items cap) i w sel).getD j 0 = sel.getD j 0) ∧
      flagged_sum Item.value items (backtrack items (dp_table items cap) i w sel) i
        = dp_get (dp_table items cap) i w ∧
      flagged_sum Item.weight items (backtrack items (dp_table items cap) i w sel) i ≤ w := by
  intro i
  induction i with
  | zero =>
    intro _ w sel hw0 hw1 _ _
    refine ⟨rfl, fun _ _ => rfl, ?_, ?_⟩
    · rw [dp_get_row _ _ _ (Nat.zero_le _)]
      simp only [backtrack, flagged_sum, List.range_zero, List.map_nil, List.sum_nil, List.take_zero,
        List.reverse_nil, row, List.getD_eq_getElem?_getD, List.getElem?_replicate]
      split <;> rfl
    · simpa [backtrack, flagged_sum] using hw0
  | succ i ih =>
    intro hi w sel hw0 hw1 hlen hzero
    have ih := ih (by omega)
    have hrev := take_succ_reverse items i (by omega)
    have hmem : items.getD i ⟨0, 0, ""⟩ ∈ items := by
      rw [List.getD_eq_getElem?_getD, List.getElem?_eq_getElem (by omega : i < items.length)]
      exact List.getElem_mem _
    have hvr : ∀ x ∈ items.getD i ⟨0, 0, ""⟩ :: (items.take i).reverse,
        0 ≤ x.value ∧ x.value ≤ INT_MAX := by
      intro x hx
      rw [← hrev] at hx
      exact hv x (List.mem_of_mem_take (List.mem_reverse.1 hx))
    rw [backtrack]
    by_cases hwpos : w > 0
    · rw [if_pos hwpos]
      have hwn : w.toNat ≤ cap := by omega
      have hstep := row_step cap (items.getD i ⟨0, 0, ""⟩) (items.take i).reverse hvr w.toNat hwn
      rw [← hrev, ← dp_get_row items cap (i + 1) hi w, ← dp_get_row items cap i (by omega) w] at hstep
      by_cases hne : dp_get (dp_table items cap) (i + 1) w ≠ dp_get (dp_table items cap) i w
      · rw [if_pos hne]
        rcases hstep with heq | ⟨hle, hval⟩
        · exact absurd heq hne
        · have hcast : ((w.toNat : Nat) : Int) = w := by omega
          rw [hcast] at hle hval
          have hpos := hwt _ hmem
          have hw' : wrap_int (w - (items.getD i ⟨0, 0, ""⟩).weight)
              = w - (items.getD i ⟨0, 0, ""⟩).weight := by
            apply wrap_int_eq
            · unfold INT_MIN; omega
            · unfold INT_MAX; unfold MAX_CAPACITY at hcap; omega
          rw [hw']
          obtain ⟨h1, h2, h3, h4⟩ := ih (w - (items.getD i ⟨0, 0, ""⟩).weight) (sel.set i 1)
            (by omega) (by omega) (by simpa using hlen)
            (fun j hj => by rw [getD_set_ne _ _ _ _ (by omega)]; exact hzero j (by omega))
          have hself : (backtrack items (dp_table items cap) i
              (w - (items.getD i ⟨0, 0, ""⟩).weight) (sel.set i 1)).getD i 0 = 1 := by
            rw [h2 i (le_refl _), getD_set_self _ _ _ (by omega)]
          refine ⟨by simpa using h1, ?_, ?_, ?_⟩
          · intro j hj
            rw [h2 j (by omega), getD_set_ne _ _ _ _ (by omega)]
          · rw [flagged_sum_succ, h3, hself, hval, dp_get_row items cap i (by omega)]
            simp only [ne_eq, one_ne_zero, not_false_eq_true, if_true]
            ring
          · rw [flagged_sum_succ, hself]
            simp only [ne_eq, one_ne_zero, not_false_eq_true, if_true]
            omega
      · rw [if_neg hne]
        have heq : dp_get (dp_table items cap) (i + 1) w = dp_get (dp_table items cap) i w :=
          not_not.1 hne
        obtain ⟨h1, h2, h3, h4⟩ := ih w (sel.set i 0) hw0 hw1 (by simpa using hlen)
          (fun j hj => by rw [getD_set_ne _ _ _ _ (by omega)]; exact hzero j (by omega))
        have hself : (backtrack items (dp_table items cap) i w (sel.set i 0)).getD i 0 = 0 := by
          rw [h2 i (le_refl _), getD_set_self _ _ _ (by omega)]
        refine ⟨by simpa using h1, ?_, ?_, ?_⟩
        · intro j hj
          rw [h2 j (by omega), getD_set_ne _ _ _ _ (by omega)]
        · rw [flagged_sum_succ, h3, hself, heq]
          simp only [ne_eq, not_true_eq_false, if_false, add_zero]
        · rw [flagged_sum_succ, hself]
          simp only [ne_eq, not_true_eq_false, if_false, add_zero]
          exact h4
    · rw [if_neg hwpos]
      have hw00 : w = 0 := by omega
      subst hw00
      refine ⟨rfl, fun _ _ => rfl, ?_, ?_⟩
      · rw [flagged_sum_zero _ _ _ _ hzero, dp_get_row _ _ _ hi]
        exact (row_zero cap _).symm
      · rw [flagged_sum_zero _ _ _ _ hzero]

/-- The flagged sum over all indices is the sum over the flagged items. -/
theorem flagged_sum_selected_subset (f : Item → Int) (items : List Item) :
    ∀ sel : List Int, items.length ≤ sel.length →
      ((selected_subset items sel).map f).sum = flagged_sum f items sel items.length := by
  induction items with
  | nil => intro sel _; simp [selected_subset, flagged_sum]
  | cons it rest ih =>
    intro sel hlen
    cases sel with
    | nil => simp at hlen
    | cons b sel =>
      simp only [List.length_cons] at hlen
      have ih := ih sel (by omega)
      simp only [selected_subset] at ih
      simp only [flagged_sum, List.length_cons, List.range_succ_eq_map, List.map_cons,
        List.sum_cons, List.getD_cons_zero, List.map_map, selected_subset, List.zip_cons_cons,
        List.filter_cons]
      have hshift : (List.map ((fun j => if (b :: sel).getD j 0 ≠ 0 then
            f ((it :: rest).getD j ⟨0, 0, ""⟩) else 0) ∘ Nat.succ) (List.range rest.length)).sum
          = flagged_sum f rest sel rest.length := by
        simp [flagged_sum, Function.comp_def]
      rw [hshift, ← ih]
      by_cases hb : b = 0
      · simp [hb]
      · simp [hb]

/-- The flagged items are a selection of the items, each used at most once. -/
theorem selected_subset_sublist (items : List Item) (sel : List Int) :
    (selected_subset items sel).Sublist items := by
  induction items generalizing sel with
  | nil => simp [selected_subset]
  | cons it rest ih =>
    cases sel with
    | nil => simp [selected_subset]
    | cons b sel =>
      simp only [selected_subset, List.zip_cons_cons, List.filter_cons]
      split
      · simp only [List.map_cons]
        exact (ih sel).cons₂ it
      · exact (ih sel).cons it

/-- The `int` sum of `print_knapsack_solution` is the total weight of the
flagged items when that fits in an `int`. -/
theorem print_total_weight (l : List (Item × Int)) (hwt : ∀ p ∈ l, 0 < p.1.weight) :
    ∀ acc : Int, 0 ≤ acc →
      acc + ((l.filter (fun p => p.2 ≠ 0)).map (fun p => p.1.weight)).sum ≤ INT_MAX →
      l.foldl (fun total_weight p =>
          if p.2 ≠ 0 then wrap_int (total_weight + p.1.weight) else total_weight) acc
        = acc + ((l.filter (fun p => p.2 ≠ 0)).map (fun p => p.1.weight)).sum := by
  induction l with
  | nil => intro acc _ _; simp
  | cons p l ih =>
    intro acc h0 hmax
    have ih := ih (fun q hq => hwt q (List.mem_cons_of_mem _ hq))
    have hp := hwt p (List.mem_cons_self _ _)
    have hnn : 0 ≤ ((l.filter (fun p => p.2 ≠ 0)).map (fun p => p.1.weight)).sum := by
      apply List.sum_nonneg
      intro x hx
      obtain ⟨q, hq, rfl⟩ := List.mem_map.1 hx
      exact le_of_lt (hwt q (List.mem_cons_of_mem _ (List.mem_of_mem_filter hq)))
    simp only [List.foldl_cons, List.filter_cons] at hmax ⊢
    by_cases hb : p.2 ≠ 0
    · have hd : decide (p.2 ≠ 0) = true := decide_eq_true hb
      rw [if_pos hd, List.map_cons, List.sum_cons] at hmax
      rw [if_pos hb, if_pos hd, List.map_cons, List.sum_cons]
      have hw : wrap_int (acc + p.1.weight) = acc + p.1.weight :=
        wrap_int_eq _ (by unfold INT_MIN; omega) (by omega)
      rw [hw, ih _ (by omega) (by omega)]
      ring
    · have hd : ¬ decide (p.2 ≠ 0) = true := by simpa using hb
      rw [if_neg hd] at hmax
      rw [if_neg hb, if_neg hd]
      exact ih acc h0 hmax

/-- C14 (amended): for at most 100 items (`MAX_ITEMS`) with positive weights
and non-negative `int` values, a capacity between 0 and 1000 and an array
`selected_items` of zeros, the items `knapsack_01_dp` flags are a selection of the items whose
total weight is at most the capacity and whose total value is the value
returned, and these are the totals `print_knapsack_solution` prints. -/
theorem knapsack_01_dp_selection (items : List Item) (capacity : Int) (m : Nat)
    (hn : items.length ≤ MAX_ITEMS) (hc0 : 0 ≤ capacity) (hc1 : capacity ≤ MAX_CAPACITY)
    (hm : items.length ≤ m)
    (hwt : ∀ it ∈ items, 0 < it.weight)
    (hv : ∀ it ∈ items, 0 ≤ it.value ∧ it.value ≤ INT_MAX) :
    ∃ v sel, knapsack_01_dp items capacity (List.replicate m 0) = some (v, sel) ∧
      (selected_subset items sel).Sublist items ∧
      total_weight (selected_subset items sel) ≤ capacity ∧
      total_value (selected_subset items sel) = v ∧
      print_knapsack_solution items sel v
        = (selected_subset items sel, total_weight (selected_subset items sel), v) := by
  have hcapn : capacity.toNat ≤ MAX_CAPACITY := by omega
  have hcast : ((capacity.toNat : Nat) : Int) = capacity := by omega
  obtain ⟨h1, h2, h3, h4⟩ := backtrack_spec items capacity.toNat hcapn hwt hv items.length
    (le_refl _) capacity (List.replicate m 0) hc0 (by omega) (by simpa using hm)
    (fun j _ => by
      simp only [List.getD_eq_getElem?_getD, List.getElem?_replicate]
      split <;> rfl)
  have hlen : items.length
      ≤ (backtrack items (dp_table items capacity.toNat) items.length capacity
          (List.replicate m 0)).length := by
    rw [h1]; simpa using hm
  have hw := flagged_sum_selected_subset Item.weight items _ hlen
  have hval := flagged_sum_selected_subset Item.value items _ hlen
  refine ⟨_, _, by unfold knapsack_01_dp; rw [if_pos ⟨hn, hc0, hc1, by simpa using hm⟩],
    selected_subset_sublist _ _, ?_, ?_, ?_⟩
  · simp only [total_weight]
    rw [hw]
    exact h4
  · simp only [total_value]
    rw [hval]
    exact h3
  · simp only [print_knapsack_solution]
    have hfold := print_total_weight
      (items.zip (backtrack items (dp_table items capacity.toNat) items.length capacity
          (List.replicate m 0)))
      (fun p hp => hwt p.1 (List.of_mem_zip hp).1) 0 (le_refl _)
      (by
        have : ((List.filter (fun p => decide (p.2 ≠ 0)) (items.zip (backtrack items
            (dp_table items capacity.toNat) items.length capacity (List.replicate m 0)))).map
              (fun p => p.1.weight)).sum
            = ((selected_subset items (backtrack items (dp_table items capacity.toNat)
                items.length capacity (List.replicate m 0))).map Item.weight).sum := by
          simp [selected_subset, List.map_map, Function.comp_def]
        rw [this, hw]
        unfold INT_MAX
        unfold MAX_CAPACITY at hc1
        omega)
    rw [hfold]
    simp [selected_subset, total_weight, List.map_map, Function.comp_def]

/-- With non-negative values a selection is worth at most as much as all items. -/
theorem total_value_sublist_le (items s : List Item) (hv : ∀ it ∈ items, 0 ≤ it.value)
    (hs : s.Sublist items) : total_value s ≤ total_value items := by
  induction hs with
  | slnil => exact le_refl _
  | cons a _ ih =>
    have := ih (fun x hx => hv x (List.mem_cons_of_mem _ hx))
    have := hv a (List.mem_cons_self _ _)
    simp only [total_value, List.map_cons, List.sum_cons] at *
    omega
  | cons₂ a _ ih =>
    have := ih (fun x hx => hv x (List.mem_cons_of_mem _ hx))
    simp only [total_value, List.map_cons, List.sum_cons] at *
    omega

set_option maxRecDepth 100000 in
/-- C13 (counterexample): for the two items (1, 2147483647) and (1, 1) and
capacity 2 the function returns 2147483647, but both items together weigh 2
and are worth 2147483648, which is no `int`. -/
theorem knapsack_01_dp_optimal_counterexample :
    knapsack_01_dp [⟨1, 2147483647, "a"⟩, ⟨1, 1, "b"⟩] 2 [0, 0] = some (2147483647, [1, 0]) ∧
    total_weight [⟨1, 2147483647, "a"⟩, ⟨1, 1, "b"⟩] ≤ 2 ∧
    total_value [⟨1, 2147483647, "a"⟩, ⟨1, 1, "b"⟩] = 2147483648 ∧
    ¬ (2147483648 : Int) ≤ 2147483647 := by
  decide

set_option maxRecDepth 100000 in
/-- C13 (witness): test case 1 of `main`: 220 for the items (10, 60),
(20, 100), (30, 120) and capacity 50. -/
theorem knapsack_01_dp_optimal_witness :
    (∀ it ∈ items1, 0 < it.weight) ∧ (∀ it ∈ items1, 0 ≤ it.value) ∧
    (knapsack_01_dp items1 50 (List.replicate 100 0)).map Prod.fst = some 220 ∧
    ∃ v sel, knapsack_01_dp items1 50 (List.replicate 100 0) = some (v, sel) ∧
      (∃ s, s.Sublist items1 ∧ total_weight s ≤ 50 ∧ total_value s = v) ∧
      (∀ s, s.Sublist items1 → total_weight s ≤ 50 → total_value s ≤ v) :=
  ⟨by decide, by decide, by decide,
   knapsack_01_dp_optimal items1 50 (List.replicate 100 0) (by decide) (by decide) (by decide)
     (by decide) (by decide) (by decide)
     (fun s hs _ => le_trans (total_value_sublist_le items1 s (by decide) hs) (by decide))⟩

set_option maxRecDepth 100000 in
/-- C14 (counterexample): with 101 items of weight 1 and capacity 1 the outer
loop writes row `dp[101]`, which the table of `MAX_ITEMS + 1` rows does not
have: the call has no defined result. -/
theorem knapsack_01_dp_selection_counterexample :
    knapsack_01_dp (List.replicate 101 ⟨1, 1, "item"⟩) 1 (List.replicate 101 0) = none := by
  decide

set_option maxRecDepth 100000 in
/-- C14 (witness): test case 1 of `main` flags the Camera and the Tablet. -/
theorem knapsack_01_dp_selection_witness :
    (∀ it ∈ items1, 0 < it.weight) ∧ (∀ it ∈ items1, 0 ≤ it.value ∧ it.value ≤ INT_MAX) ∧
    knapsack_01_dp items1 50 (List.replicate 5 0) = some (220, [0, 1, 1, 0, 0]) ∧
    selected_subset items1 [0, 1, 1, 0, 0] = [⟨20, 100, "Camera"⟩, ⟨30, 120, "Tablet"⟩] ∧
    ∃ v sel, knapsack_01_dp items1 50 (List.replicate 5 0) = some (v, sel) ∧
      (selected_subset items1 sel).Sublist items1 ∧
      total_weight (selected_subset items1 sel) ≤ 50 ∧
      total_value (selected_subset items1 sel) = v ∧
      print_knapsack_solution items1 sel v
        = (selected_subset items1 sel, total_weight (selected_subset items1 sel), v) :=
  ⟨by decide, by decide, by decide, by decide,
   knapsack_01_dp_selection items1 50 5 (by decide) (by decide) (by decide) (by decide)
     (by decide) (by decide)⟩

end Knapsack

/-! # Theorems on `gcd` and `lcm` (C15, C16) -/

namespace MathUtils
open CInt

/-- The loops of the two copies of `gcd` agree. -/
theorem gcd_loop_eq_milestone (fuel : Nat) (a b : Int) :
    gcd_loop fuel a b = NumberTheory.gcd_loop fuel a b := by
  induction fuel generalizing a b with
  | zero => rfl
  | succ fuel ih => simp only [gcd_loop, NumberTheory.gcd_loop, ih]

/-- The chapter-10 copy of `gcd` computes what the milestone-01 copy computes,
on every pair of arguments. -/
theorem gcd_eq_milestone (a b : Int) : gcd a b = NumberTheory.gcd a b := by
  simp only [gcd, NumberTheory.gcd, gcd_loop_eq_milestone]

/-- The chapter-10 copy of `lcm` computes what the milestone-01 copy computes. -/
theorem lcm_eq_milestone (a b : Int) : lcm a b = NumberTheory.lcm a b := by
  simp only [lcm, NumberTheory.lcm, gcd_eq_milestone]

end MathUtils

namespace NumberTheory
open CInt

/-- On natural numbers the loop of `gcd` ends within `y + 1` rounds, with the
greatest common divisor. -/
theorem gcd_loop_eq (fuel : Nat) : ∀ (x y : Nat), y < fuel →
    gcd_loop fuel (x : Int) (y : Int) = some ((Nat.gcd x y : Nat) : Int) := by
  induction fuel with
  | zero => intro x y h; omega
  | succ fuel ih =>
    intro x y h
    rw [gcd_loop]
    by_cases hy : y = 0
    · subst hy
      simp
    · have hy' : (y : Int) ≠ 0 := by exact_mod_cast hy
      rw [if_pos hy']
      have hm : Int.tmod (x : Int) (y : Int) = ((x % y : Nat) : Int) := by
        rw [Int.tmod_eq_emod (by positivity) (by positivity)]
        norm_cast
      simp only [hm]
      rw [ih y (x % y) (by have := Nat.mod_lt x (Nat.pos_of_ne_zero hy); omega)]
      congr 2
      rw [Nat.gcd_comm x y, Nat.gcd_rec y x, Nat.gcd_comm]

/-- For `int` arguments other than `INT_MIN`, `gcd` returns `Int.gcd`. -/
theorem gcd_eq (a b : Int) (ha : INT_MIN < a ∧ a ≤ INT_MAX) (hb : INT_MIN < b ∧ b ≤ INT_MAX) :
    gcd a b = some ((Int.gcd a b : Nat) : Int) := by
  have key : ∀ c : Int, INT_MIN < c ∧ c ≤ INT_MAX →
      (if c < 0 then wrap_int (-c) else c) = (c.natAbs : Int) := by
    intro c hc
    simp only [INT_MIN, INT_MAX] at hc
    split
    · rw [wrap_int]; omega
    · omega
  simp only [gcd, key a ha, key b hb, Int.natAbs_ofNat]
  rw [gcd_loop_eq _ _ _ (Nat.lt_succ_self _)]
  rfl

/-- C15: for all `int` arguments `a` and `b` other than `INT_MIN`, `gcd`
terminates and returns the greatest common divisor of `|a|` and `|b|`: a
non-negative `g` that divides both and is divisible by every common divisor,
with `gcd(a, 0) = |a|` and `gcd(0, 0) = 0`; the milestone-01 copy and the
chapter-10 copy return the same `g`. -/
theorem gcd_greatest_common_divisor (a b : Int)
    (ha : INT_MIN < a ∧ a ≤ INT_MAX) (hb : INT_MIN < b ∧ b ≤ INT_MAX) :
    ∃ g, gcd a b = some g ∧ MathUtils.gcd a b = some g ∧
      0 ≤ g ∧ g ∣ |a| ∧ g ∣ |b| ∧ (∀ d : Int, d ∣ |a| → d ∣ |b| → d ∣ g) ∧
      (b = 0 → g = |a|) ∧ (a = 0 → b = 0 → g = 0) := by
  refine ⟨(Int.gcd a b : Nat), gcd_eq a b ha hb, ?_, Int.natCast_nonneg _, ?_, ?_, ?_, ?_, ?_⟩
  · rw [MathUtils.gcd_eq_milestone, gcd_eq a b ha hb]
  · exact (dvd_abs _ _).mpr Int.gcd_dvd_left
  · exact (dvd_abs _ _).mpr Int.gcd_dvd_right
  · intro d hda hdb
    exact Int.dvd_gcd ((dvd_abs _ _).mp hda) ((dvd_abs _ _).mp hdb)
  · intro h
    subst h
    rw [Int.gcd_zero_right, Int.natCast_natAbs]
  · intro h1 h2
    subst h1 h2
    rfl

/-- C15 (witness): `gcd(-48, 18) = 6` in both copies. -/
theorem gcd_greatest_common_divisor_witness :
    gcd (-48) 18 = some 6 ∧ MathUtils.gcd (-48) 18 = some 6 ∧
    ∃ g, gcd (-48) 18 = some g ∧ MathUtils.gcd (-48) 18 = some g ∧
      0 ≤ g ∧ g ∣ |(-48 : Int)| ∧ g ∣ |(18 : Int)| ∧
      (∀ d : Int, d ∣ |(-48 : Int)| → d ∣ |(18 : Int)| → d ∣ g) ∧
      ((18 : Int) = 0 → g = |(-48 : Int)|) ∧ ((-48 : Int) = 0 → (18 : Int) = 0 → g = 0) :=
  ⟨by decide, by decide,
   gcd_greatest_common_divisor (-48) 18 ⟨by decide, by decide⟩ ⟨by decide, by decide⟩⟩

/-- Apart from its sign `lcm` is right: for `int` arguments other than 0 and
`INT_MIN` whose least common multiple is an `int`, the absolute value of the
result is the least common multiple. -/
theorem lcm_natAbs (a b : Int) (ha : INT_MIN < a ∧ a ≤ INT_MAX) (hb : INT_MIN < b ∧ b ≤ INT_MAX)
    (ha0 : a ≠ 0) (hb0 : b ≠ 0) (hfit : (Int.lcm a b : Int) ≤ INT_MAX) :
    ∃ r, lcm a b = some r ∧ r.natAbs = Int.lcm a b := by
  have hg : ((Int.gcd a b : Nat) : Int) ∣ a := Int.gcd_dvd_left
  have hn : (Int.tdiv a (Int.gcd a b : Nat) * b).natAbs = Int.lcm a b := by
    rw [Int.natAbs_mul, Int.natAbs_tdiv, Int.natAbs_ofNat, Int.lcm, Nat.lcm]
    show a.natAbs / Nat.gcd a.natAbs b.natAbs * b.natAbs = _
    obtain ⟨k, hk⟩ := Nat.gcd_dvd_left a.natAbs b.natAbs
    rcases Nat.eq_zero_or_pos (Nat.gcd a.natAbs b.natAbs) with h0 | h0
    · rw [h0]; simp
    · generalize Nat.gcd a.natAbs b.natAbs = g at hk h0
      rw [hk, Nat.mul_div_cancel_left _ h0, Nat.mul_assoc, Nat.mul_div_cancel_left _ h0]
  refine ⟨Int.tdiv a (Int.gcd a b : Nat) * b, ?_, hn⟩
  rw [lcm, if_neg (by simp [ha0, hb0]), gcd_eq a b ha hb, Option.map_some']
  congr 1
  simp only [INT_MAX] at hfit
  rw [wrap_int]
  omega

/-- C16: for `a = -4` and `b = 6` both copies of `lcm` return `-12`, which is
not positive; the least common multiple, the smallest positive common
multiple, is 12. -/
theorem lcm_negative_argument :
    lcm (-4) 6 = some (-12) ∧ MathUtils.lcm (-4) 6 = some (-12) ∧
    Int.lcm (-4) 6 = 12 ∧ gcd (-4) 6 = some 2 := by
  decide

end NumberTheory

/-! # Theorems on `is_prime` (C17) -/

namespace MathUtils
open CInt

/-- The loops of the chapter-10 and milestone-01 copies of `is_prime` agree. -/
theorem is_prime_loop_eq_milestone (fuel : Nat) (n i : Int) :
    is_prime_loop fuel n i = NumberTheory.is_prime_loop fuel n i := by
  induction fuel generalizing i with
  | zero => rfl
  | succ fuel ih => simp only [is_prime_loop, NumberTheory.is_prime_loop, ih]

/-- The chapter-10 copy of `is_prime` computes what the milestone-01 copy computes. -/
theorem is_prime_eq_milestone (n : Int) : is_prime n = NumberTheory.is_prime n := by
  simp only [is_prime, NumberTheory.is_prime, is_prime_loop_eq_milestone]

end MathUtils

namespace NumberProperties
open CInt

/-- The loops of the chapter-4 and milestone-01 copies of `is_prime` agree. -/
theorem is_prime_loop_chapter4_eq_milestone (fuel : Nat) (num i : Int) :
    is_prime_loop fuel num i = NumberTheory.is_prime_loop fuel num i := by
  induction fuel generalizing i with
  | zero => rfl
  | succ fuel ih => simp only [is_prime_loop, NumberTheory.is_prime_loop, ih]

/-- The chapter-4 copy of `is_prime` computes what the milestone-01 copy computes. -/
theorem is_prime_chapter4_eq_milestone (num : Int) : is_prime num = NumberTheory.is_prime num := by
  simp only [is_prime, NumberTheory.is_prime, is_prime_loop_chapter4_eq_milestone]

end NumberProperties

namespace NumberTheory
open CInt

/-- An odd number from 3 on without an odd divisor `j >= 3` with `j * j <= n`
is prime. -/
theorem prime_of_no_odd_divisor (n i : Nat) (hn : 3 ≤ n) (hodd : n % 2 = 1) (hi : n < i * i)
    (h : ∀ j, 3 ≤ j → j < i → j % 2 = 1 → ¬ j ∣ n) : Nat.Prime n := by
  by_contra hp
  have hsq := Nat.minFac_sq_le_self (by omega : 0 < n) hp
  have hpr : Nat.Prime n.minFac := Nat.minFac_prime (by omega)
  have hdvd : n.minFac ∣ n := Nat.minFac_dvd n
  have h2 : n.minFac ≠ 2 := by
    intro h2
    rw [h2] at hdvd
    omega
  have hoddp : n.minFac % 2 = 1 := by
    rcases hpr.eq_two_or_odd with h' | h'
    · exact absurd h' h2
    · exact h'
  have hge : 3 ≤ n.minFac := by
    have := hpr.two_le
    omega
  have hlt : n.minFac < i := by
    by_contra hle
    have hle' : i ≤ n.minFac := by omega
    have : i * i ≤ n.minFac ^ 2 := by
      rw [pow_two]
      exact Nat.mul_le_mul hle' hle'
    omega
  exact h _ hge hlt hoddp hdvd

/-- The condition of the claim, being at least 2 with no divisor strictly
between 1 and the number, is primality of the natural number. -/
theorem prime_iff (number : Int) :
    (2 ≤ number ∧ ∀ d : Int, 1 < d → d < number → ¬ d ∣ number) ↔ Nat.Prime number.toNat := by
  constructor
  · rintro ⟨h2, h⟩
    rw [Nat.prime_def_lt]
    refine ⟨by omega, ?_⟩
    intro m hm hdvd
    by_contra h1
    have hm0 : m ≠ 0 := by
      rintro rfl
      rw [Nat.zero_dvd] at hdvd
      omega
    apply h (m : Int) (by omega) (by omega)
    have : ((m : Int)) ∣ ((number.toNat : Nat) : Int) := Int.natCast_dvd_natCast.mpr hdvd
    rwa [Int.toNat_of_nonneg (by omega)] at this
  · intro hp
    have h2 := hp.two_le
    refine ⟨by omega, ?_⟩
    intro d hd1 hdn hdvd
    have hd : d.toNat ∣ number.toNat := by
      have : ((d.toNat : Nat) : Int) ∣ ((number.toNat : Nat) : Int) := by
        rwa [Int.toNat_of_nonneg (by omega), Int.toNat_of_nonneg (by omega)]
      exact Int.natCast_dvd_natCast.mp this
    rcases hp.eq_one_or_self_of_dvd _ hd with h | h <;> omega

/-- The trial loop from candidate `i` on, for an odd number from 3 on that no
odd candidate below `i` divides: the loop ends; a returned value is 1 for a
prime and 0 otherwise; an overflow of `i * i` only occurs for numbers from
`46339 * 46339` on. -/
theorem is_prime_loop_spec (number : Int) (hn3 : 3 ≤ number) (hodd : number % 2 = 1)
    (fuel : Nat) : ∀ i : Int, 3 ≤ i → i % 2 = 1 → i ≤ 46341 → 46341 < i + 2 * fuel →
    (i = 3 ∨ (i - 2) * (i - 2) ≤ number) →
    (∀ j : Int, 3 ≤ j → j < i → j % 2 = 1 → ¬ j ∣ number) →
    ∃ r, is_prime_loop fuel number i = some r ∧
      (∀ v, r = Run.returned v →
        (v = 1 ∧ Nat.Prime number.toNat) ∨ (v = 0 ∧ ¬ Nat.Prime number.toNat)) ∧
      (r = Run.overflow → 2147302921 ≤ number) := by
  induction fuel with
  | zero => intro i _ _ h1 h2; omega
  | succ fuel ih =>
    intro i hi3 hiodd hi hfuel hprev hinv
    rw [is_prime_loop]
    by_cases h1 : i * i > INT_MAX
    · rw [if_pos h1]
      refine ⟨Run.overflow, rfl, (fun v hv => by cases hv), fun _ => ?_⟩
      simp only [INT_MAX] at h1
      have hi' : 46341 ≤ i := by
        by_contra hlt
        have : i ≤ 46340 := by omega
        nlinarith
      rcases hprev with h | h
      · omega
      · nlinarith
    · rw [if_neg h1]
      simp only [INT_MAX, gt_iff_lt, not_lt] at h1
      have hi' : i ≤ 46339 := by
        by_contra hlt
        have : 46341 ≤ i := by omega
        nlinarith
      by_cases h2 : i * i ≤ number
      · rw [if_pos h2]
        by_cases h3 : Int.tmod number i = 0
        · rw [if_pos h3]
          refine ⟨Run.returned 0, rfl, fun v hv => ?_, fun h => by cases h⟩
          cases hv
          right
          refine ⟨rfl, ?_⟩
          rw [← prime_iff]
          rintro ⟨_, h⟩
          refine h i (by omega) (by nlinarith) ?_
          rw [Int.tmod_eq_emod (by omega) (by omega)] at h3
          exact Int.dvd_of_emod_eq_zero h3
        · rw [if_neg h3]
          refine ih (i + 2) (by omega) (by omega) (by omega) (by push_cast at hfuel; omega)
            (Or.inr (by simpa using h2)) ?_
          intro j hj3 hji hjodd hdvd
          by_cases hj : j < i
          · exact hinv j hj3 hj hjodd hdvd
          · have hje : j = i := by omega
            subst hje
            apply h3
            rw [Int.tmod_eq_emod (by omega) (by omega)]
            exact Int.emod_eq_zero_of_dvd hdvd
      · rw [if_neg h2]
        refine ⟨Run.returned 1, rfl, fun v hv => ?_, fun h => by cases h⟩
        cases hv
        left
        refine ⟨rfl, ?_⟩
        apply prime_of_no_odd_divisor number.toNat i.toNat (by omega) (by omega)
        · have : number < i * i := by omega
          zify
          rw [Int.toNat_of_nonneg (by omega), Int.toNat_of_nonneg (by omega)]
          exact this
        · intro j hj3 hji hjodd hdvd
          apply hinv (j : Int) (by omega) (by omega) (by omega)
          have : ((j : Int)) ∣ ((number.toNat : Nat) : Int) := Int.natCast_dvd_natCast.mpr hdvd
          rwa [Int.toNat_of_nonneg (by omega)] at this

/-- What `is_prime` does on every number: it ends; a returned value is 1 for a
prime and 0 otherwise; an overflow only occurs for numbers from
`46339 * 46339` on. -/
theorem is_prime_spec (number : Int) :
    ∃ r, is_prime number = some r ∧
      (∀ v, r = Run.returned v →
        (v = 1 ∧ Nat.Prime number.toNat) ∨ (v = 0 ∧ ¬ Nat.Prime number.toNat)) ∧
      (r = Run.overflow → 2147302921 ≤ number) := by
  rw [is_prime]
  by_cases h1 : number ≤ 1
  · rw [if_pos h1]
    refine ⟨Run.returned 0, rfl, fun v hv => ?_, fun h => by cases h⟩
    cases hv
    right
    refine ⟨rfl, fun hp => ?_⟩
    have := hp.two_le
    omega
  · rw [if_neg h1]
    by_cases h2 : number = 2
    · rw [if_pos h2]
      refine ⟨Run.returned 1, rfl, fun v hv => ?_, fun h => by cases h⟩
      cases hv
      left
      subst h2
      exact ⟨rfl, Nat.prime_two⟩
    · rw [if_neg h2]
      have hm : Int.tmod number 2 = number % 2 := Int.tmod_eq_emod (by omega) (by omega)
      by_cases h3 : Int.tmod number 2 = 0
      · rw [if_pos h3]
        refine ⟨Run.returned 0, rfl, fun v hv => ?_, fun h => by cases h⟩
        cases hv
        right
        refine ⟨rfl, ?_⟩
        rw [← prime_iff]
        rintro ⟨_, h⟩
        refine h 2 (by omega) (by omega) ?_
        rw [hm] at h3
        exact Int.dvd_of_emod_eq_zero h3
      · rw [if_neg h3]
        rw [hm] at h3
        exact is_prime_loop_spec number (by omega) (by omega) 23171 3 (by omega) (by omega)
          (by omega) (by omega) (Or.inl rfl) (fun j hj3 hj _ => by omega)

/-- C17: on every number each of the three copies of `is_prime` ends with the
same result; whenever `i * i` does not overflow in the trial loop, the value
returned is 1 exactly when the number is prime (at least 2, and no `d` with
`1 < d < n` divides it) and 0 otherwise; `i * i` can only overflow for numbers
from `46339 * 46339 = 2147302921` on. -/
theorem is_prime_correct (number : Int) :
    ∃ r, is_prime number = some r ∧ NumberProperties.is_prime number = some r ∧
      MathUtils.is_prime number = some r ∧
      (∀ v, r = Run.returned v →
        (v = 1 ∧ 2 ≤ number ∧ ∀ d : Int, 1 < d → d < number → ¬ d ∣ number) ∨
        (v = 0 ∧ ¬ (2 ≤ number ∧ ∀ d : Int, 1 < d → d < number → ¬ d ∣ number))) ∧
      (r = Run.overflow → 2147302921 ≤ number) := by
  obtain ⟨r, hr, hv, ho⟩ := is_prime_spec number
  refine ⟨r, hr, ?_, ?_, ?_, ho⟩
  · rw [NumberProperties.is_prime_chapter4_eq_milestone, hr]
  · rw [MathUtils.is_prime_eq_milestone, hr]
  · intro v h
    rcases hv v h with ⟨h1, h2⟩ | ⟨h1, h2⟩
    · exact Or.inl ⟨h1, (prime_iff number).mpr h2⟩
    · exact Or.inr ⟨h1, fun h' => h2 ((prime_iff number).mp h')⟩

/-- C17 (witness): the statement at the prime 97, where every copy returns 1. -/
theorem is_prime_correct_witness :
    is_prime 97 = some (Run.returned 1) ∧
    ∃ r, is_prime 97 = some r ∧ NumberProperties.is_prime 97 = some r ∧
      MathUtils.is_prime 97 = some r ∧
      (∀ v, r = Run.returned v →
        (v = 1 ∧ 2 ≤ (97 : Int) ∧ ∀ d : Int, 1 < d → d < 97 → ¬ d ∣ 97) ∨
        (v = 0 ∧ ¬ (2 ≤ (97 : Int) ∧ ∀ d : Int, 1 < d → d < 97 → ¬ d ∣ 97))) ∧
      (r = Run.overflow → 2147302921 ≤ (97 : Int)) :=
  ⟨by decide, is_prime_correct 97⟩

/-- The prime 97 and the composite 91 = 7 * 13. -/
theorem is_prime_examples :
    is_prime 97 = some (Run.returned 1) ∧ is_prime 91 = some (Run.returned 0) ∧
    MathUtils.is_prime 97 = some (Run.returned 1) ∧
    NumberProperties.is_prime 91 = some (Run.returned 0) := by
  decide

end NumberTheory

/-! # Theorems on `factorial` (C18) -/

namespace AdvancedOps
open CInt

/-- One round of the loop of `factorial` while `i <= number`. -/
theorem factorial_loop_step (fuel : Nat) (number i result : Int) (h : i ≤ number) :
    factorial_loop (fuel + 1) number i result =
      if wrap_long (result * i) < 0 then some (-1)
      else factorial_loop fuel number (wrap_int (i + 1)) (wrap_long (result * i)) := by
  rw [factorial_loop, if_pos h]

/-- From 21 on the loop of `factorial` stops in round `i = 21`, where the
wrapped product is negative. -/
theorem factorial_loop_overflow (number : Int) (h : 21 ≤ number) (m : Nat) :
    factorial_loop (m + 20) number 2 1 = some (-1) := by
  iterate 20
    rw [factorial_loop_step _ _ _ _ (by omega)]
    norm_num [wrap_long, wrap_int]

set_option maxRecDepth 100000 in
/-- C18: with `long` as 64-bit two's-complement arithmetic, `factorial`
returns -1 for every `n < 0`, exactly `n!` for every `0 <= n <= 20`, and -1
for every `n >= 21`; so it never returns a wrapped, wrong positive value. -/
theorem factorial_correct (number : Int) :
    (number < 0 → factorial number = some (-1)) ∧
    (0 ≤ number → number ≤ 20 → factorial number = some (number.toNat.factorial : Int)) ∧
    (21 ≤ number → factorial number = some (-1)) ∧
    (∃ r, factorial number = some r ∧ (r = -1 ∨ r = (number.toNat.factorial : Int))) := by
  have h1 : number < 0 → factorial number = some (-1) := by
    intro h
    rw [factorial, if_pos h]
  have h2 : 0 ≤ number → number ≤ 20 →
      factorial number = some (number.toNat.factorial : Int) := by
    intro h0 h20
    interval_cases number <;> decide
  have h3 : 21 ≤ number → factorial number = some (-1) := by
    intro h
    rw [factorial, if_neg (by omega), if_neg (by omega)]
    obtain ⟨m, hm⟩ : ∃ m, number.toNat = m + 20 := ⟨number.toNat - 20, by omega⟩
    simp only [hm]
    exact factorial_loop_overflow number h m
  refine ⟨h1, h2, h3, ?_⟩
  by_cases hneg : number < 0
  · exact ⟨_, h1 hneg, Or.inl rfl⟩
  · by_cases h20 : number ≤ 20
    · exact ⟨_, h2 (by omega) h20, Or.inr rfl⟩
    · exact ⟨_, h3 (by omega), Or.inl rfl⟩

set_option maxRecDepth 100000 in
/-- C18 (witness): `20! = 2432902008176640000` is returned, 21 and -1 give -1. -/
theorem factorial_correct_witness :
    factorial 20 = some 2432902008176640000 ∧ factorial 21 = some (-1) ∧
    factorial (-1) = some (-1) :=
  ⟨(factorial_correct 20).2.1 (by decide) (by decide),
   (factorial_correct 21).2.2.1 (by decide), (factorial_correct (-1)).1 (by decide)⟩

end AdvancedOps

/-! # Theorems on the reversal of linked lists (C19) -/

namespace LinkedList

/-- Segments compose. -/
theorem lseg_append (h : Heap) (q r : Nat) (l2 : List Nat) :
    ∀ (l1 : List Nat) (p : Nat), lseg h p q l1 → lseg h q r l2 → lseg h p r (l1 ++ l2)
  | [], p, h1, h2 => by
    simp only [lseg] at h1
    subst h1
    exact h2
  | a :: l1, p, h1, h2 => by
    obtain ⟨hp, ha, h1⟩ := h1
    exact ⟨hp, ha, lseg_append h q r l2 l1 _ h1 h2⟩

/-- A segment splits before its last node. -/
theorem lseg_snoc (h : Heap) (q b : Nat) :
    ∀ (l : List Nat) (p : Nat), lseg h p q (l ++ [b]) →
      lseg h p b l ∧ b ≠ 0 ∧ (h b).next = q
  | [], p, h1 => by
    obtain ⟨hp, hb, h1⟩ := h1
    exact ⟨hp, hb, h1⟩
  | a :: l, p, h1 => by
    obtain ⟨hp, ha, h1⟩ := h1
    obtain ⟨h2, hb, h3⟩ := lseg_snoc h q b l _ h1
    exact ⟨⟨hp, ha, h2⟩, hb, h3⟩

/-- A write to an address outside a segment leaves the segment as it is. -/
theorem lseg_frame (h : Heap) (x : Nat) (v : Node) (q : Nat) :
    ∀ (l : List Nat) (p : Nat), x ∉ l → lseg h p q l → lseg (Function.update h x v) p q l
  | [], p, _, h1 => h1
  | a :: l, p, hx, h1 => by
    obtain ⟨hp, ha, h1⟩ := h1
    have hax : a ≠ x := fun e => hx (e ▸ List.mem_cons_self _ _)
    refine ⟨hp, ha, ?_⟩
    rw [Function.update_noteq hax]
    exact lseg_frame h x v q l _ (fun hm => hx (List.mem_cons_of_mem _ hm)) h1

/-- Memories that agree on the nodes of a segment have the same segment. -/
theorem lseg_congr (h h1 : Heap) (q : Nat) :
    ∀ (l : List Nat) (p : Nat), (∀ a ∈ l, h1 a = h a) → lseg h p q l → lseg h1 p q l
  | [], p, _, hl => hl
  | a :: l, p, hx, hl => by
    obtain ⟨hp, ha, hl⟩ := hl
    refine ⟨hp, ha, ?_⟩
    rw [hx a (List.mem_cons_self _ _)]
    exact lseg_congr h h1 q l _ (fun b hb => hx b (List.mem_cons_of_mem _ hb)) hl

/-- A pointer heads at most one finite list. -/
theorem is_list_unique (h : Heap) :
    ∀ (l1 l2 : List Nat) (p : Nat), is_list h p l1 → is_list h p l2 → l1 = l2
  | [], [], _, _, _ => rfl
  | [], b :: l2, p, h1, h2 => by
    simp only [is_list, lseg] at h1 h2
    omega
  | a :: l1, [], p, h1, h2 => by
    simp only [is_list, lseg] at h1 h2
    omega
  | a :: l1, b :: l2, p, h1, h2 => by
    obtain ⟨hp1, _, h1⟩ := h1
    obtain ⟨hp2, _, h2⟩ := h2
    have hab : a = b := hp1.symm.trans hp2
    subst hab
    rw [is_list_unique h l1 l2 _ h1 h2]

/-- Every node of a finite list heads a shorter or equal finite list. -/
theorem is_list_of_mem (h : Heap) (x : Nat) :
    ∀ (l : List Nat) (p : Nat), is_list h p l → x ∈ l →
      ∃ l2, is_list h x (x :: l2) ∧ l2.length < l.length
  | [], _, _, hx => by cases hx
  | a :: l, p, h1, hx => by
    by_cases hax : x = a
    · subst hax
      exact ⟨l, ⟨rfl, h1.2.1, h1.2.2⟩, Nat.lt_succ_self _⟩
    · have hx1 : x ∈ l := by
        rcases List.mem_cons.mp hx with e | e
        · exact absurd e hax
        · exact e
      obtain ⟨l2, h2, hlen⟩ := is_list_of_mem h x l _ h1.2.2 hx1
      exact ⟨l2, h2, Nat.lt_succ_of_lt hlen⟩

/-- The first node of a finite list does not occur again in it. -/
theorem is_list_head_not_mem (h : Heap) (p a : Nat) (l : List Nat)
    (hl : is_list h p (a :: l)) : a ∉ l := by
  intro ha
  obtain ⟨l2, h2, hlen⟩ := is_list_of_mem h a l _ hl.2.2 ha
  have h3 : is_list h a (a :: l) := ⟨rfl, hl.2.1, hl.2.2⟩
  have := is_list_unique h _ _ _ h2 h3
  simp only [List.cons.injEq, true_and] at this
  rw [this] at hlen
  exact Nat.lt_irrefl _ hlen

/-- The nodes of a finite list are pairwise distinct. -/
theorem is_list_nodup (h : Heap) : ∀ (l : List Nat) (p : Nat), is_list h p l → l.Nodup
  | [], _, _ => List.nodup_nil
  | a :: l, p, hl =>
    List.nodup_cons.mpr ⟨is_list_head_not_mem h p a l hl, is_list_nodup h l _ hl.2.2⟩

/-- No node of a finite list is at `NULL`. -/
theorem is_list_ne_zero (h : Heap) : ∀ (l : List Nat) (p : Nat), is_list h p l → ∀ a ∈ l, a ≠ 0
  | [], _, _, _, ha => by cases ha
  | b :: l, p, hl, a, ha => by
    rcases List.mem_cons.mp ha with e | e
    · rw [e]; exact hl.2.1
    · exact is_list_ne_zero h l _ hl.2.2 a e

/-- The loop of `reverse_list`, with the list `done` already reversed behind
`prev` and the list `todo` still ahead of `current`: it ends after one round
per node of `todo` and a last test, with the list `todo.reverse ++ done`; it
changes no `data` and writes to the nodes of `todo` only. -/
theorem reverse_list_loop_spec :
    ∀ (todo done : List Nat) (h : Heap) (prev current : Nat),
      is_list h prev done → is_list h current todo → (∀ a ∈ todo, a ∉ done) →
      ∃ h1 p1, (∀ fuel, todo.length < fuel →
          reverse_list_loop fuel h prev current = some (h1, p1)) ∧
        is_list h1 p1 (todo.reverse ++ done) ∧
        (∀ a, (h1 a).data = (h a).data) ∧ (∀ a, a ∉ todo → h1 a = h a)
  | [], done, h, prev, current, hd, ht, _ => by
    have hc : current = 0 := ht
    subst hc
    refine ⟨h, prev, ?_, by simpa using hd, fun _ => rfl, fun _ _ => rfl⟩
    intro fuel hf
    obtain ⟨fuel, rfl⟩ : ∃ k, fuel = k + 1 := ⟨fuel - 1, by simp at hf; omega⟩
    simp [reverse_list_loop]
  | a :: todo, done, h, prev, current, hd, ht, hdisj => by
    obtain ⟨hc, ha0, ht1⟩ := ht
    subst hc
    have hnot : current ∉ todo := is_list_head_not_mem h current current todo ⟨rfl, ha0, ht1⟩
    have hnd : current ∉ done := hdisj current (List.mem_cons_self _ _)
    obtain ⟨h1, p1, hrun, hlist, hdata, hframe⟩ :=
      reverse_list_loop_spec todo (current :: done)
        (Function.update h current { h current with next := prev }) current (h current).next
        ⟨rfl, ha0, by
          rw [Function.update_same]
          exact lseg_frame h current _ 0 done prev hnd hd⟩
        (lseg_frame h current _ 0 todo _ hnot ht1)
        (fun b hb hbd => by
          rcases List.mem_cons.mp hbd with e | e
          · exact hnot (e ▸ hb)
          · exact hdisj b (List.mem_cons_of_mem _ hb) e)
    refine ⟨h1, p1, ?_, ?_, ?_, ?_⟩
    · intro fuel hf
      obtain ⟨fuel, rfl⟩ : ∃ k, fuel = k + 1 := ⟨fuel - 1, by simp at hf; omega⟩
      rw [reverse_list_loop, if_pos ha0]
      exact hrun fuel (by simp at hf; omega)
    · simpa using hlist
    · intro b
      rw [hdata b]
      by_cases hb : b = current
      · subst hb
        rw [Function.update_same]
      · rw [Function.update_noteq hb]
    · intro b hb
      have hb1 : b ≠ current := fun e => hb (e ▸ List.mem_cons_self _ _)
      rw [hframe b (fun hm => hb (List.mem_cons_of_mem _ hm)), Function.update_noteq hb1]

/-- The loops of `reverse_list_iterative` and `reverse_list` agree. -/
theorem reverse_list_iterative_loop_eq (fuel : Nat) (h : Heap) (prev current : Nat) :
    reverse_list_iterative_loop fuel h prev current = reverse_list_loop fuel h prev current := by
  induction fuel generalizing h prev current with
  | zero => rfl
  | succ fuel ih => simp only [reverse_list_iterative_loop, reverse_list_loop, ih]

/-- In-place reversal by `reverse_list`: on a finite list it ends with the
same nodes linked in reversed order, no `data` changed, no other node written. -/
theorem reverse_list_spec (h : Heap) (head : Nat) (addrs : List Nat)
    (hl : is_list h head addrs) :
    ∃ h1 p1, (∀ fuel, addrs.length < fuel → reverse_list fuel h head = some (h1, p1)) ∧
      is_list h1 p1 addrs.reverse ∧
      (∀ a, (h1 a).data = (h a).data) ∧ (∀ a, a ∉ addrs → h1 a = h a) := by
  obtain ⟨h1, p1, hrun, hlist, hdata, hframe⟩ :=
    reverse_list_loop_spec addrs [] h 0 head rfl hl (fun _ _ hm => by cases hm)
  exact ⟨h1, p1, hrun, by simpa using hlist, hdata, hframe⟩

/-- In-place reversal by `reverse_list_iterative`. -/
theorem reverse_list_iterative_spec (h : Heap) (head : Nat) (addrs : List Nat)
    (hl : is_list h head addrs) :
    ∃ h1 p1, (∀ fuel, addrs.length < fuel →
        reverse_list_iterative fuel h head = some (h1, p1)) ∧
      is_list h1 p1 addrs.reverse ∧
      (∀ a, (h1 a).data = (h a).data) ∧ (∀ a, a ∉ addrs → h1 a = h a) := by
  obtain ⟨h1, p1, hrun, hlist, hdata, hframe⟩ :=
    reverse_list_loop_spec addrs [] h 0 head rfl hl (fun _ _ hm => by cases hm)
  refine ⟨h1, p1, ?_, by simpa using hlist, hdata, hframe⟩
  intro fuel hf
  rw [reverse_list_iterative, reverse_list_iterative_loop_eq]
  exact hrun fuel hf

/-- In-place reversal by `reverse_list_recursive`: on a finite list it ends
with the same nodes linked in reversed order, no `data` changed, no other node
written. -/
theorem reverse_list_recursive_spec :
    ∀ (addrs : List Nat) (h : Heap) (head : Nat), is_list h head addrs →
      ∃ h1 p1, (∀ fuel, addrs.length < fuel →
          reverse_list_recursive fuel h head = some (h1, p1)) ∧
        is_list h1 p1 addrs.reverse ∧
        (∀ a, (h1 a).data = (h a).data) ∧ (∀ a, a ∉ addrs → h1 a = h a)
  | [], h, head, hl => by
    have hc : head = 0 := hl
    subst hc
    refine ⟨h, 0, ?_, rfl, fun _ => rfl, fun _ _ => rfl⟩
    intro fuel hf
    obtain ⟨fuel, rfl⟩ : ∃ k, fuel = k + 1 := ⟨fuel - 1, by simp at hf; omega⟩
    simp [reverse_list_recursive]
  | [a], h, head, hl => by
    obtain ⟨hc, ha0, hn⟩ := hl
    subst hc
    have hn0 : (h head).next = 0 := hn
    refine ⟨h, head, ?_, ⟨rfl, ha0, hn0⟩, fun _ => rfl, fun _ _ => rfl⟩
    intro fuel hf
    obtain ⟨fuel, rfl⟩ : ∃ k, fuel = k + 1 := ⟨fuel - 1, by simp at hf; omega⟩
    simp [reverse_list_recursive, hn0]
  | a :: b :: rest, h, head, hl => by
    have hnot : a ∉ b :: rest := is_list_head_not_mem h head a _ hl
    obtain ⟨hc, ha0, hl1⟩ := hl
    subst hc
    have hb : (h head).next = b := hl1.1
    have hb0 : b ≠ 0 := hl1.2.1
    obtain ⟨h1, p1, hrun, hlist, hdata, hframe⟩ :=
      reverse_list_recursive_spec (b :: rest) h (h head).next hl1
    have hh1 : h1 head = h head := hframe head hnot
    have hhb : head ≠ b := fun e => hnot (e ▸ List.mem_cons_self _ _)
    rw [List.reverse_cons] at hlist
    obtain ⟨hseg, _, hlast⟩ := lseg_snoc h1 0 b rest.reverse p1 hlist
    have hnd := is_list_nodup h1 _ p1 hlist
    have hbr : b ∉ rest.reverse := by
      intro hm
      have := List.disjoint_of_nodup_append hnd hm
      exact this (List.mem_singleton_self b)
    have har : head ∉ rest.reverse := fun hm =>
      hnot (List.mem_cons_of_mem _ (List.mem_reverse.mp hm))
    refine ⟨Function.update (Function.update h1 b { h1 b with next := head }) head
        { (Function.update h1 b { h1 b with next := head }) head with next := 0 }, p1,
      ?_, ?_, ?_, ?_⟩
    · intro fuel hf
      obtain ⟨fuel, rfl⟩ : ∃ k, fuel = k + 1 := ⟨fuel - 1, by simp at hf; omega⟩
      have hb1 : (h1 head).next = b := by rw [hh1, hb]
      rw [reverse_list_recursive, if_neg (by rw [hb]; simp [ha0, hb0]),
        hrun fuel (by simp at hf ⊢; omega)]
      simp only [hb1]
      subst hb1
      rfl
    · rw [List.reverse_cons, List.reverse_cons, List.append_assoc]
      refine lseg_append _ b 0 _ _ _ ?_ ?_
      · exact lseg_frame _ head _ b _ _ har (lseg_frame h1 b _ b _ _ hbr hseg)
      · refine ⟨rfl, hb0, ?_⟩
        rw [Function.update_noteq hhb.symm, Function.update_same]
        refine ⟨rfl, ha0, ?_⟩
        rw [Function.update_same]
        rfl
    · intro x
      by_cases hx : x = head
      · subst hx
        rw [Function.update_same, Function.update_noteq hhb]
        exact hdata x
      · rw [Function.update_noteq hx]
        by_cases hxb : x = b
        · subst hxb
          rw [Function.update_same]
          exact hdata x
        · rw [Function.update_noteq hxb]
          exact hdata x
    · intro x hx
      have hx1 : x ≠ head := fun e => hx (e ▸ List.mem_cons_self _ _)
      have hx2 : x ≠ b := fun e => hx (e ▸ List.mem_cons_of_mem _ (List.mem_cons_self _ _))
      rw [Function.update_noteq hx1, Function.update_noteq hx2]
      exact hframe x (fun hm => hx (List.mem_cons_of_mem _ hm))

/-- Each of the three functions, on a list with elements `xs`, ends with a
list with elements `xs.reverse`, with the same result for every fuel above
the length of the list. -/
theorem reversals_spec (h : Heap) (head : Nat) (xs : List Int) (hl : represents h head xs) :
    ∀ f ∈ reversals, ∃ r : Heap × Nat,
      (∀ fuel, xs.length < fuel → f fuel h head = some r) ∧ represents r.1 r.2 xs.reverse := by
  obtain ⟨addrs, hlist, hxs⟩ := hl
  have hlen : xs.length = addrs.length := by rw [← hxs, List.length_map]
  have key : ∀ f : Nat → Heap → Nat → Option (Heap × Nat),
      (∃ h1 p1, (∀ fuel, addrs.length < fuel → f fuel h head = some (h1, p1)) ∧
        is_list h1 p1 addrs.reverse ∧
        (∀ a, (h1 a).data = (h a).data) ∧ (∀ a, a ∉ addrs → h1 a = h a)) →
      ∃ r : Heap × Nat,
        (∀ fuel, xs.length < fuel → f fuel h head = some r) ∧
        represents r.1 r.2 xs.reverse := by
    rintro f ⟨h1, p1, hrun, hrev, hdata, _⟩
    refine ⟨(h1, p1), fun fuel hf => hrun fuel (hlen ▸ hf), addrs.reverse, hrev, ?_⟩
    rw [← hxs, ← List.map_reverse]
    exact List.map_congr_left (fun a _ => hdata a)
  intro f hf
  simp only [reversals, List.mem_cons, List.mem_singleton, List.not_mem_nil, or_false] at hf
  rcases hf with rfl | rfl | rfl
  · exact key _ (reverse_list_spec h head addrs hlist)
  · exact key _ (reverse_list_iterative_spec h head addrs hlist)
  · exact key _ (reverse_list_recursive_spec addrs h head hlist)

/-- C19: for every finite singly linked list, with elements `xs`, each of
`reverse_list`, `reverse_list_iterative` and `reverse_list_recursive` ends
(with the same result for every fuel above the length) and yields the list
with the elements `xs.reverse`; reversing the result with any of the three
again yields the list with the elements `xs`. -/
theorem reversals_reverse (h : Heap) (head : Nat) (xs : List Int)
    (hl : represents h head xs) :
    ∀ f ∈ reversals, ∃ r : Heap × Nat,
      (∀ fuel, xs.length < fuel → f fuel h head = some r) ∧
      represents r.1 r.2 xs.reverse ∧
      ∀ g ∈ reversals, ∃ r2 : Heap × Nat,
        (∀ fuel, xs.length < fuel → g fuel r.1 r.2 = some r2) ∧ represents r2.1 r2.2 xs := by
  intro f hf
  obtain ⟨r, hrun, hrep⟩ := reversals_spec h head xs hl f hf
  refine ⟨r, hrun, hrep, ?_⟩
  intro g hg
  obtain ⟨r2, hrun2, hrep2⟩ := reversals_spec r.1 r.2 xs.reverse hrep g hg
  refine ⟨r2, fun fuel hfuel => hrun2 fuel (by simpa using hfuel), ?_⟩
  simpa using hrep2

/-- C19 (witness): the list 10, 20, 30, 40, 50 of `main`: `reverse_list`
yields 50, 40, 30, 20, 10 and `reverse_list_recursive` then yields the
original list again, as the run of `main` shows. -/
theorem reversals_reverse_witness :
    ((reverse_list 6 main_heap 1).bind (fun r => to_list 6 r.1 r.2) = some [50, 40, 30, 20, 10]) ∧
    (((reverse_list 6 main_heap 1).bind (fun r => reverse_list_recursive 6 r.1 r.2)).bind
      (fun r => to_list 6 r.1 r.2) = some [10, 20, 30, 40, 50]) ∧
    ∀ f ∈ reversals, ∃ r : Heap × Nat,
      (∀ fuel, [10, 20, 30, 40, (50 : Int)].length < fuel → f fuel main_heap 1 = some r) ∧
      represents r.1 r.2 [10, 20, 30, 40, (50 : Int)].reverse ∧
      ∀ g ∈ reversals, ∃ r2 : Heap × Nat,
        (∀ fuel, [10, 20, 30, 40, (50 : Int)].length < fuel → g fuel r.1 r.2 = some r2) ∧
        represents r2.1 r2.2 [10, 20, 30, 40, 50] :=
  ⟨by decide, by decide, reversals_reverse main_heap 1 [10, 20, 30, 40, 50]
     ⟨[1, 2, 3, 4, 5], by simp [is_list, lseg, main_heap], by simp [main_heap]⟩⟩

end LinkedList

/-! # Theorems on the contact manager (C20) -/

namespace ContactBook
open CInt

/-- What the search loop finds: an index inside the list whose entry has the id. -/
theorem find_index_some (id : Int) : ∀ (l : List Contact) (i j : Nat),
    find_index id l i = some j →
    i ≤ j ∧ j - i < l.length ∧ ∃ c, l[j - i]? = some c ∧ c.id = id
  | [], _, _, h => by simp [find_index] at h
  | c :: rest, i, j, h => by
    rw [find_index] at h
    by_cases hc : c.id = id
    · rw [if_pos hc] at h
      cases h
      simp [hc]
    · rw [if_neg hc] at h
      obtain ⟨h1, h2, c1, h3, h4⟩ := find_index_some id rest (i + 1) j h
      refine ⟨by omega, by simp; omega, c1, ?_, h4⟩
      have : j - i = (j - (i + 1)) + 1 := by omega
      rw [this, List.getElem?_cons_succ]
      exact h3

/-- The search loop passes the entries with another id and stops at the first
entry with the id. -/
theorem find_index_append (id : Int) (e : Contact) (he : e.id = id) :
    ∀ (l : List Contact) (i : Nat), (∀ c ∈ l, c.id ≠ id) →
      find_index id (l ++ [e]) i = some (i + l.length)
  | [], i, _ => by simp [find_index, he]
  | c :: rest, i, h => by
    rw [List.cons_append, find_index, if_neg (h c (List.mem_cons_self _ _)),
      find_index_append id e he rest (i + 1) (fun x hx => h x (List.mem_cons_of_mem _ hx))]
    simp
    omega

/-- No stored phone equals the phone: `is_duplicate_phone` returns 0. -/
theorem is_duplicate_phone_loop_zero (phone : String) (exclude_id : Int) :
    ∀ l : List Contact, (∀ c ∈ l, c.phone ≠ phone) →
      is_duplicate_phone_loop phone exclude_id l = 0
  | [], _ => rfl
  | c :: rest, h => by
    rw [is_duplicate_phone_loop, if_neg (fun hc => h c (List.mem_cons_self _ _) hc.2)]
    exact is_duplicate_phone_loop_zero phone exclude_id rest
      (fun x hx => h x (List.mem_cons_of_mem _ hx))

/-- The manager after the resizing step of `add_contact` when `realloc`
succeeds: same contacts and `next_id`, room for one more entry. -/
theorem resize_step (cm : ContactManager) (hw : well_formed cm) (hc : cm.count < MAX_CONTACTS)
    (realloc_ok : Bool) :
    let resized :=
      if cm.count ≥ cm.capacity then resize_contacts cm (wrap_int (cm.capacity * 2)) realloc_ok
      else (1, cm)
    resized.2.contacts = cm.contacts ∧ resized.2.next_id = cm.next_id ∧
    INITIAL_CAPACITY ≤ resized.2.capacity ∧ resized.2.capacity ≤ 2 * MAX_CONTACTS ∧
    resized.2.count ≤ resized.2.capacity ∧
    (resized.1 ≠ 0 → resized.2.count < resized.2.capacity) ∧
    (realloc_ok = true → resized.1 ≠ 0) := by
  obtain ⟨_, _, _, _, h5, h6, h7⟩ := hw
  simp only [ContactManager.count, MAX_CONTACTS, INITIAL_CAPACITY] at *
  by_cases hge : (cm.contacts.length : Int) ≥ cm.capacity
  · have hwrap : wrap_int (cm.capacity * 2) = cm.capacity * 2 := by
      rw [wrap_int]; omega
    simp only [hge, if_true, hwrap, resize_contacts]
    have hnle : ¬ cm.capacity * 2 ≤ cm.capacity := by omega
    rw [if_neg hnle]
    cases realloc_ok
    · simp
      omega
    · simp
      omega
  · simp only [hge, if_false]
    refine ⟨trivial, trivial, h5, h6, h7, fun _ => by omega, fun _ => by decide⟩

/-- The shift loop from place `j = pre.length` over an array `pre ++ a :: rest`
copies every entry of `rest` one place down; the last place keeps its entry. -/
theorem shift_loop_spec : ∀ (rest pre : List Contact) (a : Contact),
    shift_loop rest.length pre.length (pre ++ a :: rest)
      = pre ++ rest ++ [(a :: rest).getLast (List.cons_ne_nil _ _)]
  | [], pre, a => by simp [shift_loop]
  | b :: rest, pre, a => by
    have hget : (pre ++ a :: b :: rest)[pre.length + 1]? = some b := by
      rw [List.getElem?_append_right (by omega)]
      simp
    have hset : (pre ++ a :: b :: rest).set pre.length b = (pre ++ [b]) ++ b :: rest := by
      rw [List.set_append_right _ _ (le_refl _)]
      simp
    rw [List.length_cons, shift_loop, hget]
    simp only
    rw [hset]
    have := shift_loop_spec rest (pre ++ [b]) b
    rw [List.length_append, List.length_singleton] at this
    rw [this]
    simp

/-- The search loop finds nothing exactly when no entry has the id. -/
theorem find_index_none (id : Int) : ∀ (l : List Contact) (k : Nat),
    (∀ c ∈ l, c.id ≠ id) → find_index id l k = none
  | [], _, _ => rfl
  | c :: rest, k, h => by
    rw [find_index, if_neg (h c (List.mem_cons_self _ _))]
    exact find_index_none id rest (k + 1) (fun x hx => h x (List.mem_cons_of_mem _ hx))

/-- The search loop stops at the first entry with the id. -/
theorem find_index_first (id : Int) (e : Contact) (he : e.id = id) (post : List Contact) :
    ∀ (pre : List Contact) (k : Nat), (∀ c ∈ pre, c.id ≠ id) →
      find_index id (pre ++ e :: post) k = some (k + pre.length)
  | [], k, _ => by simp [find_index, he]
  | c :: pre, k, h => by
    rw [List.cons_append, find_index, if_neg (h c (List.mem_cons_self _ _)),
      find_index_first id e he post pre (k + 1) (fun x hx => h x (List.mem_cons_of_mem _ hx))]
    simp
    omega

/-- A stored id splits the list at its first entry. -/
theorem exists_first (id : Int) : ∀ l : List Contact, (∃ c ∈ l, c.id = id) →
    ∃ pre e post, l = pre ++ e :: post ∧ e.id = id ∧ (∀ c ∈ pre, c.id ≠ id)
  | [], h => by
    obtain ⟨c, hc, _⟩ := h
    cases hc
  | c :: rest, h => by
    by_cases hc : c.id = id
    · exact ⟨[], c, rest, rfl, hc, fun _ hx => by cases hx⟩
    · have : ∃ x ∈ rest, x.id = id := by
        obtain ⟨x, hx, hxid⟩ := h
        rcases List.mem_cons.mp hx with rfl | hx
        · exact absurd hxid hc
        · exact ⟨x, hx, hxid⟩
      obtain ⟨pre, e, post, h1, h2, h3⟩ := exists_first id rest this
      refine ⟨c :: pre, e, post, by rw [h1]; rfl, h2, ?_⟩
      intro x hx
      rcases List.mem_cons.mp hx with rfl | hx
      · exact hc
      · exact h3 x hx

/-- Deleting an id that is stored: the first entry with the id goes, the
entries before and after it stay in their order. -/
theorem delete_contact_found (cm : ContactManager) (id : Int) (pre post : List Contact)
    (e : Contact) (hl : cm.contacts = pre ++ e :: post) (he : e.id = id)
    (hpre : ∀ c ∈ pre, c.id ≠ id) :
    delete_contact cm id = (1, { cm with contacts := pre ++ post }) := by
  have hf : find_index id cm.contacts 0 = some pre.length := by
    rw [hl, find_index_first id e he post pre 0 hpre, Nat.zero_add]
  have hr : cm.contacts.length - 1 - pre.length = post.length := by
    rw [hl, List.length_append, List.length_cons]
    omega
  have ht : cm.contacts.length - 1 = (pre ++ post).length := by
    rw [hl, List.length_append, List.length_cons, List.length_append]
    omega
  rw [delete_contact, hf]
  simp only
  rw [hr, ht]
  conv_lhs => rw [hl]
  rw [shift_loop_spec post pre e, List.take_left]

/-- Deleting an id that is not stored changes nothing. -/
theorem delete_contact_not_found (cm : ContactManager) (id : Int)
    (h : ∀ c ∈ cm.contacts, c.id ≠ id) : delete_contact cm id = (0, cm) := by
  rw [delete_contact, find_index_none id cm.contacts 0 h]

/-- Every result of `add_contact` on a well-formed manager below
`MAX_CONTACTS`: either nothing is added, or the contact is appended with the
id `next_id`, which goes up by one (wrapping around at `INT_MAX`). -/
theorem add_contact_cases (cm : ContactManager) (hw : well_formed cm)
    (contact : Contact) (realloc_ok : Bool) (now1 now2 : Int) (r : Int) (cm1 : ContactManager)
    (h : add_contact cm contact realloc_ok now1 now2 = some (r, cm1)) :
    (cm1.contacts = cm.contacts ∧ cm1.next_id = cm.next_id ∧
      INITIAL_CAPACITY ≤ cm1.capacity ∧ cm1.capacity ≤ 2 * MAX_CONTACTS ∧
      cm1.count ≤ cm1.capacity) ∨
    (cm1.contacts = cm.contacts ++
        [{ contact with id := cm.next_id, created := now1, modified := now2 }] ∧
      cm1.next_id = wrap_int (cm.next_id + 1) ∧ r = cm.next_id ∧
      INITIAL_CAPACITY ≤ cm1.capacity ∧ cm1.capacity ≤ 2 * MAX_CONTACTS ∧
      cm1.count ≤ cm1.capacity) := by
  rw [add_contact] at h
  by_cases hc : cm.count ≥ MAX_CONTACTS
  · rw [if_pos hc] at h
    cases h
    exact Or.inl ⟨rfl, rfl, hw.2.2.2.2.1, hw.2.2.2.2.2.1, hw.2.2.2.2.2.2⟩
  · rw [if_neg hc] at h
    obtain ⟨e1, e2, e3, e4, e5, e6, _⟩ := resize_step cm hw (by omega) realloc_ok
    simp only at e1 e2 e3 e4 e5 e6 h
    generalize (if cm.count ≥ cm.capacity then
      resize_contacts cm (wrap_int (cm.capacity * 2)) realloc_ok else (1, cm)) = resized
      at e1 e2 e3 e4 e5 e6 h
    by_cases h0 : resized.1 = 0
    · rw [if_pos h0] at h
      cases h
      exact Or.inl ⟨e1, e2, e3, e4, e5⟩
    · rw [if_neg h0] at h
      by_cases hd : is_duplicate_phone resized.2 contact.phone (-1) ≠ 0
      · rw [if_pos hd] at h
        cases h
        exact Or.inl ⟨e1, e2, e3, e4, e5⟩
      · rw [if_neg hd, if_pos (e6 h0)] at h
        cases h
        refine Or.inr ⟨by simp only [e1, e2], by simp only [e2], by simp only [e2], e3, e4, ?_⟩
        have := e6 h0
        simp only [ContactManager.count, List.length_append, List.length_singleton] at this ⊢
        push_cast
        omega

/-- The managers reached without overflow of `next_id` are well-formed. -/
theorem reached_well_formed (cm : ContactManager) (h : reached true cm) : well_formed cm := by
  induction h with
  | init =>
    exact ⟨by decide, by decide, (fun c hc => by cases hc), List.nodup_nil, by decide,
      by decide, by decide⟩
  | add cm contact realloc_ok now1 now2 r cm1 _ hadd hb ih =>
    have ⟨h1, h2, h3, h4, _, _, _⟩ := ih
    rcases add_contact_cases cm ih contact realloc_ok now1 now2 r cm1 hadd with
      ⟨e1, e2, e3, e4, e5⟩ | ⟨e1, e2, _, e3, e4, e5⟩
    · exact ⟨e2 ▸ h1, e2 ▸ h2, by rw [e1, e2]; exact h3, by rw [e1]; exact h4, e3, e4, e5⟩
    · have hlt : cm.next_id < INT_MAX := by
        rcases hb rfl with hlt | heq
        · exact hlt
        · exfalso
          have hw1 : wrap_int (cm.next_id + 1) = cm.next_id := e2 ▸ heq
          rw [wrap_int] at hw1
          simp only [INT_MAX] at h2
          omega
      have hwrap : wrap_int (cm.next_id + 1) = cm.next_id + 1 := by
        simp only [INT_MAX] at hlt
        rw [wrap_int]; omega
      rw [hwrap] at e2
      unfold well_formed
      rw [e2]
      simp only [INT_MAX] at hlt h2 ⊢
      refine ⟨by omega, by omega, ?_, ?_, e3, e4, e5⟩
      · intro c hc
        rw [e1, List.mem_append, List.mem_singleton] at hc
        rcases hc with hc | hc
        · have := h3 c hc
          omega
        · subst hc
          simp only
          omega
      · rw [e1, List.map_append, List.map_singleton]
        refine List.Nodup.append h4 (List.nodup_singleton _) ?_
        intro x hx hx1
        rw [List.mem_singleton] at hx1
        obtain ⟨c, hc, hcx⟩ := List.mem_map.mp hx
        have := h3 c hc
        simp only at hx1
        omega
  | update cm id contact now _ ih =>
    obtain ⟨h1, h2, h3, h4, h5, h6, h7⟩ := ih
    rw [update_contact]
    cases hf : find_index id cm.contacts 0 with
    | none => exact ⟨h1, h2, h3, h4, h5, h6, h7⟩
    | some i =>
      simp only
      by_cases hd : is_duplicate_phone cm contact.phone id ≠ 0
      · rw [if_pos hd]
        exact ⟨h1, h2, h3, h4, h5, h6, h7⟩
      · rw [if_neg hd]
        obtain ⟨_, hi, c, hci, hcid⟩ := find_index_some id cm.contacts 0 i hf
        simp only [Nat.sub_zero] at hi hci
        have hcm : c ∈ cm.contacts := List.getElem?_mem hci
        generalize (cm.contacts.getD i contact).created = created
        have hmap : ∀ e : Contact, e.id = id →
            (cm.contacts.set i e).map Contact.id = cm.contacts.map Contact.id := by
          intro e he
          rw [List.map_set]
          apply List.ext_getElem?
          intro k
          by_cases hk : i = k
          · subst hk
            rw [List.getElem?_set_self (by simpa using hi), List.getElem?_map, hci]
            simp [hcid, he]
          · rw [List.getElem?_set_ne hk]
        refine ⟨h1, h2, ?_, ?_, h5, h6, ?_⟩
        · intro x hx
          rcases List.mem_or_eq_of_mem_set hx with hx | hx
          · exact h3 x hx
          · subst hx
            simp only
            rw [← hcid]
            exact h3 c hcm
        · rw [hmap _ rfl]
          exact h4
        · simpa [ContactManager.count] using h7
  | delete cm id _ ih =>
    obtain ⟨h1, h2, h3, h4, h5, h6, h7⟩ := ih
    by_cases hs : ∃ c ∈ cm.contacts, c.id = id
    · obtain ⟨pre, e, post, hl, he, hpre⟩ := exists_first id cm.contacts hs
      rw [delete_contact_found cm id pre post e hl he hpre]
      have hsub : (pre ++ post).Sublist cm.contacts := by
        rw [hl]
        exact List.Sublist.append_left (List.sublist_cons_self e post) pre
      refine ⟨h1, h2, fun x hx => h3 x (hsub.subset hx),
        List.Nodup.sublist (hsub.map Contact.id) h4, h5, h6, ?_⟩
      have := hsub.length_le
      simp only [ContactManager.count] at h7 ⊢
      omega
    · rw [delete_contact_not_found cm id (fun c hc hid => hs ⟨c, hc, hid⟩)]
      exact ⟨h1, h2, h3, h4, h5, h6, h7⟩

/-- Adding a contact to the empty manager and deleting it again leaves the
empty manager with `next_id` one higher: every `next_id` from 1 to `INT_MAX`
is reached, with or without the bound on additions. -/
theorem reached_empty (bounded : Bool) : ∀ k : Nat, k ≤ 2147483646 →
    reached bounded ⟨[], INITIAL_CAPACITY, 1 + (k : Int)⟩
  | 0, _ => reached.init
  | k + 1, hk => by
    have ih := reached_empty bounded k (by omega)
    have hwrap : wrap_int (1 + (k : Int) + 1) = 1 + ((k + 1 : Nat) : Int) := by
      rw [wrap_int]
      push_cast
      omega
    have hadd : add_contact ⟨[], INITIAL_CAPACITY, 1 + (k : Int)⟩ sample_contact true 0 0
        = some (1 + (k : Int), ⟨[{ sample_contact with id := 1 + (k : Int) }],
            INITIAL_CAPACITY, 1 + ((k + 1 : Nat) : Int)⟩) := by
      simp [add_contact, ContactManager.count, MAX_CONTACTS, INITIAL_CAPACITY,
        is_duplicate_phone, is_duplicate_phone_loop, hwrap, sample_contact]
    have h1 := reached.add _ _ _ _ _ _ _ ih hadd
      (fun _ => Or.inl (by simp only [INT_MAX]; omega))
    have h2 := reached.delete _ (1 + (k : Int)) h1
    have hdel : (delete_contact ⟨[{ sample_contact with id := 1 + (k : Int) }],
        INITIAL_CAPACITY, 1 + ((k + 1 : Nat) : Int)⟩ (1 + (k : Int))).2
        = ⟨[], INITIAL_CAPACITY, 1 + ((k + 1 : Nat) : Int)⟩ := by
      simp [delete_contact, find_index, shift_loop]
    rw [hdel] at h2
    exact h2

/-- C20 (amended): for every manager reached from `init_contact_manager` by
`add_contact`, `update_contact` and `delete_contact` without `next_id`
overflowing, with `count < MAX_CONTACTS` and `next_id < INT_MAX`, and every
contact whose phone is not stored, `add_contact` (with `realloc` succeeding)
returns the `next_id` from before the call, which is positive, increments
`count` and `next_id` by one and appends the contact as the last entry; and
`find_contact_by_id` on the returned id yields that entry, whose names, phone,
email, company, address, group and notes are those of the input. -/
theorem add_contact_appends (cm : ContactManager) (h : reached true cm)
    (hc : cm.count < MAX_CONTACTS) (hid : cm.next_id < INT_MAX)
    (contact : Contact) (hphone : ∀ c ∈ cm.contacts, c.phone ≠ contact.phone)
    (now1 now2 : Int) :
    ∃ cm1 e, add_contact cm contact true now1 now2 = some (cm.next_id, cm1) ∧
      0 < cm.next_id ∧ cm1.count = cm.count + 1 ∧ cm1.next_id = cm.next_id + 1 ∧
      cm1.contacts = cm.contacts ++ [e] ∧
      find_contact_by_id cm1 cm.next_id = some cm.contacts.length ∧
      cm1.contacts[cm.contacts.length]? = some e ∧
      e.id = cm.next_id ∧ e.first_name = contact.first_name ∧
      e.last_name = contact.last_name ∧ e.phone = contact.phone ∧ e.email = contact.email ∧
      e.company = contact.company ∧ e.address = contact.address ∧ e.group = contact.group ∧
      e.notes = contact.notes := by
  have hw := reached_well_formed cm h
  have ⟨h1, h2, h3, _, _, _, _⟩ := hw
  obtain ⟨e1, e2, _, _, _, e6, e7⟩ := resize_step cm hw hc true
  have hwrap : wrap_int (cm.next_id + 1) = cm.next_id + 1 := by
    simp only [INT_MAX] at hid
    rw [wrap_int]; omega
  have hrun : add_contact cm contact true now1 now2 = some (cm.next_id,
      ⟨cm.contacts ++ [{ contact with id := cm.next_id, created := now1, modified := now2 }],
       (if cm.count ≥ cm.capacity then resize_contacts cm (wrap_int (cm.capacity * 2)) true
        else (1, cm)).2.capacity, cm.next_id + 1⟩) := by
    rw [add_contact, if_neg (by omega)]
    simp only at e1 e2 e6 e7 ⊢
    generalize (if cm.count ≥ cm.capacity then
      resize_contacts cm (wrap_int (cm.capacity * 2)) true else (1, cm)) = resized
      at e1 e2 e6 e7 ⊢
    have hdup : is_duplicate_phone resized.2 contact.phone (-1) = 0 := by
      rw [is_duplicate_phone, e1]
      exact is_duplicate_phone_loop_zero _ _ _ hphone
    rw [if_neg (e7 trivial), if_neg (by simp [hdup]), if_pos (e6 (e7 trivial)), e1, e2, hwrap]
  refine ⟨_, _, hrun, by omega, ?_, rfl, rfl, ?_, ?_, rfl, rfl, rfl, rfl, rfl, rfl, rfl, rfl, rfl⟩
  · simp only [ContactManager.count, List.length_append, List.length_singleton]
    push_cast
    rfl
  · rw [find_contact_by_id]
    simp only
    rw [find_index_append cm.next_id _ rfl cm.contacts 0 (fun c hc1 => by
      have := h3 c hc1
      omega)]
    simp
  · simp

set_option maxRecDepth 100000 in
/-- C20 (counterexample): the empty manager with `next_id = INT_MAX` is
reached from `init_contact_manager` by adding and deleting contacts; there
`add_contact` returns `INT_MAX` and leaves `next_id = INT_MIN`, not the old
`next_id` plus one. -/
theorem add_contact_appends_counterexample :
    reached false ⟨[], INITIAL_CAPACITY, 2147483647⟩ ∧
    (⟨[], INITIAL_CAPACITY, 2147483647⟩ : ContactManager).count < MAX_CONTACTS ∧
    add_contact ⟨[], INITIAL_CAPACITY, 2147483647⟩ sample_contact true 0 0
      = some (2147483647,
          ⟨[{ sample_contact with id := 2147483647 }], INITIAL_CAPACITY, -2147483648⟩) ∧
    (-2147483648 : Int) ≠ 2147483647 + 1 := by
  refine ⟨?_, by decide, by decide, by decide⟩
  have h := reached_empty false 2147483646 (le_refl _)
  norm_num at h
  exact h

set_option maxRecDepth 100000 in
/-- C20 (witness): after one contact has been added, a second contact with
another phone is added with id 2 as the last entry, and is found by its id. -/
theorem add_contact_appends_witness :
    add_contact ⟨[{ sample_contact with id := 1 }], INITIAL_CAPACITY, 2⟩
      { sample_contact with first_name := "Alan", phone := "5559876" } true 7 8
      = some (2, ⟨[{ sample_contact with id := 1 },
          { sample_contact with
            id := 2, first_name := "Alan", phone := "5559876", created := 7, modified := 8 }],
          INITIAL_CAPACITY, 3⟩) ∧
    ∃ cm1 e, add_contact ⟨[{ sample_contact with id := 1 }], INITIAL_CAPACITY, 2⟩
        { sample_contact with first_name := "Alan", phone := "5559876" } true 7 8
        = some (2, cm1) ∧
      0 < (2 : Int) ∧ cm1.count = 1 + 1 ∧ cm1.next_id = 2 + 1 ∧
      cm1.contacts = [{ sample_contact with id := 1 }] ++ [e] ∧
      find_contact_by_id cm1 2 = some 1 ∧
      cm1.contacts[1]? = some e ∧
      e.id = 2 ∧ e.first_name = "Alan" ∧
      e.last_name = "Lovelace" ∧ e.phone = "5559876" ∧ e.email = "ada@example.org" ∧
      e.company = "Analytical" ∧ e.address = "London" ∧ e.group = "personal" ∧
      e.notes = "" :=
  ⟨by decide,
   add_contact_appends ⟨[{ sample_contact with id := 1 }], INITIAL_CAPACITY, 2⟩
     (reached.add init_contact_manager sample_contact true 0 0 1 _ reached.init (by decide)
       (fun _ => Or.inl (by decide)))
     (by decide) (by decide)
     { sample_contact with first_name := "Alan", phone := "5559876" } (by decide) 7 8⟩

end ContactBook

/-! # Theorems on the contact manager: duplicates, update, delete (C21, C22, C23) -/

namespace ContactBook
open CInt

/-- A stored contact with an id other than the excluded one holds the phone:
`is_duplicate_phone` returns 1. -/
theorem is_duplicate_phone_loop_one (phone : String) (exclude_id : Int) :
    ∀ l : List Contact, (∃ c ∈ l, c.id ≠ exclude_id ∧ c.phone = phone) →
      is_duplicate_phone_loop phone exclude_id l = 1
  | [], h => by
    obtain ⟨c, hc, _⟩ := h
    cases hc
  | c :: rest, h => by
    rw [is_duplicate_phone_loop]
    by_cases hc : c.id ≠ exclude_id ∧ c.phone = phone
    · rw [if_pos hc]
    · rw [if_neg hc]
      apply is_duplicate_phone_loop_one phone exclude_id rest
      obtain ⟨x, hx, hx1⟩ := h
      rcases List.mem_cons.mp hx with rfl | hx
      · exact absurd hx1 hc
      · exact ⟨x, hx, hx1⟩

/-- C21 (amended): for every manager whose entries fit its array
(`count <= capacity`) with `count < MAX_CONTACTS`, and every contact whose
phone equals the phone of a stored contact with an id other than -1,
`add_contact` (with `realloc` succeeding) returns -1 and leaves the stored
contacts, `count` and `next_id` unchanged. -/
theorem add_contact_duplicate_phone (cm : ContactManager) (contact : Contact)
    (now1 now2 : Int) (hc : cm.count < MAX_CONTACTS) (hfit : cm.count ≤ cm.capacity)
    (hdup : ∃ c ∈ cm.contacts, c.id ≠ -1 ∧ c.phone = contact.phone) :
    ∃ cm1, add_contact cm contact true now1 now2 = some (-1, cm1) ∧
      cm1.contacts = cm.contacts ∧ cm1.count = cm.count ∧ cm1.next_id = cm.next_id := by
  have hpos : 0 < cm.contacts.length := by
    obtain ⟨c, hcm, _⟩ := hdup
    exact List.length_pos_of_mem hcm
  simp only [ContactManager.count, MAX_CONTACTS] at hc hfit
  rw [add_contact, if_neg (by simp only [ContactManager.count, MAX_CONTACTS]; omega)]
  by_cases hge : cm.count ≥ cm.capacity
  · have hcap : cm.capacity = cm.contacts.length := by
      simp only [ContactManager.count] at hge
      omega
    have hwrap : wrap_int (cm.capacity * 2) = cm.capacity * 2 := by
      rw [wrap_int]; omega
    have hres : resize_contacts cm (wrap_int (cm.capacity * 2)) true
        = (1, { cm with capacity := cm.capacity * 2 }) := by
      rw [resize_contacts, hwrap, if_neg (by omega), if_neg (by decide)]
    simp only [hge, if_true, hres]
    have hd : is_duplicate_phone { cm with capacity := cm.capacity * 2 } contact.phone (-1) = 1 :=
      is_duplicate_phone_loop_one _ _ _ hdup
    rw [if_neg (by decide), if_pos (by rw [hd]; decide)]
    exact ⟨_, rfl, rfl, rfl, rfl⟩
  · simp only [hge, if_false]
    have hd : is_duplicate_phone cm contact.phone (-1) = 1 :=
      is_duplicate_phone_loop_one _ _ _ hdup
    rw [if_neg (by decide), if_pos (by rw [hd]; decide)]
    exact ⟨_, rfl, rfl, rfl, rfl⟩

/-- The sample managers are reached from `init_contact_manager`, up to the
one with ten contacts, which fills the initial array. -/
theorem reached_sample_manager : reached true (sample_manager 10) := by
  have h0 : reached true (sample_manager 0) := reached.init
  have step : ∀ n : Nat, ∀ phone : String, ∀ cm1 : ContactManager,
      reached true (sample_manager n) →
      add_contact (sample_manager n) { sample_contact with phone := phone } true 0 0
        = some ((n : Int) + 1, cm1) → (n : Int) + 1 < INT_MAX → reached true cm1 :=
    fun n phone cm1 h hadd hlt =>
      reached.add _ _ true 0 0 _ cm1 h hadd (fun _ => Or.inl hlt)
  have h1 : reached true (sample_manager 1) := step 0 "5550001" _ h0 (by decide) (by decide)
  have h2 : reached true (sample_manager 2) := step 1 "5550002" _ h1 (by decide) (by decide)
  have h3 : reached true (sample_manager 3) := step 2 "5550003" _ h2 (by decide) (by decide)
  have h4 : reached true (sample_manager 4) := step 3 "5550004" _ h3 (by decide) (by decide)
  have h5 : reached true (sample_manager 5) := step 4 "5550005" _ h4 (by decide) (by decide)
  have h6 : reached true (sample_manager 6) := step 5 "5550006" _ h5 (by decide) (by decide)
  have h7 : reached true (sample_manager 7) := step 6 "5550007" _ h6 (by decide) (by decide)
  have h8 : reached true (sample_manager 8) := step 7 "5550008" _ h7 (by decide) (by decide)
  have h9 : reached true (sample_manager 9) := step 8 "5550009" _ h8 (by decide) (by decide)
  exact step 9 "5550010" _ h9 (by decide) (by decide)

set_option maxRecDepth 100000 in
/-- C21 (counterexample): the manager with ten contacts fills its array of
`INITIAL_CAPACITY` entries; when `realloc` fails there, `add_contact` returns
0, not -1, for a contact with a stored phone. And a stored contact with the
id -1 is passed over by `is_duplicate_phone(cm, phone, -1)`: a contact with
its phone is added. -/
theorem add_contact_duplicate_phone_counterexample :
    (reached true (sample_manager 10) ∧ (sample_manager 10).count < MAX_CONTACTS ∧
      (∃ c ∈ (sample_manager 10).contacts, c.phone = "5550001") ∧
      add_contact (sample_manager 10) { sample_contact with phone := "5550001" } false 0 0
        = some (0, sample_manager 10)) ∧
    ((∃ c ∈ [{ sample_contact with id := -1 }], c.phone = sample_contact.phone) ∧
      add_contact ⟨[{ sample_contact with id := -1 }], INITIAL_CAPACITY, 2⟩ sample_contact true 0 0
        = some (2, ⟨[{ sample_contact with id := -1 }, { sample_contact with id := 2 }],
            INITIAL_CAPACITY, 3⟩)) :=
  ⟨⟨reached_sample_manager, by decide, by decide, by decide⟩, by decide, by decide⟩

set_option maxRecDepth 100000 in
/-- C21 (witness): in the full manager with ten contacts, with `realloc`
succeeding, a contact with the phone of the third entry is refused with -1;
only the capacity has doubled. -/
theorem add_contact_duplicate_phone_witness :
    add_contact (sample_manager 10) { sample_contact with phone := "5550003" } true 0 0
      = some (-1, { sample_manager 10 with capacity := 20 }) ∧
    ∃ cm1, add_contact (sample_manager 10) { sample_contact with phone := "5550003" } true 0 0
        = some (-1, cm1) ∧
      cm1.contacts = (sample_manager 10).contacts ∧ cm1.count = (sample_manager 10).count ∧
      cm1.next_id = (sample_manager 10).next_id :=
  ⟨by decide,
   add_contact_duplicate_phone (sample_manager 10) { sample_contact with phone := "5550003" } 0 0
     (by decide) (by decide) (by decide)⟩

/-- No stored contact with an id other than the excluded one holds the phone:
`is_duplicate_phone` returns 0. -/
theorem is_duplicate_phone_loop_excluded (phone : String) (exclude_id : Int) :
    ∀ l : List Contact, (∀ c ∈ l, c.id ≠ exclude_id → c.phone ≠ phone) →
      is_duplicate_phone_loop phone exclude_id l = 0
  | [], _ => rfl
  | c :: rest, h => by
    rw [is_duplicate_phone_loop,
      if_neg (fun hc => h c (List.mem_cons_self _ _) hc.1 hc.2)]
    exact is_duplicate_phone_loop_excluded phone exclude_id rest
      (fun x hx => h x (List.mem_cons_of_mem _ hx))

/-- C22: for every manager, every stored id and every replacement contact
whose phone no stored contact with another id holds, `update_contact` returns
1 and puts the replacement in the place of the first entry with the id, with
the id and the creation time of that entry (and the time of the call as time
of modification); the entries before and after it, `count`, `capacity` and
`next_id` stay as they are. For an id that is not stored it returns 0 and
changes nothing. -/
theorem update_contact_replaces (cm : ContactManager) (id : Int) (contact : Contact)
    (now : Int) :
    ((∃ c ∈ cm.contacts, c.id = id) →
      (∀ c ∈ cm.contacts, c.id ≠ id → c.phone ≠ contact.phone) →
      ∃ pre old post, cm.contacts = pre ++ old :: post ∧ old.id = id ∧
        (∀ c ∈ pre, c.id ≠ id) ∧
        update_contact cm id contact now
          = (1, ⟨pre ++ { contact with id := id, created := old.created, modified := now } :: post,
              cm.capacity, cm.next_id⟩) ∧
        (update_contact cm id contact now).2.count = cm.count) ∧
    ((∀ c ∈ cm.contacts, c.id ≠ id) → update_contact cm id contact now = (0, cm)) := by
  constructor
  · intro hs hphone
    obtain ⟨pre, old, post, hl, hold, hpre⟩ := exists_first id cm.contacts hs
    have hf : find_index id cm.contacts 0 = some pre.length := by
      rw [hl, find_index_first id old hold post pre 0 hpre, Nat.zero_add]
    have hd : is_duplicate_phone cm contact.phone id = 0 :=
      is_duplicate_phone_loop_excluded _ _ _ hphone
    have hget : cm.contacts.getD pre.length contact = old := by
      rw [hl, List.getD_eq_getElem?_getD, List.getElem?_append_right (le_refl _)]
      simp
    have hset : ∀ e : Contact, cm.contacts.set pre.length e = pre ++ e :: post := by
      intro e
      rw [hl]
      simp
    have hrun : update_contact cm id contact now
        = (1, ⟨pre ++ { contact with id := id, created := old.created, modified := now } :: post,
            cm.capacity, cm.next_id⟩) := by
      rw [update_contact, hf]
      simp only
      rw [if_neg (by rw [hd]; decide), hget, hset]
    refine ⟨pre, old, post, hl, hold, hpre, hrun, ?_⟩
    rw [hrun]
    simp only [ContactManager.count, hl, List.length_append, List.length_cons]
  · intro hn
    rw [update_contact, find_index_none id cm.contacts 0 hn]

set_option maxRecDepth 100000 in
/-- C22 (witness): in the manager with three sample contacts the entry with
id 2 takes the new name and phone and keeps its id, its creation time and its
place; an id that is not stored gives 0. -/
theorem update_contact_replaces_witness :
    update_contact (sample_manager 3) 2
        { sample_contact with first_name := "Grace", phone := "5559999", created := 7 } 9
      = (1, ⟨[{ sample_contact with id := 1, phone := "5550001" },
              { sample_contact with
                id := 2, first_name := "Grace", phone := "5559999", created := 0, modified := 9 },
              { sample_contact with id := 3, phone := "5550003" }],
             INITIAL_CAPACITY, 4⟩) ∧
    update_contact (sample_manager 3) 5 sample_contact 9 = (0, sample_manager 3) ∧
    ∃ pre old post, (sample_manager 3).contacts = pre ++ old :: post ∧ old.id = 2 ∧
      (∀ c ∈ pre, c.id ≠ 2) ∧
      update_contact (sample_manager 3) 2
          { sample_contact with first_name := "Grace", phone := "5559999", created := 7 } 9
        = (1, ⟨pre ++ { sample_contact with
                  first_name := "Grace", phone := "5559999", id := 2,
                  created := old.created, modified := 9 } :: post,
            (sample_manager 3).capacity, (sample_manager 3).next_id⟩) ∧
      (update_contact (sample_manager 3) 2
          { sample_contact with first_name := "Grace", phone := "5559999", created := 7 } 9).2.count
        = (sample_manager 3).count :=
  ⟨by decide,
   (update_contact_replaces (sample_manager 3) 5 sample_contact 9).2 (by decide),
   (update_contact_replaces (sample_manager 3) 2
      { sample_contact with first_name := "Grace", phone := "5559999", created := 7 } 9).1
      (by decide) (by decide)⟩

/-- C23: for every manager and id: if a contact with the id is stored,
`delete_contact` returns 1 and removes the first entry with the id; the
entries before and after it stay, in their order; `count` goes down by one,
`capacity` and `next_id` stay. Otherwise it returns 0 and leaves the manager
as it is. -/
theorem delete_contact_removes (cm : ContactManager) (id : Int) :
    ((∃ c ∈ cm.contacts, c.id = id) →
      ∃ pre e post, cm.contacts = pre ++ e :: post ∧ e.id = id ∧ (∀ c ∈ pre, c.id ≠ id) ∧
        delete_contact cm id = (1, ⟨pre ++ post, cm.capacity, cm.next_id⟩) ∧
        (delete_contact cm id).2.count = cm.count - 1) ∧
    ((∀ c ∈ cm.contacts, c.id ≠ id) → delete_contact cm id = (0, cm)) := by
  constructor
  · intro hs
    obtain ⟨pre, e, post, hl, he, hpre⟩ := exists_first id cm.contacts hs
    have hrun := delete_contact_found cm id pre post e hl he hpre
    refine ⟨pre, e, post, hl, he, hpre, hrun, ?_⟩
    rw [hrun]
    simp only [ContactManager.count, hl, List.length_append, List.length_cons]
    push_cast
    omega
  · exact delete_contact_not_found cm id

set_option maxRecDepth 100000 in
/-- C23 (witness): deleting id 2 from the manager with four sample contacts
leaves the contacts 1, 3 and 4 in this order; deleting id 9 changes nothing. -/
theorem delete_contact_removes_witness :
    delete_contact (sample_manager 4) 2
      = (1, ⟨[{ sample_contact with id := 1, phone := "5550001" },
              { sample_contact with id := 3, phone := "5550003" },
              { sample_contact with id := 4, phone := "5550004" }], INITIAL_CAPACITY, 5⟩) ∧
    delete_contact (sample_manager 4) 9 = (0, sample_manager 4) ∧
    ∃ pre e post, (sample_manager 4).contacts = pre ++ e :: post ∧ e.id = 2 ∧
      (∀ c ∈ pre, c.id ≠ 2) ∧
      delete_contact (sample_manager 4) 2
        = (1, ⟨pre ++ post, (sample_manager 4).capacity, (sample_manager 4).next_id⟩) ∧
      (delete_contact (sample_manager 4) 2).2.count = (sample_manager 4).count - 1 :=
  ⟨by decide, (delete_contact_removes (sample_manager 4) 9).2 (by decide),
   (delete_contact_removes (sample_manager 4) 2).1 (by decide)⟩

end ContactBook

/-! # Theorems on the palindrome checker (C24) -/

namespace PalindromeChecker
open CInt

/-- Reading the character behind a prefix. -/
theorem char_at_append (A B : List Char) (c : Char) :
    char_at (A ++ c :: B) (A.length : Int) = c := by
  rw [char_at, Int.toNat_ofNat, List.getD_eq_getElem?_getD,
    List.getElem?_append_right (le_refl _)]
  simp

/-- An `int` inside the range is not changed by the wrap-around. -/
theorem wrap_int_of_range (x : Int) (h1 : -2147483648 ≤ x) (h2 : x ≤ 2147483647) :
    wrap_int x = x := by
  rw [wrap_int]; omega

/-- The left skip loop passes the non-alphanumeric characters `ns` and stops
at `c`. -/
theorem skip_left_spec (str : List Char) (right : Int) (hr : right ≤ 2147483647) :
    ∀ (ns A : List Char) (c : Char) (B : List Char) (fuel : Nat),
      str = A ++ ns ++ c :: B → (∀ x ∈ ns, isalnum x = false) →
      (isalnum c = true ∨ ((A.length + ns.length : Nat) : Int) = right) →
      ((A.length + ns.length : Nat) : Int) ≤ right → ns.length < fuel →
      skip_left fuel str (A.length : Int) right = some ((A.length + ns.length : Nat) : Int)
  | [], A, c, B, fuel, hstr, _, hc, hle, hf => by
    obtain ⟨fuel, rfl⟩ : ∃ k, fuel = k + 1 := ⟨fuel - 1, by simp at hf; omega⟩
    rw [skip_left]
    have hch : char_at str (A.length : Int) = c := by
      rw [hstr, List.append_nil]
      exact char_at_append A B c
    rw [if_neg]
    · simp
    · rintro ⟨h1, h2⟩
      rw [hch] at h2
      rcases hc with hc | hc
      · rw [hc] at h2
        cases h2
      · simp at hc
        omega
  | n :: ns, A, c, B, fuel, hstr, hns, hc, hle, hf => by
    obtain ⟨fuel, rfl⟩ : ∃ k, fuel = k + 1 := ⟨fuel - 1, by simp at hf; omega⟩
    rw [skip_left]
    have hch : char_at str (A.length : Int) = n := by
      rw [hstr, List.append_assoc, List.cons_append]
      exact char_at_append A _ n
    simp only [List.length_cons] at hle hc hf
    rw [if_pos ⟨by push_cast at hle; omega, by rw [hch]; exact hns n (List.mem_cons_self _ _)⟩]
    rw [wrap_int_of_range _ (by omega) (by push_cast at hle; omega)]
    have := skip_left_spec str right hr ns (A ++ [n]) c B fuel (by rw [hstr]; simp)
      (fun x hx => hns x (List.mem_cons_of_mem _ hx))
      (by
        rcases hc with hc | hc
        · exact Or.inl hc
        · right
          rw [← hc]
          simp only [List.length_append, List.length_singleton]
          push_cast
          omega)
      (by
        simp only [List.length_append, List.length_singleton]
        push_cast at hle ⊢
        omega)
      (by omega)
    simp only [List.length_append, List.length_singleton] at this
    push_cast at this
    rw [this]
    simp only [List.length_cons]
    push_cast
    congr 1
    omega

/-- The right skip loop passes the non-alphanumeric characters `ms` and stops
at `b`. -/
theorem skip_right_spec (str : List Char) (left : Int) (F : List Char) (b : Char)
    (hl : left ≤ (F.length : Int)) (hb : isalnum b = true ∨ left = (F.length : Int)) :
    ∀ (ms P : List Char) (fuel : Nat),
      str = F ++ b :: ms ++ P → (∀ x ∈ ms, isalnum x = false) →
      ((F.length + ms.length : Nat) : Int) ≤ 2147483647 → ms.length < fuel →
      skip_right fuel str left ((F.length + ms.length : Nat) : Int) = some (F.length : Int) := by
  intro ms
  induction ms using List.reverseRecOn with
  | nil =>
    intro P fuel hstr _ _ hf
    obtain ⟨fuel, rfl⟩ : ∃ k, fuel = k + 1 := ⟨fuel - 1, by simp at hf; omega⟩
    rw [skip_right]
    have hch : char_at str (F.length : Int) = b := by
      rw [hstr, List.append_assoc]
      exact char_at_append F _ b
    simp only [List.length_nil, Nat.add_zero]
    rw [if_neg]
    rintro ⟨h1, h2⟩
    rw [hch] at h2
    rcases hb with hb | hb
    · rw [hb] at h2
      cases h2
    · omega
  | append_singleton ms m ih =>
    intro P fuel hstr hms hle hf
    obtain ⟨fuel, rfl⟩ : ∃ k, fuel = k + 1 := ⟨fuel - 1, by simp at hf; omega⟩
    simp only [List.length_append, List.length_singleton] at hle hf ⊢
    rw [skip_right]
    have hch : char_at str ((F.length + (ms.length + 1) : Nat) : Int) = m := by
      have h1 : str = (F ++ b :: ms) ++ m :: P := by rw [hstr]; simp
      have h2 : F.length + (ms.length + 1) = (F ++ b :: ms).length := by simp
      rw [h1, h2]
      exact char_at_append _ P m
    rw [if_pos ⟨by push_cast; omega, by
      rw [hch]; exact hms m (List.mem_append_right _ (List.mem_singleton_self m))⟩]
    rw [wrap_int_of_range _ (by push_cast; omega) (by omega)]
    have := ih (m :: P) fuel (by rw [hstr]; simp)
      (fun x hx => hms x (List.mem_append_left _ hx)) (by push_cast at hle ⊢; omega) (by omega)
    rw [← this]
    congr 1
    push_cast
    omega

/-- A non-empty string is a run of non-alphanumeric characters followed by a
character that is alphanumeric or the last one. -/
theorem split_left : ∀ w : List Char, w ≠ [] →
    ∃ ns c rest, w = ns ++ c :: rest ∧ (∀ x ∈ ns, isalnum x = false) ∧
      (isalnum c = true ∨ rest = [])
  | [], h => absurd rfl h
  | [x], _ => ⟨[], x, [], rfl, (fun _ hx => by cases hx), Or.inr rfl⟩
  | x :: y :: t, _ => by
    by_cases hx : isalnum x = true
    · exact ⟨[], x, y :: t, rfl, (fun _ h => by cases h), Or.inl hx⟩
    · obtain ⟨ns, c, rest, h1, h2, h3⟩ := split_left (y :: t) (List.cons_ne_nil _ _)
      refine ⟨x :: ns, c, rest, by rw [h1]; rfl, ?_, h3⟩
      intro z hz
      rcases List.mem_cons.mp hz with rfl | hz
      · simpa using hx
      · exact h2 z hz

/-- A string has no alphanumeric character, or it ends with an alphanumeric
character followed by a run of non-alphanumeric characters. -/
theorem split_right : ∀ w : List Char,
    (∀ x ∈ w, isalnum x = false) ∨
    ∃ mid b ms, w = mid ++ b :: ms ∧ isalnum b = true ∧ (∀ x ∈ ms, isalnum x = false)
  | [] => Or.inl (fun _ hx => by cases hx)
  | x :: t => by
    rcases split_right t with h | ⟨mid, b, ms, h1, h2, h3⟩
    · by_cases hx : isalnum x = true
      · exact Or.inr ⟨[], x, t, rfl, hx, h⟩
      · left
        intro z hz
        rcases List.mem_cons.mp hz with rfl | hz
        · simpa using hx
        · exact h z hz
    · exact Or.inr ⟨x :: mid, b, ms, by rw [h1]; rfl, h2, h3⟩

/-- Non-alphanumeric characters leave no trace in the normal form. -/
theorem normal_form_of_not_alnum (ns : List Char) (h : ∀ x ∈ ns, isalnum x = false) :
    normal_form ns = [] := by
  rw [normal_form, List.filter_eq_nil_iff.mpr (fun x hx => by simp [h x hx])]
  rfl

/-- The normal form of a concatenation. -/
theorem normal_form_append (u v : List Char) :
    normal_form (u ++ v) = normal_form u ++ normal_form v := by
  simp [normal_form]

/-- The normal form of a string that starts with an alphanumeric character. -/
theorem normal_form_cons (c : Char) (l : List Char) (h : isalnum c = true) :
    normal_form (c :: l) = tolower c :: normal_form l := by
  simp [normal_form, h]

/-- A string with at most one character is its own reverse. -/
theorem reverse_eq_of_length_le_one : ∀ l : List Char, l.length ≤ 1 → l = l.reverse
  | [], _ => rfl
  | [_], _ => rfl
  | _ :: _ :: _, h => by simp at h

/-- A string `x l y` is its own reverse exactly when `x = y` and `l` is its
own reverse. -/
theorem cons_append_reverse_iff (x y : Char) (l : List Char) :
    x :: (l ++ [y]) = (x :: (l ++ [y])).reverse ↔ x = y ∧ l = l.reverse := by
  have hrev : (x :: (l ++ [y])).reverse = y :: (l.reverse ++ [x]) := by simp
  rw [hrev]
  constructor
  · intro h
    have h1 : x = y := (List.cons.inj h).1
    have h2 : l ++ [y] = l.reverse ++ [x] := (List.cons.inj h).2
    have h3 := List.append_inj_left' h2 rfl
    exact ⟨h1, h3⟩
  · rintro ⟨rfl, h2⟩
    rw [← h2]

/-- The loop of `is_palindrome` on the window `w` of the string, between the
characters `A` before it and `P` after it: it ends, with 1 exactly when the
normal form of the window is its own reverse. -/
theorem is_palindrome_loop_spec (str : List Char) (hlen : str.length ≤ 2147483646) :
    ∀ (n : Nat) (w A P : List Char) (fuel : Nat) (left right : Int),
      w.length ≤ n → str = A ++ w ++ P → w.length < fuel →
      left = (A.length : Int) → right = (A.length : Int) + (w.length : Int) - 1 →
      is_palindrome_loop fuel str left right
        = some (if normal_form w = (normal_form w).reverse then 1 else 0) := by
  intro n
  induction n with
  | zero =>
    intro w A P fuel left right hn hstr hf hleft hright
    obtain ⟨fuel, rfl⟩ : ∃ k, fuel = k + 1 := ⟨fuel - 1, by omega⟩
    have hw : w = [] := List.length_eq_zero.mp (by omega)
    subst hw
    rw [is_palindrome_loop, if_neg (by simp at hright; omega)]
    simp [normal_form]
  | succ n ih =>
    intro w A P fuel left right hn hstr hf hleft hright
    obtain ⟨fuel, rfl⟩ : ∃ k, fuel = k + 1 := ⟨fuel - 1, by omega⟩
    have hstrlen : str.length = A.length + w.length + P.length := by
      rw [hstr]; simp; omega
    by_cases hw1 : w.length ≤ 1
    · rw [is_palindrome_loop, if_neg (by omega)]
      have hnf : (normal_form w).length ≤ 1 := by
        rw [normal_form, List.length_map]
        exact le_trans (List.length_filter_le _ _) hw1
      rw [if_pos (reverse_eq_of_length_le_one _ hnf)]
    · have hw2 : 2 ≤ w.length := by omega
      have hwne : w ≠ [] := by
        intro h
        rw [h] at hw2
        simp at hw2
      obtain ⟨ns, c, rest1, hw, hns, hc⟩ := split_left w hwne
      have hwlen : w.length = ns.length + (rest1.length + 1) := by
        rw [hw]; simp
      have hr : right ≤ 2147483647 := by omega
      have hskl : skip_left (str.length + 1) str left right
          = some ((A.length + ns.length : Nat) : Int) := by
        rw [hleft]
        refine skip_left_spec str right hr ns A c (rest1 ++ P) (str.length + 1)
          (by rw [hstr, hw]; simp) hns ?_ (by push_cast; omega) (by omega)
        rcases hc with hc | hc
        · exact Or.inl hc
        · right
          rw [hc] at hwlen
          simp at hwlen
          push_cast
          omega
      have hchl : char_at str ((A.length + ns.length : Nat) : Int) = c := by
        have h1 : str = (A ++ ns) ++ c :: (rest1 ++ P) := by rw [hstr, hw]; simp
        have h2 : A.length + ns.length = (A ++ ns).length := by simp
        rw [h1, h2]
        exact char_at_append _ _ c
      rw [is_palindrome_loop, if_pos (by omega), hskl]
      simp only
      rcases split_right rest1 with hall | ⟨mid, b, ms, hrest, hb, hms⟩
      · -- only `c` can be alphanumeric: both indices meet at `c`
        have hskr : skip_right (str.length + 1) str ((A.length + ns.length : Nat) : Int) right
            = some ((A.length + ns.length : Nat) : Int) := by
          have h := skip_right_spec str ((A.length + ns.length : Nat) : Int) (A ++ ns) c
            (by simp) (Or.inr (by simp)) rest1 P (str.length + 1)
            (by rw [hstr, hw]; simp) hall (by simp; omega) (by omega)
          have e1 : (((A ++ ns).length + rest1.length : Nat) : Int) = right := by
            simp only [List.length_append]
            push_cast
            omega
          have e2 : (((A ++ ns).length : Nat) : Int) = ((A.length + ns.length : Nat) : Int) := by
            simp
          rw [e1, e2] at h
          exact h
        rw [hskr]
        simp only [ne_eq, not_true_eq_false, if_false]
        obtain ⟨fuel, rfl⟩ : ∃ k, fuel = k + 1 := ⟨fuel - 1, by omega⟩
        rw [wrap_int_of_range _ (by push_cast; omega) (by push_cast; omega),
          wrap_int_of_range _ (by push_cast; omega) (by push_cast; omega),
          is_palindrome_loop, if_neg (by omega)]
        have hnf : (normal_form w).length ≤ 1 := by
          rw [hw, normal_form_append, normal_form_of_not_alnum ns hns, List.nil_append,
            show c :: rest1 = [c] ++ rest1 from rfl, normal_form_append,
            normal_form_of_not_alnum rest1 hall, List.append_nil, normal_form, List.length_map]
          exact List.length_filter_le _ _
        rw [if_pos (reverse_eq_of_length_le_one _ hnf)]
      · -- `c` and `b` are alphanumeric and are compared
        have hcal : isalnum c = true := by
          rcases hc with hc | hc
          · exact hc
          · rw [hc] at hrest
            simp at hrest
        have hrlen : rest1.length = mid.length + (ms.length + 1) := by
          rw [hrest]; simp
        have hskr : skip_right (str.length + 1) str ((A.length + ns.length : Nat) : Int) right
            = some ((A.length + ns.length + 1 + mid.length : Nat) : Int) := by
          have h := skip_right_spec str ((A.length + ns.length : Nat) : Int)
            (A ++ ns ++ c :: mid) b (by simp; omega) (Or.inl hb) ms P (str.length + 1)
            (by rw [hstr, hw, hrest]; simp) hms (by simp; omega) (by omega)
          have e1 : (((A ++ ns ++ c :: mid).length + ms.length : Nat) : Int) = right := by
            simp only [List.length_append, List.length_cons]
            push_cast
            omega
          have e2 : (((A ++ ns ++ c :: mid).length : Nat) : Int)
              = ((A.length + ns.length + 1 + mid.length : Nat) : Int) := by
            simp only [List.length_append, List.length_cons]
            push_cast
            omega
          rw [e1, e2] at h
          exact h
        have hchr : char_at str ((A.length + ns.length + 1 + mid.length : Nat) : Int) = b := by
          have h1 : str = (A ++ ns ++ c :: mid) ++ b :: (ms ++ P) := by
            rw [hstr, hw, hrest]; simp
          have h2 : A.length + ns.length + 1 + mid.length = (A ++ ns ++ c :: mid).length := by
            simp; omega
          rw [h1, h2]
          exact char_at_append _ _ b
        have hnf : normal_form w = tolower c :: (normal_form mid ++ [tolower b]) := by
          rw [hw, hrest, normal_form_append, normal_form_of_not_alnum ns hns, List.nil_append,
            normal_form_cons c _ hcal, normal_form_append, normal_form_cons b _ hb,
            normal_form_of_not_alnum ms hms]
        rw [hskr]
        simp only [hchl, hchr]
        by_cases hcmp : tolower c = tolower b
        · rw [if_neg (by simp [hcmp])]
          rw [wrap_int_of_range _ (by push_cast; omega) (by push_cast; omega),
            wrap_int_of_range _ (by push_cast; omega) (by push_cast; omega)]
          rw [ih mid (A ++ ns ++ [c]) (b :: ms ++ P) fuel _ _ (by omega)
            (by rw [hstr, hw, hrest]; simp) (by omega)
            (by simp only [List.length_append, List.length_singleton]; push_cast; omega)
            (by simp only [List.length_append, List.length_singleton]; push_cast; omega)]
          rw [hnf]
          congr 1
          by_cases hp : normal_form mid = (normal_form mid).reverse
          · rw [if_pos hp, if_pos ((cons_append_reverse_iff _ _ _).mpr ⟨hcmp, hp⟩)]
          · rw [if_neg hp, if_neg (fun h => hp ((cons_append_reverse_iff _ _ _).mp h).2)]
        · rw [if_pos (by simpa using hcmp)]
          rw [hnf, if_neg (fun h => hcmp ((cons_append_reverse_iff _ _ _).mp h).1)]

/-- The loop of `normalize_string` appends the normal form of the rest of the
string to `temp`, as long as `temp[100]` can hold it. -/
theorem normalize_loop_spec : ∀ (str temp : List Char),
    temp.length + (normal_form str).length ≤ 100 →
    normalize_loop str temp = some (temp ++ normal_form str)
  | [], temp, _ => by simp [normalize_loop, normal_form]
  | c :: rest, temp, h => by
    rw [normalize_loop]
    by_cases hc : isalnum c = true
    · rw [normal_form_cons c rest hc] at h ⊢
      simp only [List.length_cons] at h
      rw [if_pos hc, if_pos (by omega),
        normalize_loop_spec rest (temp ++ [tolower c]) (by simp; omega)]
      simp
    · have hn : normal_form (c :: rest) = normal_form rest := by
        simp [normal_form, hc]
      rw [hn] at h ⊢
      rw [if_neg hc, normalize_loop_spec rest temp h]

/-- The function `normalize_string` leaves the normal form of a string shorter
than 100 characters. -/
theorem normalize_string_eq (str : List Char) (h : str.length < 100) :
    normalize_string str = some (normal_form str) := by
  have hle : (normal_form str).length ≤ str.length := by
    rw [normal_form, List.length_map]
    exact List.length_filter_le _ _
  rw [normalize_string, normalize_loop_spec str [] (by simp; omega)]
  simp only [List.nil_append]
  rw [if_pos (by omega)]

/-- The function `is_palindrome` ends, with 1 exactly when the normal form of
the string is its own reverse. -/
theorem is_palindrome_eq (str : List Char) (h : str.length ≤ 2147483646) :
    is_palindrome str
      = some (if normal_form str = (normal_form str).reverse then 1 else 0) := by
  rw [is_palindrome, wrap_int_of_range _ (by omega) (by omega)]
  exact is_palindrome_loop_spec str h str.length str [] [] (str.length + 1) 0 _ (le_refl _)
    (by simp) (by omega) (by simp) (by simp)

/-- C24: for every string shorter than 100 characters, `normalize_string`
computes the string without its non-alphanumeric characters and in lower case,
and `is_palindrome` returns 1 exactly when that string equals its own reverse,
and 0 otherwise. -/
theorem is_palindrome_correct (str : List Char) (h : str.length < 100) :
    ∃ t, normalize_string str = some t ∧ t = (str.filter isalnum).map tolower ∧
      ((is_palindrome str = some 1 ∧ t = t.reverse) ∨
       (is_palindrome str = some 0 ∧ t ≠ t.reverse)) := by
  refine ⟨normal_form str, normalize_string_eq str h, rfl, ?_⟩
  rw [is_palindrome_eq str (by omega)]
  by_cases hp : normal_form str = (normal_form str).reverse
  · rw [if_pos hp]
    exact Or.inl ⟨rfl, hp⟩
  · rw [if_neg hp]
    exact Or.inr ⟨rfl, hp⟩

set_option maxRecDepth 100000 in
/-- C24 (witness): the three tests of `main`: "A man a plan a canal Panama"
and "racecar" are accepted, "hello" is rejected. -/
theorem is_palindrome_correct_witness :
    is_palindrome "A man a plan a canal Panama".toList = some 1 ∧
    normalize_string "A man a plan a canal Panama".toList
      = some "amanaplanacanalpanama".toList ∧
    is_palindrome "racecar".toList = some 1 ∧
    is_palindrome "hello".toList = some 0 ∧
    ∃ t, normalize_string "A man a plan a canal Panama".toList = some t ∧
      t = ("A man a plan a canal Panama".toList.filter isalnum).map tolower ∧
      ((is_palindrome "A man a plan a canal Panama".toList = some 1 ∧ t = t.reverse) ∨
       (is_palindrome "A man a plan a canal Panama".toList = some 0 ∧ t ≠ t.reverse)) :=
  ⟨by decide, by decide, by decide, by decide,
   is_palindrome_correct "A man a plan a canal Panama".toList (by decide)⟩

end PalindromeChecker

/-! # Theorems on the option scan of every command line (C5, C12) -/

namespace DevTools

theorem option_events_dashes (p : Bool) (rest : List String) :
    option_events p ("--" :: rest) = [] := by
  cases rest <;> simp [option_events]

theorem option_events_nonoption (p : Bool) (arg : String) (rest : List String)
    (hne : arg ≠ "--") (h : NONOPTION_P arg = true) :
    option_events p (arg :: rest) = if p then [] else option_events p rest := by
  cases rest <;> simp [option_events, hne, h]

theorem option_events_takes_next (p : Bool) (arg : String) (rest : List String)
    (hne : arg ≠ "--") (h : ¬ NONOPTION_P arg = true) (ht : takes_next arg = true) :
    option_events p (arg :: rest) =
      match rest with
      | [] => [.unknown]
      | file :: rest1 => .config file :: option_events p rest1 := by
  cases rest <;> simp [option_events, hne, h, ht]

theorem option_events_long (p : Bool) (arg : String) (rest : List String) (nc : List Char)
    (hne : arg ≠ "--") (h : ¬ NONOPTION_P arg = true) (ht : ¬ takes_next arg = true)
    (hdata : arg.data = '-' :: '-' :: nc) :
    option_events p (arg :: rest) = long_event nc :: option_events p rest := by
  cases rest <;> simp [option_events, hne, h, ht, hdata]

theorem option_events_short (p : Bool) (arg : String) (rest : List String) (c0 c : Char)
    (cs : List Char) (hne : arg ≠ "--") (h : ¬ NONOPTION_P arg = true)
    (ht : ¬ takes_next arg = true) (hdata : arg.data = c0 :: c :: cs)
    (hc : ∀ nc, arg.data = '-' :: '-' :: nc → False) :
    option_events p (arg :: rest) = (c :: cs).map short_event ++ option_events p rest := by
  cases rest <;>
  · simp only [option_events, hne, h, ht, if_false, Bool.false_eq_true]
    split
    · rename_i nc hd
      exact absurd hd (fun e => hc nc e)
    · rename_i x xs hx hd
      rw [hdata] at hd
      injection hd with _ e2
      rw [← e2]
    · rename_i hd
      rw [hdata] at hd
      cases hd

/-- Passing over the leading non-options does not change the options the
permuting scan meets. -/
theorem option_events_dropWhile (l : List String) :
    option_events false (l.dropWhile NONOPTION_P) = option_events false l := by
  induction l with
  | nil => rfl
  | cons a l ih =>
    by_cases h : NONOPTION_P a = true
    · have hne : a ≠ "--" := by rintro rfl; exact absurd h (by decide)
      rw [List.dropWhile_cons, if_pos h, ih, option_events_nonoption _ _ _ hne h]
      rfl
    · rw [List.dropWhile_cons, if_neg h]

/-- The value `getopt_long` returns for a short option character is the one
for the option the character stands for. -/
theorem short_option_event (d : GetoptState) (c : Char) (cs : List Char) :
    returned_for (short_option d c cs).1 (short_option d c cs).2.optarg (short_event c) ∧
    (short_option d c cs).2.nextchar = cs ∧ (short_option d c cs).2.rest = d.rest := by
  unfold short_option short_event
  simp only
  by_cases h1 : c = 'h'
  · subst h1
    rw [if_pos (by decide), if_pos rfl]
    exact ⟨rfl, rfl, rfl⟩
  · by_cases h2 : c = 'v'
    · subst h2
      rw [if_pos (by decide), if_neg (by decide), if_pos rfl]
      exact ⟨rfl, rfl, rfl⟩
    · by_cases h3 : c = 'q'
      · subst h3
        rw [if_pos (by decide), if_neg (by decide), if_neg (by decide), if_pos rfl]
        exact ⟨rfl, rfl, rfl⟩
      · have hmem : ¬ (c ∈ optstring ∧ c ≠ ':' ∧ c ≠ ';') := by
          rintro ⟨hm, _⟩
          simp only [optstring, List.mem_cons, List.mem_singleton, List.not_mem_nil,
            or_false] at hm
          rcases hm with h | h | h
          · exact h1 h
          · exact h2 h
          · exact h3 h
        rw [if_neg hmem, if_neg h1, if_neg h2, if_neg h3]
        exact ⟨rfl, rfl, rfl⟩

/-- The entries of the table of long options, by what the scan needs of them. -/
theorem long_options_cases (q : LongOption) (h : q ∈ long_options) :
    (q.has_arg = no_argument ∧ q.name ≠ "config" ∧
      returned_for q.val none (event_of_name q.name)) ∨
    (q.has_arg = required_argument ∧ q.name = "config" ∧ q.val = 'c'.toNat) := by
  simp only [long_options, List.mem_cons, List.mem_singleton, List.not_mem_nil, or_false] at h
  rcases h with rfl | rfl | rfl | rfl | rfl | rfl
  · exact Or.inl ⟨rfl, by decide, by simp [event_of_name, returned_for]⟩
  · exact Or.inl ⟨rfl, by decide, by simp [event_of_name, returned_for]⟩
  · exact Or.inl ⟨rfl, by decide, by simp [event_of_name, returned_for]⟩
  · exact Or.inl ⟨rfl, by decide, by simp [event_of_name, returned_for]⟩
  · exact Or.inl ⟨rfl, by decide, by simp [event_of_name, returned_for]⟩
  · exact Or.inr ⟨rfl, rfl, rfl⟩

theorem long_event_found_nil (nc : List Char) (q : LongOption)
    (h1 : find_long_option long_options (nc.takeWhile (fun c => c != '=')) = .found q)
    (h2 : nc.dropWhile (fun c => c != '=') = []) : long_event nc = event_of_name q.name := by
  unfold long_event
  rw [h1, h2]

theorem long_event_found_cons (nc : List Char) (q : LongOption) (x : Char) (value : List Char)
    (h1 : find_long_option long_options (nc.takeWhile (fun c => c != '=')) = .found q)
    (h2 : nc.dropWhile (fun c => c != '=') = x :: value) :
    long_event nc = if q.name = "config" then .config (String.mk value) else .unknown := by
  unfold long_event
  rw [h1, h2]

theorem long_event_not_found (nc : List Char)
    (h1 : ∀ q, find_long_option long_options (nc.takeWhile (fun c => c != '=')) ≠ .found q) :
    long_event nc = .unknown := by
  unfold long_event
  split
  · rename_i q hq _
    exact absurd hq (h1 q)
  · rename_i q _ _ hq _
    exact absurd hq (h1 q)
  · rfl

theorem takes_next_found_nil (arg : String) (nc : List Char) (q : LongOption)
    (hdata : arg.data = '-' :: '-' :: nc)
    (h1 : find_long_option long_options (nc.takeWhile (fun c => c != '=')) = .found q)
    (h2 : nc.dropWhile (fun c => c != '=') = []) :
    takes_next arg = (q.has_arg == required_argument) := by
  rw [takes_next_data arg nc hdata, h1, h2]

theorem takes_next_found_cons (arg : String) (nc : List Char) (x : Char) (value : List Char)
    (hdata : arg.data = '-' :: '-' :: nc)
    (h2 : nc.dropWhile (fun c => c != '=') = x :: value) :
    takes_next arg = false := by
  rw [takes_next_data arg nc hdata, h2]
  split
  · rename_i h
    cases h
  · rfl

theorem takes_next_not_found (arg : String) (nc : List Char)
    (hdata : arg.data = '-' :: '-' :: nc)
    (h1 : ∀ q, find_long_option long_options (nc.takeWhile (fun c => c != '=')) ≠ .found q) :
    takes_next arg = false := by
  rw [takes_next_data arg nc hdata]
  split
  · rename_i q hq _
    exact absurd hq (h1 q)
  · rfl

/-- The value `getopt_long` returns for a long option element is the one for
the option the element stands for, and the scan goes on behind the element
and its argument. -/
theorem process_long_option_event (p : Bool) (d0 : GetoptState) (arg : String)
    (rest : List String) (nc : List Char) (hdata : arg.data = '-' :: '-' :: nc)
    (hne : arg ≠ "--") (hopt : ¬ NONOPTION_P arg = true) :
    ∃ e, returned_for (process_long_option d0 arg rest nc).1
          (process_long_option d0 arg rest nc).2.optarg e ∧
      option_events p (arg :: rest)
        = e :: option_events p (process_long_option d0 arg rest nc).2.rest ∧
      (process_long_option d0 arg rest nc).2.nextchar = [] := by
  have hle : ∀ ev, long_event nc = ev →
      takes_next arg = false → option_events p (arg :: rest) = ev :: option_events p rest := by
    intro ev hev ht
    rw [option_events_long p arg rest nc hne hopt (by rw [ht]; decide) hdata, hev]
  unfold process_long_option
  simp only
  cases hf : find_long_option long_options (nc.takeWhile (fun c => c != '=')) with
  | ambiguous =>
    have hnf : ∀ q, find_long_option long_options (nc.takeWhile (fun c => c != '=')) ≠ .found q := by
      intro q hq
      rw [hf] at hq
      cases hq
    exact ⟨.unknown, rfl, hle _ (long_event_not_found nc hnf)
      (takes_next_not_found arg nc hdata hnf), rfl⟩
  | unrecognized =>
    have hnf : ∀ q, find_long_option long_options (nc.takeWhile (fun c => c != '=')) ≠ .found q := by
      intro q hq
      rw [hf] at hq
      cases hq
    exact ⟨.unknown, rfl, hle _ (long_event_not_found nc hnf)
      (takes_next_not_found arg nc hdata hnf), rfl⟩
  | found q =>
    have hq := long_options_cases q (find_long_option_mem _ _ _ hf)
    cases hend : nc.dropWhile (fun c => c != '=') with
    | cons x value =>
      simp only
      have hnt := takes_next_found_cons arg nc x value hdata hend
      have hlong := long_event_found_cons nc q x value hf hend
      rcases hq with ⟨h1, h2, _⟩ | ⟨h1, h2, h3⟩
      · rw [if_neg (by rw [h1]; decide)]
        rw [if_neg h2] at hlong
        exact ⟨.unknown, rfl, hle _ hlong hnt, rfl⟩
      · rw [if_pos (by rw [h1]; decide)]
        rw [if_pos h2] at hlong
        exact ⟨.config (String.mk value), ⟨h3, rfl⟩, hle _ hlong hnt, rfl⟩
    | nil =>
      simp only
      have htn := takes_next_found_nil arg nc q hdata hf hend
      have hlong := long_event_found_nil nc q hf hend
      rcases hq with ⟨h1, h2, h3⟩ | ⟨h1, h2, h3⟩
      · have hnt : takes_next arg = false := by rw [htn, h1]; decide
        rw [if_neg (by rw [h1]; decide)]
        exact ⟨event_of_name q.name, h3, hle _ hlong hnt, rfl⟩
      · have ht : takes_next arg = true := by rw [htn, h1]; decide
        rw [if_pos h1, option_events_takes_next p arg rest hne hopt ht]
        cases rest with
        | nil => exact ⟨.unknown, rfl, rfl, rfl⟩
        | cons a rest1 => exact ⟨.config a, ⟨h3, rfl⟩, rfl, rfl⟩

/-- The value returned for an option is not the -1 that ends the scan. -/
theorem returned_for_ne (c : Int) (o : Option String) (e : OptionEvent)
    (h : returned_for c o e) : c ≠ -1 := by
  cases e <;> simp only [returned_for] at h
  case config f =>
    rw [h.1]
    decide
  all_goals
    rw [h]
    decide

/-- One call of `getopt_long`: it ends the scan when no option is left to
meet, and else it returns the value for the next option and leaves the
options after it. -/
theorem getopt_long_events (p : Bool) (d : GetoptState) :
    ((getopt_long p d).1 = -1 → pending p d = []) ∧
    ((getopt_long p d).1 ≠ -1 →
      ∃ e, returned_for (getopt_long p d).1 (getopt_long p d).2.optarg e ∧
        pending p d = e :: pending p (getopt_long p d).2) := by
  unfold getopt_long
  split
  · rename_i c cs h
    obtain ⟨h1, h2, h3⟩ := short_option_event d c cs
    refine ⟨fun h5 => absurd h5 (returned_for_ne _ _ _ h1), fun _ => ⟨short_event c, h1, ?_⟩⟩
    simp only [pending, h, h2, h3, List.map_cons, List.cons_append]
  · rename_i h
    simp only
    generalize hd0 : (if p = true then { d with optarg := none }
      else { d with nonopts := d.nonopts ++ d.rest.takeWhile NONOPTION_P,
                    rest := d.rest.dropWhile NONOPTION_P, optarg := none } : GetoptState) = d0
    have hev : pending p d = option_events p d0.rest := by
      subst hd0
      simp only [pending, h, List.map_nil, List.nil_append]
      split
      · rfl
      · rename_i hp
        have hp : p = false := by simpa using hp
        subst hp
        exact (option_events_dropWhile d.rest).symm
    have hposix : p = false → ∀ a l, d0.rest = a :: l → ¬ NONOPTION_P a = true := by
      intro hp a l hl
      subst hd0 hp
      simp only [Bool.false_eq_true, if_false] at hl
      have := List.head_dropWhile_not NONOPTION_P d.rest (by rw [hl]; simp)
      simpa [hl] using this
    rw [hev]
    split
    · rename_i hrest
      refine ⟨fun _ => ?_, fun h1 => absurd rfl h1⟩
      rw [hrest]
      rfl
    · rename_i arg rest hrest
      rw [hrest]
      split
      · rename_i harg
        refine ⟨fun _ => ?_, fun h1 => absurd rfl h1⟩
        rw [harg, option_events_dashes]
      · rename_i hne
        split
        · rename_i hnon
          refine ⟨fun _ => ?_, fun h1 => absurd rfl h1⟩
          cases p with
          | false => exact absurd hnon (hposix rfl arg rest hrest)
          | true => rw [option_events_nonoption _ _ _ hne hnon]; rfl
        · rename_i hopt
          split
          · rename_i nc hdata
            obtain ⟨e, h1, h2, h3⟩ := process_long_option_event p d0 arg rest nc hdata hne hopt
            refine ⟨fun h5 => absurd h5 (returned_for_ne _ _ _ h1), fun _ => ⟨e, h1, ?_⟩⟩
            rw [h2]
            simp only [pending, h3, List.map_nil, List.nil_append]
          · rename_i c0 c cs hnot hdata
            obtain ⟨h1, h2, h3⟩ :=
              short_option_event { d0 with scanned := d0.scanned ++ [arg], rest := rest } c cs
            refine ⟨fun h5 => absurd h5 (returned_for_ne _ _ _ h1),
              fun _ => ⟨short_event c, h1, ?_⟩⟩
            have hdd : ∀ nc, arg.data = '-' :: '-' :: nc → False := by
              intro nc hd
              rw [hdata] at hd
              injection hd with e1 e2
              injection e2 with e3 _
              exact hnot e1 e3
            have htn : ¬ takes_next arg = true := by
              unfold takes_next
              split
              · rename_i nc2 hh
                exact absurd hh (fun e => hdd nc2 e)
              · decide
            rw [option_events_short p arg rest c0 c cs hne hopt htn hdata hdd]
            simp only [pending, h2, h3, List.map_cons, List.cons_append]
          · rename_i hx hy
            obtain ⟨c1, cs1, hd1⟩ := nonoption_data arg hopt
            by_cases hc : c1 = '-'
            · subst hc; exact absurd hd1 (hx cs1)
            · exact absurd hd1 (hy '-' c1 cs1)

/-- The loop of `parse_arguments` does what the documentation says of the
options still to meet: it ends; it ends with the scan finished when no option
stops it, with the unknown option or the exit at the first option that stops
it; and the configuration is then the documented one. -/
theorem parse_arguments_loop_events (p : Bool) (fuel : Nat) :
    ∀ (d : GetoptState) (g : DevToolsConfig), scan_measure d < fuel →
      ∃ res, parse_arguments_loop p fuel d g = some res ∧
        (∀ g1, scan_events g (pending p d) = (none, g1) → ∃ d1, res = .finished d1 g1) ∧
        (∀ g1, scan_events g (pending p d) = (some .unknown, g1) → res = .unknown_option g1) ∧
        (∀ e g1, scan_events g (pending p d) = (some e, g1) → e ≠ .unknown →
          ∃ c, res = .exit_success c g1) := by
  induction fuel with
  | zero => intro d g h; omega
  | succ n ih =>
    intro d g h
    obtain ⟨hend, hstep⟩ := getopt_long_events p d
    have hmeas := getopt_long_measure p d
    rw [parse_arguments_loop]
    generalize getopt_long p d = r at hend hstep hmeas
    obtain ⟨c, d1⟩ := r
    simp only at hend hstep hmeas ⊢
    by_cases hc : c = -1
    · rw [if_pos hc, hend hc]
      refine ⟨_, rfl, ?_, ?_, ?_⟩
      · intro g1 hg
        simp only [scan_events, Prod.mk.injEq, true_and] at hg
        exact ⟨d1, by rw [hg]⟩
      · intro g1 hg
        simp [scan_events] at hg
      · intro e g1 hg
        simp [scan_events] at hg
    · have hlt : scan_measure d1 < n := by
        rcases hmeas with h1 | h1
        · exact absurd h1 hc
        · omega
      obtain ⟨e, hret, hpend⟩ := hstep hc
      rw [hpend]
      cases e with
      | help =>
        simp only [returned_for] at hret
        subst hret
        rw [if_neg (by decide), if_pos rfl]
        refine ⟨_, rfl, ?_, ?_, ?_⟩
        · intro g1 hg
          simp [scan_events] at hg
        · intro g1 hg
          simp [scan_events] at hg
        · intro e g1 hg _
          simp only [scan_events, Prod.mk.injEq] at hg
          exact ⟨_, by rw [hg.2]⟩
      | verbose =>
        simp only [returned_for] at hret
        subst hret
        rw [if_neg (by decide), if_neg (by decide), if_pos rfl]
        simp only [scan_events]
        exact ih d1 _ hlt
      | quiet =>
        simp only [returned_for] at hret
        subst hret
        rw [if_neg (by decide), if_neg (by decide), if_neg (by decide), if_pos rfl]
        simp only [scan_events]
        exact ih d1 _ hlt
      | version =>
        simp only [returned_for] at hret
        subst hret
        rw [if_neg (by decide), if_neg (by decide), if_neg (by decide), if_neg (by decide),
          if_pos rfl]
        refine ⟨_, rfl, ?_, ?_, ?_⟩
        · intro g1 hg
          simp [scan_events] at hg
        · intro g1 hg
          simp [scan_events] at hg
        · intro e g1 hg _
          simp only [scan_events, Prod.mk.injEq] at hg
          exact ⟨_, by rw [hg.2]⟩
      | list_tools =>
        simp only [returned_for] at hret
        subst hret
        rw [if_neg (by decide), if_neg (by decide), if_neg (by decide), if_neg (by decide),
          if_neg (by decide), if_pos rfl]
        refine ⟨_, rfl, ?_, ?_, ?_⟩
        · intro g1 hg
          simp [scan_events] at hg
        · intro g1 hg
          simp [scan_events] at hg
        · intro e g1 hg _
          simp only [scan_events, Prod.mk.injEq] at hg
          exact ⟨_, by rw [hg.2]⟩
      | config file =>
        simp only [returned_for] at hret
        obtain ⟨hcv, hopt⟩ := hret
        subst hcv
        rw [if_neg (by decide), if_neg (by decide), if_neg (by decide), if_neg (by decide),
          if_neg (by decide), if_neg (by decide), if_pos rfl, hopt]
        simp only [scan_events]
        exact ih d1 _ hlt
      | unknown =>
        simp only [returned_for] at hret
        subst hret
        rw [if_neg (by decide), if_neg (by decide), if_neg (by decide), if_neg (by decide),
          if_neg (by decide), if_neg (by decide), if_neg (by decide), if_pos rfl]
        refine ⟨_, rfl, ?_, ?_, ?_⟩
        · intro g1 hg
          simp [scan_events] at hg
        · intro g1 hg
          simp only [scan_events, Prod.mk.injEq, true_and] at hg
          rw [hg]
        · intro e g1 hg hne
          simp only [scan_events, Prod.mk.injEq, Option.some.injEq] at hg
          exact absurd hg.1.symm hne

/-- On every command line `parse_arguments` gives the documented result. -/
theorem parse_arguments_eq_resolve (p : Bool) (ft : String → Option Tool)
    (g : DevToolsConfig) (argv : List String) :
    parse_arguments p ft g argv = some (resolve p ft g argv) := by
  unfold parse_arguments resolve
  simp only
  by_cases hargc : argv.length < 2
  · rw [if_pos (by exact_mod_cast hargc), if_pos hargc]
  · rw [if_neg (by exact_mod_cast hargc), if_neg hargc]
    obtain ⟨res, hres, h1, h2, h3⟩ := parse_arguments_loop_events p (scan_bound argv)
      (getopt_init argv) g (scan_measure_init argv)
    have hpend : pending p (getopt_init argv) = option_events p (argv.drop 1) := rfl
    rw [hpend] at h1 h2 h3
    rw [hres]
    generalize scan_events g (option_events p (argv.drop 1)) = se at h1 h2 h3
    obtain ⟨stop, g1⟩ := se
    cases stop with
    | none =>
      obtain ⟨d, hd⟩ := h1 g1 rfl
      subst hd
      simp only
      obtain ⟨hlen, hops⟩ := parse_arguments_loop_finished p _ _ _ _ _ hres
      rw [getopt_init_argv] at hlen
      simp only [getopt_init, List.nil_append] at hops
      have hal : d.argv.length = d.scanned.length + (operands p (argv.drop 1)).length := by
        rw [← hops]; simp [GetoptState.argv]
      cases hop : operands p (argv.drop 1) with
      | nil =>
        rw [hop] at hal
        simp only [List.length_nil, Nat.add_zero] at hal
        rw [if_pos (by simp only [GetoptState.optind]; omega)]
      | cons name args =>
        rw [hop] at hal
        simp only [List.length_cons] at hal
        rw [if_neg (by simp only [GetoptState.optind]; omega)]
        have hargv : d.argv = d.scanned ++ (name :: args) := by
          rw [← hop, ← hops]; simp [GetoptState.argv]
        have hget : d.argv.getD (d.optind).toNat "" = name := by
          rw [hargv]
          simp [GetoptState.optind, List.getD_eq_getElem?_getD, List.getElem_append_right]
        have hdrop : d.argv.drop (d.optind).toNat = name :: args := by
          rw [hargv]
          simp [GetoptState.optind]
        have hc : ((argv.length : Nat) : Int) - d.optind = (args.length : Int) + 1 := by
          simp only [GetoptState.optind]
          omega
        rw [hget, hdrop, hc]
        simp only
        cases ft name <;> rfl
    | some e =>
      by_cases he : e = .unknown
      · subst he
        rw [h2 g1 rfl]
      · obtain ⟨c, hc⟩ := h3 e g1 rfl he
        rw [hc]
        cases e <;> first | rfl | exact absurd rfl he

/-- C12: on every command line `parse_arguments` handles the global options
as documented. The options are those the scan meets, in order, wherever they
stand: in a cluster such as `-vq`, abbreviated, before or (without
`POSIXLY_CORRECT`) after non-options. Each `-v`/`--verbose` and `-q`/`--quiet`
it meets sets `verbose` resp. `quiet` to true and changes no other field, each
`--config FILE` stores the first 1023 characters of `FILE` in `config_file`
(`scan_events`); at the first `-h`/`--help`, `--version` or `--list-tools` the
process ends with status 0, whatever `find_tool` knows and whatever follows;
at the first unknown option the Command is the error "Unknown option"; and
when no option stops the scan a Command is returned, with the configuration so
set. -/
theorem parse_arguments_global_options_everywhere (p : Bool) (ft : String → Option Tool)
    (g : DevToolsConfig) (argv : List String) :
    (∀ e g1, scan_events g (option_events p (argv.drop 1)) = (some e, g1) → e ≠ .unknown →
      (e = .help ∨ e = .version ∨ e = .list_tools) ∧
      parse_arguments p ft g argv = some (.exited EXIT_SUCCESS, g1)) ∧
    (∀ g1, scan_events g (option_events p (argv.drop 1)) = (some .unknown, g1) →
      parse_arguments p ft g argv
        = some (.returned { tool := none, argc := 0, argv := [],
                            error := { code := ERROR_INVALID_ARGUMENT,
                                       message := "Unknown option" } }, g1)) ∧
    (∀ g1, scan_events g (option_events p (argv.drop 1)) = (none, g1) →
      ∃ cmd, parse_arguments p ft g argv = some (.returned cmd, g1)) := by
  have hev : ∀ (es : List OptionEvent) (g0 g1 : DevToolsConfig) (e : OptionEvent),
      scan_events g0 es = (some e, g1) → e ≠ .verbose ∧ e ≠ .quiet ∧ ∀ f, e ≠ .config f := by
    intro es
    induction es with
    | nil => intro g0 g1 e h; simp [scan_events] at h
    | cons x es ih =>
      intro g0 g1 e h
      cases x with
      | verbose => exact ih _ _ _ h
      | quiet => exact ih _ _ _ h
      | config f => exact ih _ _ _ h
      | help =>
        simp only [scan_events, Prod.mk.injEq, Option.some.injEq] at h
        rw [← h.1]
        exact ⟨(fun h2 => by cases h2), (fun h2 => by cases h2), (fun f h2 => by cases h2)⟩
      | version =>
        simp only [scan_events, Prod.mk.injEq, Option.some.injEq] at h
        rw [← h.1]
        exact ⟨(fun h2 => by cases h2), (fun h2 => by cases h2), (fun f h2 => by cases h2)⟩
      | list_tools =>
        simp only [scan_events, Prod.mk.injEq, Option.some.injEq] at h
        rw [← h.1]
        exact ⟨(fun h2 => by cases h2), (fun h2 => by cases h2), (fun f h2 => by cases h2)⟩
      | unknown =>
        simp only [scan_events, Prod.mk.injEq, Option.some.injEq] at h
        rw [← h.1]
        exact ⟨(fun h2 => by cases h2), (fun h2 => by cases h2), (fun f h2 => by cases h2)⟩
  rw [parse_arguments_eq_resolve]
  by_cases hargc : argv.length < 2
  · have hnil : argv.drop 1 = [] := by
      apply List.drop_eq_nil_of_le
      omega
    rw [hnil]
    simp only [option_events, scan_events, resolve, if_pos hargc]
    refine ⟨?_, ?_, ?_⟩
    · intro e g1 h
      simp at h
    · intro g1 h
      simp at h
    · intro g1 h
      simp only [Prod.mk.injEq, true_and] at h
      exact ⟨_, by rw [h]⟩
  · unfold resolve
    rw [if_neg hargc]
    refine ⟨?_, ?_, ?_⟩
    · intro e g1 h hne
      obtain ⟨h1, h2, h3⟩ := hev _ _ _ _ h
      rw [h]
      cases e with
      | verbose => exact absurd rfl h1
      | quiet => exact absurd rfl h2
      | config f => exact absurd rfl (h3 f)
      | unknown => exact absurd rfl hne
      | help => exact ⟨Or.inl rfl, rfl⟩
      | version => exact ⟨Or.inr (Or.inl rfl), rfl⟩
      | list_tools => exact ⟨Or.inr (Or.inr rfl), rfl⟩
    · intro g1 h
      rw [h]
      rfl
    · intro g1 h
      rw [h]
      simp only
      cases operands p (argv.drop 1) with
      | nil => exact ⟨_, rfl⟩
      | cons name args =>
        simp only
        cases ft name
        · exact ⟨_, rfl⟩
        · exact ⟨_, rfl⟩

set_option maxRecDepth 100000 in
/-- C12 (witness): `devtools -vq hash-generate --conf=my.rc a.txt --list-tools b`:
the cluster `-vq` sets both flags, the abbreviated `--conf=my.rc` behind the
tool name stores the file, and `--list-tools` ends the process with status 0. -/
theorem parse_arguments_global_options_everywhere_witness :
    option_events false ["-vq", "hash-generate", "--conf=my.rc", "a.txt", "--list-tools", "b"]
      = [.verbose, .quiet, .config "my.rc", .list_tools] ∧
    scan_events g_config_zero [.verbose, .quiet, .config "my.rc", .list_tools]
      = (some .list_tools,
         { g_config_zero with verbose := true, quiet := true, config_file := "my.rc" }) ∧
    parse_arguments false (find_tool builtin_tools) g_config_zero
        ["devtools", "-vq", "hash-generate", "--conf=my.rc", "a.txt", "--list-tools", "b"]
      = some (.exited EXIT_SUCCESS,
              { g_config_zero with verbose := true, quiet := true, config_file := "my.rc" }) :=
  ⟨by decide, by decide,
   ((parse_arguments_global_options_everywhere false (find_tool builtin_tools) g_config_zero
      ["devtools", "-vq", "hash-generate", "--conf=my.rc", "a.txt", "--list-tools", "b"]).1
      .list_tools _ (by decide) (by decide)).2⟩

/-- C5 (counterexample): three command lines that name no tool and do not
fail with "No tool specified": `devtools`, with no argument at all, fails with
"No arguments provided"; `devtools --help` does not fail, the process ends
with status 0; `devtools --bogus` fails with "Unknown option". -/
theorem parse_arguments_no_arguments_counterexample :
    parse_arguments false (find_tool builtin_tools) g_config_zero ["devtools"]
      = some (.returned { tool := none, argc := 0, argv := [],
                          error := { code := ERROR_INVALID_ARGUMENT,
                                     message := "No arguments provided" } }, g_config_zero) ∧
    parse_arguments true (find_tool builtin_tools) g_config_zero ["devtools"]
      = some (.returned { tool := none, argc := 0, argv := [],
                          error := { code := ERROR_INVALID_ARGUMENT,
                                     message := "No arguments provided" } }, g_config_zero) ∧
    "No arguments provided" ≠ "No tool specified" ∧
    operands false ["--help"] = [] ∧
    parse_arguments false (find_tool builtin_tools) g_config_zero ["devtools", "--help"]
      = some (.exited EXIT_SUCCESS, g_config_zero) ∧
    operands false ["--bogus"] = [] ∧
    parse_arguments false (find_tool builtin_tools) g_config_zero ["devtools", "--bogus"]
      = some (.returned { tool := none, argc := 0, argv := [],
                          error := { code := ERROR_INVALID_ARGUMENT,
                                     message := "Unknown option" } }, g_config_zero) := by
  decide

/-- C5 (amended): for every command line that names no tool (it has no
non-option token), `parse_arguments` returns no tool and fails with no other
kind than `ERROR_INVALID_ARGUMENT`: without any argument (`argc < 2`) the
message is "No arguments provided"; else, when the scan meets `-h`/`--help`,
`--version` or `--list-tools` before any unknown option, the process ends
with status 0; when it meets an unknown option first, the message is "Unknown
option"; and in every other case the message is "No tool specified", in
particular when the arguments are one or more of `-v`, `--verbose`, `-q`,
`--quiet`. -/
theorem parse_arguments_no_tool (p : Bool) (ft : String → Option Tool)
    (g : DevToolsConfig) (argv : List String) (hno : operands p (argv.drop 1) = []) :
    parse_arguments p ft g argv
      = some (if argv.length < 2 then
                (.returned { tool := none, argc := 0, argv := [],
                             error := { code := ERROR_INVALID_ARGUMENT,
                                        message := "No arguments provided" } }, g)
              else
                match scan_events g (option_events p (argv.drop 1)) with
                | (some .unknown, g1) =>
                  (.returned { tool := none, argc := 0, argv := [],
                               error := { code := ERROR_INVALID_ARGUMENT,
                                          message := "Unknown option" } }, g1)
                | (some _, g1) => (.exited EXIT_SUCCESS, g1)
                | (none, g1) =>
                  (.returned { tool := none, argc := 0, argv := [],
                               error := { code := ERROR_INVALID_ARGUMENT,
                                          message := "No tool specified" } }, g1)) ∧
    ((∀ o ∈ argv.drop 1, o ∈ flag_options) → argv.drop 1 ≠ [] →
      parse_arguments p ft g argv
        = some (.returned { tool := none, argc := 0, argv := [],
                            error := { code := ERROR_INVALID_ARGUMENT,
                                       message := "No tool specified" } },
                (argv.drop 1).foldl set_flag g)) := by
  constructor
  · rw [parse_arguments_eq_resolve]
    unfold resolve
    by_cases hargc : argv.length < 2
    · rw [if_pos hargc, if_pos hargc]
      rfl
    · rw [if_neg hargc, if_neg hargc, hno]
      generalize scan_events g (option_events p (argv.drop 1)) = se
      obtain ⟨stop, g1⟩ := se
      cases stop with
      | none => rfl
      | some e => cases e <;> rfl
  · intro hflags hne
    cases argv with
    | nil => exact absurd rfl hne
    | cons prog opts => exact parse_arguments_flags_none p ft g prog opts hflags hne

set_option maxRecDepth 100000 in
/-- C5 (witness): `devtools -v -q --verbose` fails with "No tool specified";
so does `devtools -qv --config my.rc`, whose file is no tool name. -/
theorem parse_arguments_no_tool_witness :
    operands false ["-v", "-q", "--verbose"] = [] ∧
    (∀ o ∈ ["-v", "-q", "--verbose"], o ∈ flag_options) ∧
    parse_arguments false (find_tool builtin_tools) g_config_zero
        ["devtools", "-v", "-q", "--verbose"]
      = some (.returned { tool := none, argc := 0, argv := [],
                          error := { code := ERROR_INVALID_ARGUMENT,
                                     message := "No tool specified" } },
              { g_config_zero with verbose := true, quiet := true }) ∧
    operands false ["-qv", "--config", "my.rc"] = [] ∧
    parse_arguments false (find_tool builtin_tools) g_config_zero
        ["devtools", "-qv", "--config", "my.rc"]
      = some (.returned { tool := none, argc := 0, argv := [],
                          error := { code := ERROR_INVALID_ARGUMENT,
                                     message := "No tool specified" } },
              { g_config_zero with verbose := true, quiet := true, config_file := "my.rc" }) :=
  ⟨by decide, by decide,
   (parse_arguments_no_tool false (find_tool builtin_tools) g_config_zero
     ["devtools", "-v", "-q", "--verbose"] (by decide)).2 (by decide) (by decide),
   by decide,
   (parse_arguments_no_tool false (find_tool builtin_tools) g_config_zero
     ["devtools", "-qv", "--config", "my.rc"] (by decide)).1.trans (by decide)⟩

end DevTools
